import Mathlib

/-!
# Prefix-notation expression parser (`objectExpression.js`)

A shallow embedding of `src/objectExpression.js`: the expression tree
(`Operation`, `Variable`, `Const`) with `evaluate` and `prefix`, and the
recursive-descent parser `parsePrefix` with its validation helpers.

Conventions of the embedding.

* The source text is a `List Char`, one character for each code unit of the
  string, so the embedding covers the strings whose code units are characters
  of the Basic Multilingual Plane; `source[l]` is `source[l]?`, where `none`
  stands for the JavaScript value `undefined` read past the end.
* A thrown exception is an `Except.error`; every distinct `throw` of the source
  has its own constructor of `Err`.
* Loops are structural recursions on a counter that is initialised with the
  number of iterations the loop can make at most.
* Numbers: a constant holds a value of the host's number type (`Num`): `NaN`,
  negative zero, an integer-valued double or an infinity. `parseInt` rounds the
  integer it reads to the nearest double, and `toString` prints a double as the
  host does (plain digits below 10^21, exponent form from there on). The
  arithmetic of `evaluate` is a parameter (`NumOps`), since it is the
  floating-point arithmetic of the host language.
* Letters: `toUpperCase` and `toLowerCase` are the host's Unicode case
  mappings; `casedRanges` lists the code units they map to different strings.
-/

namespace ObjectExpression

/-! ## Errors -/

/-- Every exception the source can raise. -/
inductive Err where
  /-- The string `"EmptyInput"` thrown by `parsePrefix`. -/
  | emptyInput
  /-- `Error("wrong bracket sequence")` of `skipBrackets`. -/
  | wrongBracketSequence
  /-- `Error("NaN")` of `parseNumStr`. -/
  | nan
  /-- `Error("Wrong Variable")` (`isVar = true`) or `Error("Wrong Number")`. -/
  | wrongPlaceholder (isVar : Bool)
  /-- `Error("Bare brackets")` of `checkBareBrackets`. -/
  | bareBrackets
  /-- `Error("Operands without operator")` of `checkSingle`. -/
  | operandsWithoutOperator
  /-- `Error("Unacceptable symbol " + res + " at position " + l)`. -/
  | unacceptableToken (res : List Char) (pos : Nat)
  /-- The string `"Unacceptable symbol " + source[l] + " at position " + l`. -/
  | unacceptableChar (ch : Char) (pos : Nat)
  /-- `Error("Wrong Number of Arguments")` raised by `isLetter(undefined)`. -/
  | wrongNumberOfArguments
  /-- The host `TypeError` of `arg.res` when `getArg` returned `undefined`. -/
  | undefinedArg
  /-- The host `TypeError` of `new op.op(...)` when `op.op` is no constructor. -/
  | notAConstructor
  /-- The host `TypeError` of calling a method a plain object does not have. -/
  | notAFunction
  /-- The recursion counter of the embedding ran out (no JavaScript counterpart). -/
  | outOfFuel
  deriving DecidableEq, Repr

/-- Both `throw`s of `checkUnacceptableSymbols` carry an "Unacceptable symbol" text. -/
def Err.isUnacceptableSymbol : Err → Bool
  | .unacceptableToken _ _ => true
  | .unacceptableChar _ _ => true
  | _ => false

/-! ## Operators: the nine `make(sign, op, argNum)` calls -/

/-- The constructors built with `make`. -/
inductive OpKind where
  | Add | Subtract | Multiply | Divide | Negate | Min3 | Max5 | Exp | ArcTan
  deriving DecidableEq, Repr

/-- First argument of `make`: the operator's text. -/
def OpKind.sign : OpKind → List Char
  | .Add => ['+']
  | .Subtract => ['-']
  | .Multiply => ['*']
  | .Divide => ['/']
  | .Negate => ['n', 'e', 'g', 'a', 't', 'e']
  | .Min3 => ['m', 'i', 'n', '3']
  | .Max5 => ['m', 'a', 'x', '5']
  | .Exp => ['e', 'x', 'p']
  | .ArcTan => ['a', 't', 'a', 'n']

/-- Third argument of `make`. -/
def OpKind.argNum : OpKind → Nat
  | .Add => 2
  | .Subtract => 2
  | .Multiply => 2
  | .Divide => 2
  | .Negate => 1
  | .Min3 => 3
  | .Max5 => 5
  | .Exp => 1
  | .ArcTan => 1

/-- The arithmetic of the host language on its values; `undefined` is the value
of a missing argument, `nan` is `NaN`, `negZero` is `-0`, `posInf` and `negInf`
are `Infinity` and `-Infinity`, `ofInt n` is the number nearest to the
integer `n`. -/
structure NumOps (V : Type) where
  undefined : V
  nan : V
  negZero : V
  posInf : V
  negInf : V
  ofInt : Int → V
  add : V → V → V
  sub : V → V → V
  mul : V → V → V
  div : V → V → V
  neg : V → V
  min : V → V → V
  max : V → V → V
  exp : V → V
  atan : V → V

/-- Second argument of `make`, applied to an argument list as `opFnc.apply` does:
a missing argument is `undefined`, surplus arguments are ignored. -/
def OpKind.opFnc {V : Type} (N : NumOps V) (op : OpKind) (args : List V) : V :=
  let arg := fun (i : Nat) => args.getD i N.undefined
  match op with
  | .Add => N.add (arg 0) (arg 1)
  | .Subtract => N.sub (arg 0) (arg 1)
  | .Multiply => N.mul (arg 0) (arg 1)
  | .Divide => N.div (arg 0) (arg 1)
  | .Negate => N.neg (arg 0)
  | .Min3 => N.min (arg 0) (N.min (arg 1) (arg 2))
  | .Max5 => N.max (arg 0) (N.max (arg 1) (N.max (arg 2) (N.max (arg 3) (arg 4))))
  | .Exp => N.exp (arg 0)
  | .ArcTan => N.atan (arg 0)

/-! ## Expression trees -/

/-- The numbers that a constant holds: `NaN`, `-0`, the double with the integer
value `n` (for an `n` that is no double, the double nearest to it), and the
two infinities. -/
inductive Num where
  | nan
  | negZero
  | int (n : Int)
  | inf (negative : Bool)

/-- The host value of a number. -/
def NumOps.ofNum {V : Type} (N : NumOps V) : Num → V
  | .nan => N.nan
  | .negZero => N.negZero
  | .int n => N.ofInt n
  | .inf false => N.posInf
  | .inf true => N.negInf

/-- What `parsePrefix` can return: the three expression classes, and the plain
object produced by `new Object()` (see `opMapGet`). -/
inductive Expr where
  | Operation (op : OpKind) (operands : List Expr)
  | Variable (varName : Char)
  | Const (val : Num)
  | Object

/-- The expression `"xyz".indexOf(varName)` for a one-character name; `none` is `-1`. -/
def indexOfXyz (varName : Char) : Option Nat :=
  if varName = 'x' then some 0
  else if varName = 'y' then some 1
  else if varName = 'z' then some 2
  else none

mutual
/-- The three `evaluate` methods; a plain object has none. -/
def Expr.evaluate {V : Type} (N : NumOps V) : Expr → List V → Except Err V
  | .Operation op operands, args =>
    match evaluateAll N operands args with
    | .ok vs => .ok (op.opFnc N vs)
    | .error e => .error e
  | .Variable varName, args =>
    match indexOfXyz varName with
    | some pos => .ok (args.getD pos N.undefined)
    | none => .ok N.undefined
  | .Const val, _ => .ok (N.ofNum val)
  | .Object, _ => .error .notAFunction
/-- The call `operands.map((op) => op.evaluate(...args))`, left to right. -/
def evaluateAll {V : Type} (N : NumOps V) : List Expr → List V → Except Err (List V)
  | [], _ => .ok []
  | e :: es, args =>
    match e.evaluate N args with
    | .ok v =>
      match evaluateAll N es args with
      | .ok vs => .ok (v :: vs)
      | .error err => .error err
    | .error err => .error err
end

/-- The character of a decimal digit. -/
def digitChar (d : Nat) : Char := Char.ofNat (48 + d)

/-- Decimal digits of a natural number, most significant first, pushed in front of `acc`. -/
def natToStringLoop : Nat → Nat → List Char → List Char
  | 0, _, acc => acc
  | fuel + 1, n, acc =>
    if n / 10 = 0 then digitChar (n % 10) :: acc
    else natToStringLoop fuel (n / 10) (digitChar (n % 10) :: acc)

/-- Decimal text of a natural number. -/
def natToString (n : Nat) : List Char := natToStringLoop (n + 1) n []

/-- Decimal text of an integer. -/
def intToString : Int → List Char
  | Int.ofNat n => natToString n
  | Int.negSucc n => '-' :: natToString (n + 1)

/-- Position of the leading binary digit of `n`, found by halving. -/
def binaryLog : Nat → Nat → Nat
  | 0, _ => 0
  | fuel + 1, n => if 2 ≤ n then binaryLog fuel (n / 2) + 1 else 0

/-- The integer-valued double nearest to the natural number `m`, ties going to
the even mantissa; `none` when the rounded value is beyond the largest double,
where the host has `Infinity`. Below 2^53 every integer is a double; from there
on a double has 53 binary digits followed by `e` zeros. -/
def roundDouble (m : Nat) : Option Nat :=
  if m < 9007199254740992 then some m
  else
    let e := binaryLog m m - 52
    let q := m / 2 ^ e
    let r := m % 2 ^ e
    let half := 2 ^ (e - 1)
    let q1 := if half < r ∨ (r = half ∧ q % 2 = 1) then q + 1 else q
    if e + binaryLog q1 q1 < 1024 then some (q1 * 2 ^ e) else none

/-- The shortest decimal text that the host prints for the double `x` with `d`
digits: the least number `k` of leading digits `s` such that `s` followed by
`p` zeros rounds to `x`; of two such `s` the one nearer to `x`, the even one
when both are as near. The result is the pair `(s, p)`. -/
def shortestLoop (x d : Nat) : Nat → Nat → Nat × Nat
  | 0, _ => (x, 0)
  | fuel + 1, k =>
    let p := d - k
    let lo := x / 10 ^ p
    let okLo := roundDouble (lo * 10 ^ p) = some x
    let okHi := roundDouble ((lo + 1) * 10 ^ p) = some x
    if okLo ∧ okHi then
      if x - lo * 10 ^ p < (lo + 1) * 10 ^ p - x
          ∨ (x - lo * 10 ^ p = (lo + 1) * 10 ^ p - x ∧ lo % 2 = 0) then (lo, p)
      else (lo + 1, p)
    else if okLo then (lo, p)
    else if okHi then (lo + 1, p)
    else shortestLoop x d fuel (k + 1)

/-- Method `toString` of the number nearest to a natural number `m` of 2^53 or
more: the shortest digits that denote the same double, as plain digits when
there are at most 21 of them and in exponent form otherwise. -/
def largeToString (m : Nat) : List Char :=
  match roundDouble m with
  | none => ['I', 'n', 'f', 'i', 'n', 'i', 't', 'y']
  | some x =>
    let sp := shortestLoop x (natToString x).length 17 1
    let digits := natToString sp.1 ++ List.replicate sp.2 '0'
    if digits.length ≤ 21 then digits
    else
      let sig := (digits.reverse.dropWhile (fun c => c = '0')).reverse
      let frac := if sig.tail = [] then [] else '.' :: sig.tail
      sig.head?.toList ++ frac ++ 'e' :: '+' :: natToString (digits.length - 1)

/-- Method `val.toString()` of a number. -/
def valToString : Num → List Char
  | .nan => ['N', 'a', 'N']
  | .negZero => ['0']
  | .inf false => ['I', 'n', 'f', 'i', 'n', 'i', 't', 'y']
  | .inf true => ['-', 'I', 'n', 'f', 'i', 'n', 'i', 't', 'y']
  | .int n =>
    if n.natAbs < 9007199254740992 then intToString n
    else if n < 0 then '-' :: largeToString n.natAbs
    else largeToString n.natAbs

/-- The call `strs.join(" ")`. -/
def joinSpace : List (List Char) → List Char
  | [] => []
  | [a] => a
  | a :: b :: rest => a ++ ' ' :: joinSpace (b :: rest)

mutual
/-- The three `prefix` methods; a plain object has none. -/
def Expr.prefix : Expr → Except Err (List Char)
  | .Operation op operands =>
    match prefixAll operands with
    | .ok strs => .ok ('(' :: (op.sign ++ ' ' :: (joinSpace strs ++ [')'])))
    | .error e => .error e
  | .Variable varName => .ok [varName]
  | .Const val => .ok (valToString val)
  | .Object => .error .notAFunction
/-- The call `operands.map((i) => i.prefix())`. -/
def prefixAll : List Expr → Except Err (List (List Char))
  | [] => .ok []
  | e :: es =>
    match e.prefix with
    | .ok s =>
      match prefixAll es with
      | .ok ss => .ok (s :: ss)
      | .error err => .error err
    | .error err => .error err
end

end ObjectExpression

namespace ObjectExpression

/-! ## The parser -/

/-- Text of `source[l]` when it is appended to a string: `undefined` reads "undefined". -/
def jsStr : Option Char → List Char
  | some c => [c]
  | none => ['u', 'n', 'd', 'e', 'f', 'i', 'n', 'e', 'd']

/-- What a property lookup in `opMap` yields. -/
inductive OpMapEntry where
  /-- One of the seven own properties: a constructor built with `make`. -/
  | ctor (op : OpKind)
  /-- The inherited property `constructor`, which is `Object`; it has no `argNum`. -/
  | objectCtor
  /-- Any other inherited property: not a constructor, and without `argNum`. -/
  | notConstructible
  deriving DecidableEq, Repr

/-- The lookup `opMap[res]`; `none` when `res in opMap` is false. `opMap` is an
object literal, so besides its seven own keys the `in` operator also finds the
properties inherited from `Object.prototype`. -/
def opMapGet (res : List Char) : Option OpMapEntry :=
  if res = ['+'] then some (.ctor .Add)
  else if res = ['-'] then some (.ctor .Subtract)
  else if res = ['/'] then some (.ctor .Divide)
  else if res = ['*'] then some (.ctor .Multiply)
  else if res = ['n', 'e', 'g', 'a', 't', 'e'] then some (.ctor .Negate)
  else if res = ['e', 'x', 'p'] then some (.ctor .Exp)
  else if res = ['a', 't', 'a', 'n'] then some (.ctor .ArcTan)
  else if res = ['c', 'o', 'n', 's', 't', 'r', 'u', 'c', 't', 'o', 'r'] then some .objectCtor
  else if res = ['t', 'o', 'S', 't', 'r', 'i', 'n', 'g']
      ∨ res = ['v', 'a', 'l', 'u', 'e', 'O', 'f']
      ∨ res = ['t', 'o', 'L', 'o', 'c', 'a', 'l', 'e', 'S', 't', 'r', 'i', 'n', 'g']
      ∨ res = ['h', 'a', 's', 'O', 'w', 'n', 'P', 'r', 'o', 'p', 'e', 'r', 't', 'y']
      ∨ res = ['i', 's', 'P', 'r', 'o', 't', 'o', 't', 'y', 'p', 'e', 'O', 'f']
      ∨ res = ['p', 'r', 'o', 'p', 'e', 'r', 't', 'y', 'I', 's', 'E', 'n', 'u', 'm', 'e', 'r',
               'a', 'b', 'l', 'e']
      ∨ res = ['_', '_', 'p', 'r', 'o', 't', 'o', '_', '_']
      ∨ res = ['_', '_', 'd', 'e', 'f', 'i', 'n', 'e', 'G', 'e', 't', 't', 'e', 'r', '_', '_']
      ∨ res = ['_', '_', 'd', 'e', 'f', 'i', 'n', 'e', 'S', 'e', 't', 't', 'e', 'r', '_', '_']
      ∨ res = ['_', '_', 'l', 'o', 'o', 'k', 'u', 'p', 'G', 'e', 't', 't', 'e', 'r', '_', '_']
      ∨ res = ['_', '_', 'l', 'o', 'o', 'k', 'u', 'p', 'S', 'e', 't', 't', 'e', 'r', '_', '_']
    then some .notConstructible
  else none

/-- The test `res in opMap`. -/
def inOpMap (res : List Char) : Bool := (opMapGet res).isSome

/-- The value `op.op.argNum` as the bound of the operand loop: a value without
`argNum` makes `i < undefined` false at once. -/
def OpMapEntry.argNum : OpMapEntry → Nat
  | .ctor op => op.argNum
  | .objectCtor => 0
  | .notConstructible => 0

/-- The code units `ch` with `ch.toUpperCase() !== ch.toLowerCase()`, as closed
ranges of code points: the characters of the Basic Multilingual Plane that the
case mappings of Unicode 14 send to two different strings. -/
def casedRanges : List (Nat × Nat) :=
  [(65, 90), (97, 122), (181, 181), (192, 214), (216, 246), (248, 311), (313, 396), (398, 410),
   (412, 425), (428, 441), (444, 445), (447, 447), (452, 544), (546, 563), (570, 596),
   (598, 599), (601, 601), (603, 604), (608, 609), (611, 611), (613, 614), (616, 620),
   (623, 623), (625, 626), (629, 629), (637, 637), (640, 640), (642, 643), (647, 652),
   (658, 658), (669, 670), (837, 837), (880, 883), (886, 887), (891, 893), (895, 895),
   (902, 902), (904, 906), (908, 908), (910, 929), (931, 977), (981, 1013), (1015, 1019),
   (1021, 1153), (1162, 1327), (1329, 1366), (1377, 1415), (4256, 4293), (4295, 4295),
   (4301, 4301), (4304, 4346), (4349, 4351), (5024, 5109), (5112, 5117), (7296, 7304),
   (7312, 7354), (7357, 7359), (7545, 7545), (7549, 7549), (7566, 7566), (7680, 7835),
   (7838, 7838), (7840, 7957), (7960, 7965), (7968, 8005), (8008, 8013), (8016, 8023),
   (8025, 8025), (8027, 8027), (8029, 8029), (8031, 8061), (8064, 8116), (8118, 8124),
   (8126, 8126), (8130, 8132), (8134, 8140), (8144, 8147), (8150, 8155), (8160, 8172),
   (8178, 8180), (8182, 8188), (8486, 8486), (8490, 8491), (8498, 8498), (8526, 8526),
   (8544, 8575), (8579, 8580), (9398, 9449), (11264, 11376), (11378, 11379), (11381, 11382),
   (11390, 11491), (11499, 11502), (11506, 11507), (11520, 11557), (11559, 11559),
   (11565, 11565), (42560, 42605), (42624, 42651), (42786, 42799), (42802, 42863),
   (42873, 42887), (42891, 42893), (42896, 42900), (42902, 42926), (42928, 42954),
   (42960, 42961), (42966, 42969), (42997, 42998), (43859, 43859), (43888, 43967),
   (64256, 64262), (64275, 64279), (65313, 65338), (65345, 65370)]

/-- The test `ch.toUpperCase() !== ch.toLowerCase()` on one code unit. -/
def isCased (ch : Char) : Bool :=
  casedRanges.any (fun lh => decide (lh.1 ≤ ch.toNat) && decide (ch.toNat ≤ lh.2))

/-- Function `isLetter`: `ch.toUpperCase() !== ch.toLowerCase()`; on `undefined`
the method call fails and the `catch` rethrows. -/
def isLetter : Option Char → Except Err Bool
  | some ch => .ok (isCased ch)
  | none => .error .wrongNumberOfArguments

/-- Function `isDigit`: `ch <= "9" && ch >= "0"`; false on `undefined`. -/
def isDigit : Option Char → Bool
  | some ch => decide (ch ≤ '9') && decide ('0' ≤ ch)
  | none => false

/-- Function `isBraket`. -/
def isBraket (ch : Option Char) : Bool := ch = some '(' || ch = some ')'

/-- Function `isAcceptableLetter`. -/
def isAcceptableLetter (ch : Option Char) : Bool :=
  ch = some 'x' || ch = some 'y' || ch = some 'z'

/-- Loop of `skipWhitespaces`. -/
def skipWhitespacesLoop (source : List Char) : Nat → Nat → Nat
  | 0, l => l
  | fuel + 1, l =>
    if source[l]? = some ' ' then skipWhitespacesLoop source fuel (l + 1) else l

/-- Function `skipWhitespaces`. -/
def skipWhitespaces (source : List Char) (l : Nat) : Nat :=
  skipWhitespacesLoop source (source.length - l) l

/-- Loop of `parseComplexOp`. -/
def parseComplexOpLoop (source : List Char) (r : Nat) : Nat → Nat → List Char → List Char
  | 0, _, res => res
  | fuel + 1, l, res =>
    if l < r ∧ source[l]? ≠ some ' ' ∧ isBraket source[l]? = false then
      parseComplexOpLoop source r fuel (l + 1) (res ++ jsStr source[l]?)
    else res

/-- Function `parseComplexOp`. -/
def parseComplexOp (source : List Char) (l r : Nat) : List Char :=
  parseComplexOpLoop source r (r - l) l []

/-- Function `checkUnacceptableSymbols`. -/
def checkUnacceptableSymbols (source : List Char) (l r : Nat) : Except Err Unit :=
  if isDigit source[l]? = false ∧ isBraket source[l]? = false
      ∧ isAcceptableLetter source[l]? = false ∧ source[l]? ≠ some ' '
      ∧ inOpMap (jsStr source[l]?) = false then
    match isLetter source[l]? with
    | .error e => .error e
    | .ok letter =>
      let res := parseComplexOp source l r
      if letter = true ∧ inOpMap res = false then .error (.unacceptableToken res l)
      else
        match source[l]? with
        | some ch => .error (.unacceptableChar ch l)
        | none => .error .wrongNumberOfArguments
  else .ok ()

/-- Function `getOp`; `none` is the returned `undefined`. The second conjunct of
the source's test applies `isDigit` to `res` only when `res` is the text "-". -/
def getOp (source : List Char) (l r : Nat) : Except Err (Option (OpMapEntry × Nat)) :=
  let l := skipWhitespaces source l
  let res := parseComplexOp source l r
  match opMapGet res with
  | some entry =>
    if ¬ (res = ['-'] ∧ isDigit (some '-') = true) then
      .ok (some (entry, skipWhitespaces source (l + res.length)))
    else
      match checkUnacceptableSymbols source l l with
      | .error e => .error e
      | .ok _ => .ok none
  | none =>
    match checkUnacceptableSymbols source l l with
    | .error e => .error e
    | .ok _ => .ok none

/-- Loop of `skipBrackets`: returns the final `l` and `bracketCount`. -/
def skipBracketsLoop (source : List Char) (r : Nat) (rstrict : Bool) :
    Nat → Nat → Bool → Int → Nat × Int
  | 0, l, _, bracketCount => (l, bracketCount)
  | fuel + 1, l, firstIn, bracketCount =>
    if l ≤ r then
      if bracketCount = 0 ∧ rstrict = false ∧ firstIn = false then (l, bracketCount)
      else
        let c1 := if source[l]? = some '(' then bracketCount + 1 else bracketCount
        let c2 := if source[l]? = some ')' then c1 - 1 else c1
        if c2 < 0 then (l, c2)
        else skipBracketsLoop source r rstrict fuel (l + 1) false c2
    else (l, bracketCount)

/-- Function `skipBrackets`. -/
def skipBrackets (source : List Char) (l r : Nat) (rstrict : Bool) : Except Err Nat :=
  let bracketCount : Int := if 0 < l ∧ source[l - 1]? = some '(' then 1 else 0
  let out := skipBracketsLoop source r rstrict (r + 1 - l) l true bracketCount
  if out.2 ≠ 0 then .error .wrongBracketSequence else .ok (out.1 - 1)

/-- Function `checkBrecketSequence`. -/
def checkBrecketSequence (source : List Char) : Except Err Nat :=
  skipBrackets source 0 source.length true

/-- Loop of `parseNumStr`. -/
def parseNumStrLoop (source : List Char) : Nat → Nat → List Char → List Char
  | 0, _, res => res
  | fuel + 1, l, res =>
    if isDigit source[l]? = true ∨ source[l]? = some '-' then
      parseNumStrLoop source fuel (l + 1) (res ++ jsStr source[l]?)
    else res

/-- Function `parseNumStr`. -/
def parseNumStr (source : List Char) (l : Nat) : Except Err (List Char) :=
  let res := parseNumStrLoop source (source.length - l) l []
  if res.length = 0 then .error .nan else .ok res

/-- Value of a run of decimal digits. -/
def digitsValue (ds : List Char) : Nat :=
  ds.foldl (fun acc ch => 10 * acc + (ch.toNat - 48)) 0

/-- The number for a sign and the integer `m` that `parseInt` has read: the
zero of that sign, the double nearest to `m`, or the infinity of that sign. -/
def numOfMagnitude (negative : Bool) (m : Nat) : Num :=
  if m = 0 then (if negative = true then .negZero else .int 0)
  else
    match roundDouble m with
    | some x => .int (if negative = true then -(x : Int) else (x : Int))
    | none => .inf negative

/-- The host function `parseInt` on a run of digits and `-` signs: an optional
leading `-`, then the longest run of digits; `NaN` when that run is empty. -/
def parseInt (res : List Char) : Num :=
  match res with
  | '-' :: rest =>
    let ds := rest.takeWhile (fun ch => isDigit (some ch))
    if ds = [] then .nan else numOfMagnitude true (digitsValue ds)
  | _ =>
    let ds := res.takeWhile (fun ch => isDigit (some ch))
    if ds = [] then .nan else numOfMagnitude false (digitsValue ds)

/-- Function `checkBareBrackets`. -/
def checkBareBrackets (source : List Char) (l r : Nat) : Except Err Unit :=
  if 0 < l ∧ source[l - 1]? = some '(' ∧ r + 1 < source.length ∧ source[r + 1]? = some ')' then
    .error .bareBrackets
  else .ok ()

/-- Function `checkPlaceholder`. -/
def checkPlaceholder (source : List Char) (l r : Nat) (isVar : Bool) : Except Err Unit :=
  if (0 < l ∧ source[l - 1]? ≠ some ' ' ∧ source[l - 1]? ≠ some ')' ∧ source[l - 1]? ≠ some '('
        ∧ (source[l - 1]? ≠ some '-' ∨ isVar = true))
      ∨ (r + 1 < source.length ∧ source[r + 1]? ≠ some ' ' ∧ source[r + 1]? ≠ some ')'
        ∧ source[r + 1]? ≠ some '(') then
    .error (.wrongPlaceholder isVar)
  else checkBareBrackets source l r

/-- The empty `for` loop of `checkSingle`. -/
def checkSingleLoop (source : List Char) (r : Nat) : Nat → Nat → Nat
  | 0, i => i
  | fuel + 1, i =>
    if i < r ∧ source[i]? = some ' ' then checkSingleLoop source r fuel (i + 1) else i

/-- Function `checkSingle`. -/
def checkSingle (source : List Char) (l r : Nat) : Except Err Unit :=
  let i := if source[l]? = some ')' then l + 1 else l
  let i := checkSingleLoop source r (r - i) i
  if source[i]? ≠ some ')' ∧ i ≠ source.length ∧ i ≤ r then .error .operandsWithoutOperator
  else .ok ()

/-- One run of the `while (source[l] === ")")` loop of `getArg`, at most `fuel` rounds. -/
def skipClosingLoop (source : List Char) : Nat → Nat → Nat
  | 0, l => l
  | fuel + 1, l =>
    if source[l]? = some ')' then skipClosingLoop source fuel (skipWhitespaces source (l + 1))
    else l

/-- The `while (source[l] === ")")` loop of `getArg`, started at `l`. -/
def skipClosing (source : List Char) (l : Nat) : Nat :=
  skipClosingLoop source (source.length - l) l

/-- Function `getArg`, with the recursive call of `parse` as the parameter
`parseRec`; `none` is the `undefined` returned when `checkUnacceptableSymbols`
does not throw. In the branch of the variables `source[l]` is one of `x`, `y`,
`z`, so the default of `getD` is never used. -/
def getArg (source : List Char) (parseRec : Nat → Nat → Except Err Expr) (l r : Nat) :
    Except Err (Option (Expr × Nat)) :=
  let l := skipClosing source (skipWhitespaces source l)
  if source[l]? = some '(' then
    match skipBrackets source l r false with
    | .error e => .error e
    | .ok end_ =>
      match parseRec l end_ with
      | .error e => .error e
      | .ok res => .ok (some (res, skipWhitespaces source end_))
  else if isAcceptableLetter source[l]? = true then
    match checkPlaceholder source l l true with
    | .error e => .error e
    | .ok _ => .ok (some (.Variable (source.getD l 'x'), skipWhitespaces source (l + 1)))
  else if isDigit source[l]? = true ∨ source[l]? = some '-' then
    match parseNumStr source l with
    | .error e => .error e
    | .ok res =>
      match checkPlaceholder source l (l + res.length - 1) false with
      | .error e => .error e
      | .ok _ => .ok (some (.Const (parseInt res), skipWhitespaces source (l + res.length)))
  else
    match checkUnacceptableSymbols source l l with
    | .error e => .error e
    | .ok _ => .ok none

/-- The operand loop of `parse`: `n` calls of `getArg`, each starting where the
previous one ended; reading `arg.res` of an `undefined` result is a `TypeError`. -/
def parseOperands (source : List Char) (parseRec : Nat → Nat → Except Err Expr) (end_ : Nat) :
    Nat → Nat → List Expr → Except Err (List Expr × Nat)
  | 0, start, operands => .ok (operands, start)
  | n + 1, start, operands =>
    match getArg source parseRec start end_ with
    | .error e => .error e
    | .ok none => .error .undefinedArg
    | .ok (some (res, next)) => parseOperands source parseRec end_ n next (operands ++ [res])

/-- Function `parse`; the first argument bounds the depth of the recursion. -/
def parse (source : List Char) : Nat → Nat → Nat → Except Err Expr
  | 0, _, _ => .error .outOfFuel
  | fuel + 1, l, r =>
    let l := if source[l]? = some '(' then l + 1 else l
    match getOp source l r with
    | .error e => .error e
    | .ok op =>
      let start := match op with
        | none => l
        | some (_, opEnd) => opEnd
      let argNum := match op with
        | none => 1
        | some (entry, _) => entry.argNum
      match parseOperands source (parse source fuel) r argNum start [] with
      | .error e => .error e
      | .ok (operands, start) =>
        match checkSingle source start r with
        | .error e => .error e
        | .ok _ =>
          match op with
          | none =>
            match operands with
            | first :: _ => .ok first
            | [] => .error .undefinedArg
          | some (.ctor k, _) => .ok (.Operation k operands)
          | some (.objectCtor, _) => .ok .Object
          | some (.notConstructible, _) => .error .notAConstructor

/-- Function `parsePrefix`. A call of `parse` at position `l` only recurses at
positions greater than `l` that hold an opening bracket, so `length + 1` levels
of recursion are never exceeded. -/
def parsePrefix (str : List Char) : Except Err Expr :=
  if str.length = 0 then .error .emptyInput
  else
    match checkBrecketSequence str with
    | .error e => .error e
    | .ok _ => parse str (str.length + 1) 0 str.length

end ObjectExpression

namespace ObjectExpression

/-! ## Notions used to state the properties -/

/-- Contribution of one character to the nesting depth. -/
def bracketDelta (c : Char) : Int :=
  if c = '(' then 1 else if c = ')' then -1 else 0

/-- Number of opening brackets minus number of closing brackets. -/
def depth : List Char → Int
  | [] => 0
  | c :: cs => bracketDelta c + depth cs

/-- Balanced brackets: no prefix holds more closing than opening brackets, and
the totals agree. -/
def Balanced (s : List Char) : Prop :=
  (∀ n, n ≤ s.length → 0 ≤ depth (s.take n)) ∧ depth s = 0

instance (s : List Char) : Decidable (Balanced s) := by
  unfold Balanced; exact inferInstance

/-- No prefix of the text holds more closing than opening brackets. -/
def PrefixNonneg (w : List Char) : Prop := ∀ n, 0 ≤ depth (w.take n)

/-- A character that `parseComplexOp` takes into a token. -/
def tokenChar (c : Char) : Bool := c != ' ' && c != '(' && c != ')'

/-- A character that `parseNumStr` takes into a literal. -/
def numChar (c : Char) : Bool := isDigit (some c) || c == '-'

/-- An integer literal: one or more decimal digits, optionally after one `-`. -/
def isIntLiteral (w : List Char) : Bool :=
  match w with
  | '-' :: ds => !ds.isEmpty && ds.all (fun c => isDigit (some c))
  | ds => !ds.isEmpty && ds.all (fun c => isDigit (some c))

/-- A leaf token: one of the variables `x`, `y`, `z` or an integer literal. -/
def isLeafToken (w : List Char) : Bool :=
  w == ['x'] || w == ['y'] || w == ['z'] || isIntLiteral w

/-- Splitting a text into its tokens: each bracket is a token, each longest
run of other characters than spaces and brackets is a token; `cur` is the
run collected so far. -/
def tokensLoop : List Char → List Char → List (List Char)
  | [], cur => if cur = [] then [] else [cur]
  | c :: cs, cur =>
    if c = ' ' then (if cur = [] then [] else [cur]) ++ tokensLoop cs []
    else if c = '(' ∨ c = ')' then (if cur = [] then [] else [cur]) ++ [c] :: tokensLoop cs []
    else tokensLoop cs (cur ++ [c])

/-- The tokens of a text. -/
def tokens (s : List Char) : List (List Char) := tokensLoop s []

mutual
/-- The tokens that spell a tree in the grammar
`E ::= x | y | z | integer | ( op E ... E )`, one token for each leaf and an
opening bracket, the operator and a closing bracket for each operation. -/
def treeTokens : Expr → List (List Char)
  | .Operation op operands => ['('] :: op.sign :: (treeTokensAll operands ++ [[')']])
  | .Variable varName => [[varName]]
  | .Const val => [valToString val]
  | .Object => []
/-- The tokens of a list of trees, in order. -/
def treeTokensAll : List Expr → List (List Char)
  | [] => []
  | e :: es => treeTokens e ++ treeTokensAll es
end

/-- Text of an expression: the result of `prefix`, empty when `prefix` throws. -/
def Expr.text (e : Expr) : List Char :=
  match Expr.prefix e with
  | .ok s => s
  | .error _ => []

mutual
/-- Trees built from the seven operators that `opMap` holds, each with as many
operands as its `argNum`, the variables `x`, `y`, `z` and the integer constants
of a magnitude below 2^53, which the host stores exactly and prints in plain
digits. -/
def Expr.Canonical : Expr → Bool
  | .Operation op operands =>
    decide (opMapGet op.sign = some (.ctor op)) && decide (operands.length = op.argNum)
      && allCanonical operands
  | .Variable varName => isAcceptableLetter (some varName)
  | .Const (.int n) => decide (n.natAbs < 9007199254740992)
  | .Const _ => false
  | .Object => false
/-- Every tree of the list is canonical. -/
def allCanonical : List Expr → Bool
  | [] => true
  | e :: es => e.Canonical && allCanonical es
end

mutual
/-- Nesting height of a tree: a leaf has height 0. -/
def Expr.height : Expr → Nat
  | .Operation _ operands => heightAll operands + 1
  | _ => 0
/-- Largest height in a list of trees. -/
def heightAll : List Expr → Nat
  | [] => 0
  | e :: es => max e.height (heightAll es)
end

/-- The integer `n` as a value of `exactOps`, when its magnitude is at most 2^53. -/
def safeInt (n : Int) : Option Int :=
  if n.natAbs ≤ 9007199254740992 then some n else none

/-- A sound part of the host arithmetic on the integers of a magnitude up to
2^53, where the operations on doubles are exact: `some n` is a number that is
equal to the integer `n` (for `n = 0` a zero of either sign); `none` is any
other value, or a value that is not followed further (`undefined`, `NaN`, a
fraction, an infinity, a result beyond 2^53). Whenever an operation returns
`some n` here, the host returns a number equal to `n`. -/
def exactOps : NumOps (Option Int) where
  undefined := none
  nan := none
  negZero := some 0
  posInf := none
  negInf := none
  ofInt := safeInt
  add := fun a b => match a, b with
    | some m, some n => safeInt (m + n)
    | _, _ => none
  sub := fun a b => match a, b with
    | some m, some n => safeInt (m - n)
    | _, _ => none
  mul := fun a b => match a, b with
    | some m, some n => safeInt (m * n)
    | _, _ => none
  div := fun a b => match a, b with
    | some m, some n => if n ≠ 0 ∧ n ∣ m then safeInt (m / n) else none
    | _, _ => none
  neg := fun a => match a with
    | some m => safeInt (-m)
    | none => none
  min := fun a b => match a, b with
    | some m, some n => safeInt (Min.min m n)
    | _, _ => none
  max := fun a b => match a, b with
    | some m, some n => safeInt (Max.max m n)
    | _, _ => none
  exp := fun a => match a with
    | some 0 => some 1
    | _ => none
  atan := fun a => match a with
    | some 0 => some 0
    | _ => none

/-- The errors that the functions below `parsePrefix` can raise while they
read the source: every error but "EmptyInput" (raised by `parsePrefix`
itself), "NaN", the failed method call on a plain object, and the exhausted
recursion counter of the embedding. -/
def Err.raisedByParser : Err → Bool
  | .wrongBracketSequence => true
  | .wrongPlaceholder _ => true
  | .bareBrackets => true
  | .operandsWithoutOperator => true
  | .unacceptableToken _ _ => true
  | .unacceptableChar _ _ => true
  | .wrongNumberOfArguments => true
  | .undefinedArg => true
  | .notAConstructor => true
  | .emptyInput => false
  | .nan => false
  | .notAFunction => false
  | .outOfFuel => false

/-- No opening bracket stands at a position from `start` on that is not behind `l`. -/
def NoOpenAt (s : List Char) (l start : Nat) : Prop :=
  ∀ p, start ≤ p → s[p]? = some '(' → l < p

mutual
/-- A tree of the data model: operations, variables named `x`, `y` or `z`, and
constants; no plain object. -/
def Expr.IsExpression : Expr → Bool
  | .Operation _ operands => allIsExpression operands
  | .Variable varName => isAcceptableLetter (some varName)
  | .Const _ => true
  | .Object => false
/-- Every tree of the list is a tree of the data model. -/
def allIsExpression : List Expr → Bool
  | [] => true
  | e :: es => e.IsExpression && allIsExpression es
end

mutual
/-- Number of operation nodes of a tree. -/
def Expr.operationCount : Expr → Nat
  | .Operation _ operands => operationCountAll operands + 1
  | _ => 0
/-- Number of operation nodes in a list of trees. -/
def operationCountAll : List Expr → Nat
  | [] => 0
  | e :: es => e.operationCount + operationCountAll es
end

mutual
/-- The well-formedness of a tree: every operation carries an operator
registered in `opMap` and exactly `argNum` operands, every operand is an
operation, a variable or a constant, and every variable is `x`, `y` or `z`. -/
def Expr.WellFormed : Expr → Bool
  | .Operation op operands =>
    decide (opMapGet op.sign = some (.ctor op)) && decide (operands.length = op.argNum)
      && allWellFormed operands
  | .Variable varName => isAcceptableLetter (some varName)
  | .Const _ => true
  | .Object => false
/-- Every tree of the list is well-formed. -/
def allWellFormed : List Expr → Bool
  | [] => true
  | e :: es => e.WellFormed && allWellFormed es
end

mutual
/-- The part of the well-formedness that holds of every tree the parser
returns: as `WellFormed`, but a node may also be a plain object. -/
def Expr.Shaped : Expr → Bool
  | .Operation op operands =>
    decide (opMapGet op.sign = some (.ctor op)) && decide (operands.length = op.argNum)
      && allShaped operands
  | .Variable varName => isAcceptableLetter (some varName)
  | .Const _ => true
  | .Object => true
/-- Every tree of the list is shaped. -/
def allShaped : List Expr → Bool
  | [] => true
  | e :: es => e.Shaped && allShaped es
end

/-- The closing bracket at `m` matches the opening bracket at `l`: between
them the nesting depth, counted from `l`, stays positive, and at `m` it is
back to zero. -/
def MatchAt (s : List Char) (l m : Nat) : Prop :=
  l < m ∧ m < s.length ∧ s[l]? = some '(' ∧ depth ((s.drop l).take (m + 1 - l)) = 0 ∧
    ∀ k, k ≤ m - l → 0 < k → 0 < depth ((s.drop l).take k)

instance (s : List Char) (l m : Nat) : Decidable (MatchAt s l m) := by
  unfold MatchAt; exact inferInstance

end ObjectExpression

namespace ObjectExpression

/-! ## Reading the source text -/

theorem getElem?_of_drop {s : List Char} {l : Nat} {c : Char} {rest : List Char}
    (h : s.drop l = c :: rest) : s[l]? = some c := by
  have := congrArg (fun t => t[0]?) h
  simpa using this

theorem getElem?_drop_add {s : List Char} {l : Nat} {t : List Char} (h : s.drop l = t) (k : Nat) :
    s[l + k]? = t[k]? := by
  rw [← h]; simp

theorem drop_add_of_drop {s : List Char} {l : Nat} {t : List Char} (h : s.drop l = t) (k : Nat) :
    s.drop (l + k) = t.drop k := by
  rw [← h, List.drop_drop]

theorem skipWhitespaces_of_ne {s : List Char} {l : Nat} (h : s[l]? ≠ some ' ') :
    skipWhitespaces s l = l := by
  unfold skipWhitespaces
  cases hf : s.length - l with
  | zero => rfl
  | succ n => simp [skipWhitespacesLoop, h]

theorem skipWhitespaces_of_space {s : List Char} {l : Nat} (h : s[l]? = some ' ') :
    skipWhitespaces s l = skipWhitespaces s (l + 1) := by
  unfold skipWhitespaces
  have hl : l < s.length := by
    by_contra hc
    rw [List.getElem?_eq_none (by omega)] at h
    cases h
  have hf : s.length - l = (s.length - (l + 1)) + 1 := by omega
  rw [hf]
  simp [skipWhitespacesLoop, h]

theorem skipWhitespaces_ge (s : List Char) (l : Nat) : l ≤ skipWhitespaces s l := by
  unfold skipWhitespaces
  generalize s.length - l = fuel
  induction fuel generalizing l with
  | zero => simp [skipWhitespacesLoop]
  | succ n ih =>
    simp only [skipWhitespacesLoop]
    split
    · have := ih (l + 1); omega
    · exact Nat.le_refl l

/-! ## The strict bracket check -/

theorem depth_append (a b : List Char) : depth (a ++ b) = depth a + depth b := by
  induction a with
  | nil => simp [depth]
  | cons c cs ih => simp [depth, ih]; ring

/-- The strict scan from position `l` with count `c` ends with count zero exactly
when no prefix of the remaining text drives the count below zero and the whole
remaining text brings it to zero. -/
theorem skipBracketsLoop_strict (s : List Char) :
    ∀ (fuel l : Nat) (firstIn : Bool) (c : Int), fuel = s.length + 1 - l → 0 ≤ c →
      ((skipBracketsLoop s s.length true fuel l firstIn c).2 = 0 ↔
        ((∀ n, n ≤ (s.drop l).length → 0 ≤ c + depth ((s.drop l).take n))
          ∧ c + depth (s.drop l) = 0)) := by
  intro fuel
  induction fuel with
  | zero =>
    intro l firstIn c hf hc
    have hl : s.length ≤ l := by omega
    simp [skipBracketsLoop, List.drop_eq_nil_of_le hl, depth, hc]
  | succ n ih =>
    intro l firstIn c hf hc
    have hl : l ≤ s.length := by omega
    simp only [skipBracketsLoop, hl, if_true]
    rcases Nat.lt_or_ge l s.length with hlt | hge
    · obtain ⟨ch, rest, hdrop⟩ : ∃ ch rest, s.drop l = ch :: rest := by
        cases hd : s.drop l with
        | nil =>
          have := congrArg List.length hd
          simp at this; omega
        | cons ch rest => exact ⟨ch, rest, rfl⟩
      have hget : s[l]? = some ch := getElem?_of_drop hdrop
      have hdrop1 : s.drop (l + 1) = rest := by
        have := drop_add_of_drop hdrop 1
        simpa using this
      have hc2 : (if s[l]? = some ')' then (if s[l]? = some '(' then c + 1 else c) - 1
          else (if s[l]? = some '(' then c + 1 else c)) = c + bracketDelta ch := by
        rw [hget]
        by_cases h1 : ch = '('
        · subst h1; simp [bracketDelta]
        · by_cases h2 : ch = ')'
          · subst h2; simp [bracketDelta]; ring
          · simp [bracketDelta, h1, h2]
      simp only [Bool.true_eq_false, false_and, and_false, if_false, hc2]
      by_cases hneg : c + bracketDelta ch < 0
      · simp only [hneg, if_true]
        constructor
        · intro h; omega
        · intro h
          have := h.1 1 (by simp [hdrop])
          simp [hdrop, depth] at this
          omega
      · simp only [hneg, if_false]
        rw [ih (l + 1) false (c + bracketDelta ch) (by omega) (by omega), hdrop1, hdrop]
        constructor
        · rintro ⟨h1, h2⟩
          refine ⟨?_, ?_⟩
          · intro k hk
            cases k with
            | zero => simpa [depth] using hc
            | succ k =>
              have := h1 k (by simpa using hk)
              simp only [List.take_succ_cons, depth]
              omega
          · simp only [depth]; omega
        · rintro ⟨h1, h2⟩
          refine ⟨?_, ?_⟩
          · intro k hk
            have := h1 (k + 1) (by simpa using hk)
            simp only [List.take_succ_cons, depth] at this
            omega
          · simp only [depth] at h2; omega
    · have hle : l = s.length := by omega
      have hget : s[l]? = none := List.getElem?_eq_none (by omega)
      have hn : n = 0 := by omega
      subst hn
      have hnc : ¬ c < 0 := by omega
      simp [hget, skipBracketsLoop, List.drop_eq_nil_of_le hge, depth, hc, hnc]

theorem checkBrecketSequence_error_iff (s : List Char) :
    checkBrecketSequence s = .error .wrongBracketSequence ↔ ¬ Balanced s := by
  unfold checkBrecketSequence skipBrackets
  have h := skipBracketsLoop_strict s (s.length + 1 - 0) 0 true 0 rfl (le_refl 0)
  simp only [lt_irrefl, false_and, if_false, List.drop_zero, zero_add] at h ⊢
  unfold Balanced
  rw [← h]
  split <;> simp_all

theorem skipBrackets_error {s : List Char} {l r : Nat} {b : Bool} {e : Err}
    (h : skipBrackets s l r b = .error e) : e = .wrongBracketSequence := by
  unfold skipBrackets at h
  simp only at h
  split_ifs at h <;> (cases h; rfl)

theorem checkBrecketSequence_ok_of_balanced {s : List Char} (h : Balanced s) :
    ∃ n, checkBrecketSequence s = .ok n := by
  have h1 := (checkBrecketSequence_error_iff s).not.mpr (not_not.mpr h)
  cases h2 : checkBrecketSequence s with
  | ok n => exact ⟨n, rfl⟩
  | error e =>
    exfalso
    apply h1
    rw [h2, skipBrackets_error h2]

end ObjectExpression

namespace ObjectExpression

/-! ## The token loops -/

theorem parseComplexOpLoop_run (s : List Char) (r : Nat) :
    ∀ (w : List Char) (fuel l : Nat) (acc rest : List Char),
      s.drop l = w ++ rest → (∀ c ∈ w, tokenChar c = true) →
      ((∃ c, rest.head? = some c ∧ tokenChar c = false) ∨ l + w.length = r) →
      l + w.length ≤ r → fuel = r - l →
      parseComplexOpLoop s r fuel l acc = acc ++ w := by
  intro w
  induction w with
  | nil =>
    intro fuel l acc rest hdrop _ hstop hr hf
    cases fuel with
    | zero => simp [parseComplexOpLoop]
    | succ n =>
      have hlt : l < r := by omega
      rcases hstop with ⟨c, hhead, hc⟩ | hstop
      · cases rest with
        | nil => simp at hhead
        | cons d rest =>
          simp at hhead
          subst hhead
          have hget : s[l]? = some d := getElem?_of_drop (by simpa using hdrop)
          simp [tokenChar] at hc
          simp only [parseComplexOpLoop, hget, isBraket]
          by_cases h1 : d = ' '
          · simp [h1]
          · by_cases h2 : d = '('
            · simp [h2]
            · have h3 := hc h1 h2
              simp [h3]
      · simp at hstop; omega
  | cons c w ih =>
    intro fuel l acc rest hdrop hall hstop hr hf
    have hget : s[l]? = some c := getElem?_of_drop (by simpa using hdrop)
    have hc := hall c (by simp)
    simp [tokenChar] at hc
    simp only [List.length_cons] at hr hstop
    cases fuel with
    | zero => omega
    | succ n =>
      have hlt : l < r := by omega
      simp only [parseComplexOpLoop, hget, isBraket, jsStr]
      have hcond : l < r ∧ some c ≠ some ' ' ∧ (decide (some c = some '(') || decide (some c = some ')')) = false := by
        refine ⟨hlt, by simp [hc.1.1], by simp [hc.1.2, hc.2]⟩
      rw [if_pos hcond]
      have hdrop1 : s.drop (l + 1) = w ++ rest := by
        have := drop_add_of_drop hdrop 1
        simpa using this
      rw [ih n (l + 1) (acc ++ [c]) rest hdrop1 (fun d hd => hall d (by simp [hd]))
        (by rcases hstop with h | h
            · exact Or.inl h
            · exact Or.inr (by omega)) (by omega) (by omega)]
      simp

/-- Function `parseComplexOp` returns the run of token characters at `l`,
when that run ends before `r`. -/
theorem parseComplexOp_eq {s : List Char} {l r : Nat} {w t : List Char}
    (hdrop : s.drop l = w ++ t) (hall : ∀ c ∈ w, tokenChar c = true)
    (hstop : (∃ c, t.head? = some c ∧ tokenChar c = false) ∨ l + w.length = r)
    (hr : l + w.length ≤ r) : parseComplexOp s l r = w := by
  unfold parseComplexOp
  rw [parseComplexOpLoop_run s r w (r - l) l [] t hdrop hall hstop hr rfl]
  simp

theorem parseComplexOp_self (s : List Char) (l : Nat) : parseComplexOp s l l = [] := by
  simp [parseComplexOp, parseComplexOpLoop]

theorem parseNumStrLoop_run (s : List Char) :
    ∀ (w : List Char) (fuel l : Nat) (acc rest : List Char),
      s.drop l = w ++ rest → (∀ c ∈ w, numChar c = true) →
      rest.head?.all (fun c => !numChar c) = true → fuel = s.length - l →
      parseNumStrLoop s fuel l acc = acc ++ w := by
  intro w
  induction w with
  | nil =>
    intro fuel l acc rest hdrop _ hstop hf
    cases fuel with
    | zero => simp [parseNumStrLoop]
    | succ n =>
      cases rest with
      | nil =>
        have hlen := congrArg List.length hdrop
        simp at hlen
        omega
      | cons c rest =>
        have hget : s[l]? = some c := getElem?_of_drop (by simpa using hdrop)
        simp [numChar] at hstop
        simp [parseNumStrLoop, hget, hstop]
  | cons c w ih =>
    intro fuel l acc rest hdrop hall hstop hf
    have hget : s[l]? = some c := getElem?_of_drop (by simpa using hdrop)
    have hc := hall c (by simp)
    simp [numChar] at hc
    have hlen := congrArg List.length hdrop
    simp at hlen
    cases fuel with
    | zero => omega
    | succ n =>
      simp only [parseNumStrLoop, hget, jsStr]
      have hcond : isDigit (some c) = true ∨ some c = some '-' := by
        rcases hc with h | h
        · exact Or.inl h
        · exact Or.inr (by rw [h])
      rw [if_pos hcond]
      have hdrop1 : s.drop (l + 1) = w ++ rest := by
        have := drop_add_of_drop hdrop 1
        simpa using this
      rw [ih n (l + 1) (acc ++ [c]) rest hdrop1 (fun d hd => hall d (by simp [hd])) hstop
        (by omega)]
      simp

/-- Function `parseNumStr` returns the run of digits and `-` signs at `l`. -/
theorem parseNumStr_eq {s : List Char} {l : Nat} {w rest : List Char}
    (hdrop : s.drop l = w ++ rest) (hall : ∀ c ∈ w, numChar c = true)
    (hstop : rest.head?.all (fun c => !numChar c) = true) (hw : w ≠ []) :
    parseNumStr s l = .ok w := by
  unfold parseNumStr
  rw [parseNumStrLoop_run s w (s.length - l) l [] rest hdrop hall hstop rfl]
  have : w.length ≠ 0 := by
    intro h; exact hw (List.length_eq_zero.mp h)
  simp [this]

end ObjectExpression

namespace ObjectExpression

/-! ## Decimal text of integer constants -/

theorem digitChar_toNat {d : Nat} (h : d < 10) : (digitChar d).toNat = 48 + d := by
  interval_cases d <;> rfl

theorem isDigit_digitChar {d : Nat} (h : d < 10) : isDigit (some (digitChar d)) = true := by
  interval_cases d <;> rfl

theorem digitChar_ne_minus {d : Nat} (h : d < 10) : digitChar d ≠ '-' := by
  interval_cases d <;> decide

theorem digitsValue_append (ds : List Char) (c : Char) :
    digitsValue (ds ++ [c]) = 10 * digitsValue ds + (c.toNat - 48) := by
  simp [digitsValue, List.foldl_append]

/-- The digit loop yields a non-empty run of digits whose value is `n`. -/
theorem natToStringLoop_spec :
    ∀ (fuel n : Nat) (acc : List Char), n < fuel →
      ∃ ds, natToStringLoop fuel n acc = ds ++ acc ∧ ds ≠ [] ∧
        (∀ c ∈ ds, isDigit (some c) = true) ∧ digitsValue ds = n := by
  intro fuel
  induction fuel with
  | zero => intro n acc h; omega
  | succ k ih =>
    intro n acc h
    simp only [natToStringLoop]
    by_cases h0 : n / 10 = 0
    · rw [if_pos h0]
      have hn : n < 10 := by omega
      refine ⟨[digitChar (n % 10)], by simp, by simp, ?_, ?_⟩
      · intro c hc
        simp at hc
        subst hc
        exact isDigit_digitChar (by omega)
      · simp [digitsValue, digitChar_toNat (show n % 10 < 10 by omega)]
        omega
    · rw [if_neg h0]
      obtain ⟨ds, h1, _, h3, h4⟩ := ih (n / 10) (digitChar (n % 10) :: acc) (by omega)
      refine ⟨ds ++ [digitChar (n % 10)], by simp [h1], by simp, ?_, ?_⟩
      · intro c hc
        simp at hc
        rcases hc with hc | hc
        · exact h3 c hc
        · subst hc
          exact isDigit_digitChar (by omega)
      · rw [digitsValue_append, h4, digitChar_toNat (show n % 10 < 10 by omega)]
        omega

theorem natToString_spec (n : Nat) :
    natToString n ≠ [] ∧ (∀ c ∈ natToString n, isDigit (some c) = true) ∧
      digitsValue (natToString n) = n := by
  obtain ⟨ds, h1, h2, h3, h4⟩ := natToStringLoop_spec (n + 1) n [] (by omega)
  have : natToString n = ds := by simp [natToString, h1]
  rw [this]
  exact ⟨h2, h3, h4⟩

theorem isDigit_ne_minus {c : Char} (h : isDigit (some c) = true) : c ≠ '-' := by
  intro hc
  subst hc
  revert h
  decide

theorem takeWhile_isDigit_all {ds : List Char} (h : ∀ c ∈ ds, isDigit (some c) = true) :
    ds.takeWhile (fun ch => isDigit (some ch)) = ds := by
  rw [List.takeWhile_eq_self_iff]
  exact h

theorem roundDouble_safe {m : Nat} (h : m < 9007199254740992) : roundDouble m = some m := by
  unfold roundDouble
  rw [if_pos h]

theorem numOfMagnitude_nonneg {m : Nat} (h : m < 9007199254740992) :
    numOfMagnitude false m = .int (m : Int) := by
  unfold numOfMagnitude
  by_cases h0 : m = 0
  · subst h0; rfl
  · rw [if_neg h0, roundDouble_safe h]
    rfl

theorem numOfMagnitude_neg {m : Nat} (h : m < 9007199254740992) (h0 : m ≠ 0) :
    numOfMagnitude true m = .int (-(m : Int)) := by
  unfold numOfMagnitude
  rw [if_neg h0, roundDouble_safe h]
  rfl

theorem parseInt_digits {ds : List Char} (hne : ds ≠ [])
    (h : ∀ c ∈ ds, isDigit (some c) = true) :
    parseInt ds = numOfMagnitude false (digitsValue ds) := by
  cases ds with
  | nil => exact absurd rfl hne
  | cons c cs =>
    have hc : c ≠ '-' := isDigit_ne_minus (h c (by simp))
    unfold parseInt
    split
    · rename_i heq
      simp at heq
      exact absurd heq.1.symm (fun h => hc h.symm)
    · simp only [takeWhile_isDigit_all h]
      simp

theorem parseInt_minus_digits {ds : List Char} (hne : ds ≠ [])
    (h : ∀ c ∈ ds, isDigit (some c) = true) :
    parseInt ('-' :: ds) = numOfMagnitude true (digitsValue ds) := by
  simp only [parseInt, takeWhile_isDigit_all h]
  simp [hne]

/-- Below 2^53 the host prints an integer in plain decimal digits. -/
theorem valToString_int {n : Int} (hn : n.natAbs < 9007199254740992) :
    valToString (.int n) = intToString n := by
  simp only [valToString]
  rw [if_pos hn]

/-- Reading back the decimal text of an integer below 2^53 gives the integer. -/
theorem parseInt_intToString {n : Int} (hn : n.natAbs < 9007199254740992) :
    parseInt (intToString n) = .int n := by
  cases n with
  | ofNat k =>
    obtain ⟨h1, h2, h3⟩ := natToString_spec k
    simp only [intToString]
    rw [parseInt_digits h1 h2, h3]
    exact numOfMagnitude_nonneg (by simpa using hn)
  | negSucc k =>
    obtain ⟨h1, h2, h3⟩ := natToString_spec (k + 1)
    simp only [intToString]
    rw [parseInt_minus_digits h1 h2, h3]
    rw [numOfMagnitude_neg (by simpa using hn) (by omega)]
    rfl

/-- Reading back the text of an integer constant below 2^53 gives the constant. -/
theorem parseInt_valToString {n : Int} (hn : n.natAbs < 9007199254740992) :
    parseInt (valToString (.int n)) = .int n := by
  rw [valToString_int hn, parseInt_intToString hn]

/-- The decimal text of an integer is a non-empty run of literal characters. -/
theorem intToString_numChar (n : Int) :
    intToString n ≠ [] ∧ ∀ c ∈ intToString n, numChar c = true := by
  cases n with
  | ofNat k =>
    obtain ⟨h1, h2, _⟩ := natToString_spec k
    refine ⟨by simpa [intToString] using h1, ?_⟩
    intro c hc
    simp only [intToString] at hc
    simp [numChar, h2 c hc]
  | negSucc k =>
    obtain ⟨_, h2, _⟩ := natToString_spec (k + 1)
    refine ⟨by simp [intToString], ?_⟩
    intro c hc
    simp only [intToString, List.mem_cons] at hc
    rcases hc with hc | hc
    · subst hc; rfl
    · simp [numChar, h2 c hc]

/-- The text of an integer constant below 2^53 is a non-empty run of literal
characters. -/
theorem valToString_numChar {n : Int} (hn : n.natAbs < 9007199254740992) :
    valToString (.int n) ≠ [] ∧ ∀ c ∈ valToString (.int n), numChar c = true := by
  rw [valToString_int hn]
  exact intToString_numChar n

/-- The constants of canonical trees are the integers below 2^53. -/
theorem canonical_const {val : Num} (h : (Expr.Const val).Canonical = true) :
    ∃ n : Int, val = .int n ∧ n.natAbs < 9007199254740992 := by
  cases val with
  | int n => exact ⟨n, rfl, by simpa [Expr.Canonical] using h⟩
  | nan => simp [Expr.Canonical] at h
  | negZero => simp [Expr.Canonical] at h
  | inf b => simp [Expr.Canonical] at h

theorem numChar_ne {c : Char} (h : numChar c = true) : c ≠ ' ' ∧ c ≠ '(' ∧ c ≠ ')' := by
  refine ⟨?_, ?_, ?_⟩ <;> (intro hc; subst hc; revert h; decide)

end ObjectExpression

namespace ObjectExpression

/-! ## Operands that are leaves -/

theorem skipClosingLoop_fuel (s : List Char) :
    ∀ (fuel1 fuel2 l : Nat), s.length - l ≤ fuel1 → s.length - l ≤ fuel2 →
      skipClosingLoop s fuel1 l = skipClosingLoop s fuel2 l := by
  intro fuel1
  induction fuel1 with
  | zero =>
    intro fuel2 l h1 _
    have hl : s.length ≤ l := by omega
    have hget : s[l]? ≠ some ')' := by
      rw [List.getElem?_eq_none hl]; simp
    cases fuel2 with
    | zero => rfl
    | succ m => simp [skipClosingLoop, hget]
  | succ n ih =>
    intro fuel2 l h1 h2
    by_cases hc : s[l]? = some ')'
    · have hl : l < s.length := by
        by_contra hcon
        rw [List.getElem?_eq_none (by omega)] at hc
        cases hc
      have hge := skipWhitespaces_ge s (l + 1)
      cases fuel2 with
      | zero => omega
      | succ m =>
        simp only [skipClosingLoop, hc, if_true]
        exact ih m _ (by omega) (by omega)
    · cases fuel2 with
      | zero => simp [skipClosingLoop, hc]
      | succ m => simp [skipClosingLoop, hc]

theorem skipClosing_of_ne {s : List Char} {l : Nat} (h : s[l]? ≠ some ')') :
    skipClosing s l = l := by
  unfold skipClosing
  cases hf : s.length - l with
  | zero => rfl
  | succ n => simp [skipClosingLoop, h]

theorem skipClosing_of_closing {s : List Char} {l : Nat} (h : s[l]? = some ')') :
    skipClosing s l = skipClosing s (skipWhitespaces s (l + 1)) := by
  unfold skipClosing
  have hl : l < s.length := by
    by_contra hcon
    rw [List.getElem?_eq_none (by omega)] at h
    cases h
  have hge := skipWhitespaces_ge s (l + 1)
  have hf : s.length - l = (s.length - l - 1) + 1 := by omega
  rw [hf]
  simp only [skipClosingLoop, h, if_true]
  exact skipClosingLoop_fuel s _ _ _ (by omega) (by omega)

theorem checkPlaceholder_ok {s : List Char} {l r : Nat} {isVar : Bool}
    (hprev : l = 0 ∨ s[l - 1]? = some ' ')
    (hnext : s[r + 1]? = none ∨ s[r + 1]? = some ' ' ∨ s[r + 1]? = some ')') :
    checkPlaceholder s l r isVar = .ok () := by
  have h1 : ¬ (0 < l ∧ s[l - 1]? ≠ some ' ' ∧ s[l - 1]? ≠ some ')' ∧ s[l - 1]? ≠ some '('
        ∧ (s[l - 1]? ≠ some '-' ∨ isVar = true)) := by
    rintro ⟨h0, h1, _⟩
    rcases hprev with h | h
    · omega
    · exact h1 h
  have h2 : ¬ (r + 1 < s.length ∧ s[r + 1]? ≠ some ' ' ∧ s[r + 1]? ≠ some ')'
        ∧ s[r + 1]? ≠ some '(') := by
    rintro ⟨h0, h1, h2, _⟩
    rcases hnext with h | h | h
    · rw [List.getElem?_eq_none_iff] at h; omega
    · exact h1 h
    · exact h2 h
  have h3 : ¬ (0 < l ∧ s[l - 1]? = some '(' ∧ r + 1 < s.length ∧ s[r + 1]? = some ')') := by
    rintro ⟨h0, h1, _⟩
    rcases hprev with h | h
    · omega
    · rw [h] at h1; revert h1; decide
  unfold checkPlaceholder checkBareBrackets
  rw [if_neg (by rintro (h | h); exact h1 h; exact h2 h), if_neg h3]

theorem head?_cases_getElem? {s : List Char} {p k : Nat} {w t : List Char}
    (hdrop : s.drop p = w ++ t) (hk : k = w.length) : s[p + k]? = t.head? := by
  rw [getElem?_drop_add hdrop k, hk, List.getElem?_append_right (le_refl _)]
  simp [List.head?_eq_getElem?]

/-- An operand that is a variable: `getArg` returns it and the position after
the name and the spaces that follow. -/
theorem getArg_variable {s : List Char} (parseRec : Nat → Nat → Except Err Expr)
    {start r p : Nat} {v : Char} {rest : List Char}
    (hstart : skipClosing s (skipWhitespaces s start) = p)
    (hdrop : s.drop p = v :: rest) (hv : isAcceptableLetter (some v) = true)
    (hprev : p = 0 ∨ s[p - 1]? = some ' ')
    (hnext : rest.head? = none ∨ rest.head? = some ' ' ∨ rest.head? = some ')') :
    getArg s parseRec start r = .ok (some (.Variable v, skipWhitespaces s (p + 1))) := by
  have hget : s[p]? = some v := getElem?_of_drop hdrop
  have hnext1 : s[p + 1]? = rest.head? :=
    head?_cases_getElem? (w := [v]) (by simpa using hdrop) rfl
  have hne : v ≠ '(' := by
    intro h; subst h; revert hv; decide
  unfold getArg
  simp only [hstart, hget]
  rw [if_neg (by simp [hne]), if_pos hv, checkPlaceholder_ok hprev (by rw [hnext1]; exact hnext)]
  simp [List.getD, hget]

/-- An operand that is an integer literal: `getArg` returns the constant and
the position after the literal and the spaces that follow. -/
theorem getArg_const {s : List Char} (parseRec : Nat → Nat → Except Err Expr)
    {start r p : Nat} {n : Int} {rest : List Char} (hn : n.natAbs < 9007199254740992)
    (hstart : skipClosing s (skipWhitespaces s start) = p)
    (hdrop : s.drop p = valToString (.int n) ++ rest)
    (hprev : p = 0 ∨ s[p - 1]? = some ' ')
    (hnext : rest.head? = none ∨ rest.head? = some ' ' ∨ rest.head? = some ')') :
    getArg s parseRec start r
      = .ok (some (.Const (.int n), skipWhitespaces s (p + (valToString (.int n)).length)))
      := by
  obtain ⟨hne, hall⟩ := valToString_numChar hn
  obtain ⟨c, w, hw⟩ : ∃ c w, valToString (.int n) = c :: w := by
    cases h : valToString (.int n) with
    | nil => exact absurd h hne
    | cons c w => exact ⟨c, w, rfl⟩
  have hget : s[p]? = some c := getElem?_of_drop (by rw [hdrop, hw]; rfl)
  have hc : numChar c = true := hall c (by rw [hw]; simp)
  have hc1 : c ≠ '(' := (numChar_ne hc).2.1
  have hc2 : isAcceptableLetter (some c) = false := by
    by_contra h
    simp only [Bool.not_eq_false] at h
    simp only [isAcceptableLetter, Bool.or_eq_true, decide_eq_true_eq, Option.some.injEq] at h
    rcases h with (h | h) | h <;> (subst h; revert hc; decide)
  have hc3 : isDigit (some c) = true ∨ some c = some '-' := by
    simp only [numChar, Bool.or_eq_true, beq_iff_eq] at hc
    rcases hc with h | h
    · exact Or.inl h
    · exact Or.inr (by rw [h])
  have hstop : rest.head?.all (fun c => !numChar c) = true := by
    rcases hnext with h | h | h <;> rw [h] <;> rfl
  have hlen : 0 < (valToString (.int n)).length := by rw [hw]; simp
  have hnext1 : s[p + (valToString (.int n)).length - 1 + 1]? = rest.head? := by
    have : p + (valToString (.int n)).length - 1 + 1 = p + (valToString (.int n)).length := by
      omega
    rw [this]
    exact head?_cases_getElem? hdrop rfl
  unfold getArg
  simp only [hstart, hget]
  rw [if_neg (by simp [hc1]), if_neg (by simp [hc2]), if_pos hc3,
    parseNumStr_eq hdrop hall hstop hne]
  simp only
  rw [checkPlaceholder_ok hprev (by rw [hnext1]; exact hnext), parseInt_valToString hn]

end ObjectExpression

namespace ObjectExpression

/-! ## The text of a canonical tree -/

mutual
theorem prefix_ok_of_canonical : ∀ (e : Expr), e.Canonical = true → ∃ t, Expr.prefix e = .ok t
  | .Operation op operands, h => by
    simp only [Expr.Canonical, Bool.and_eq_true] at h
    obtain ⟨ts, hts⟩ := prefixAll_ok_of_canonical operands h.2
    simp only [ Expr.prefix, hts]
    exact ⟨_, rfl⟩
  | .Variable v, _ => ⟨[v], rfl⟩
  | .Const val, _ => ⟨valToString val, rfl⟩
  | .Object, h => by simp [Expr.Canonical] at h
theorem prefixAll_ok_of_canonical :
    ∀ (es : List Expr), allCanonical es = true → ∃ ts, prefixAll es = .ok ts
  | [], _ => ⟨[], rfl⟩
  | e :: es, h => by
    simp only [allCanonical, Bool.and_eq_true] at h
    obtain ⟨t, ht⟩ := prefix_ok_of_canonical e h.1
    obtain ⟨ts, hts⟩ := prefixAll_ok_of_canonical es h.2
    simp only [prefixAll, ht, hts]
    exact ⟨_, rfl⟩
end

theorem prefix_eq_text {e : Expr} (h : e.Canonical = true) : Expr.prefix e = .ok e.text := by
  obtain ⟨t, ht⟩ := prefix_ok_of_canonical e h
  simp [Expr.text, ht]

theorem prefixAll_eq_text : ∀ (es : List Expr), allCanonical es = true →
    prefixAll es = .ok (es.map Expr.text)
  | [], _ => rfl
  | e :: es, h => by
    simp only [allCanonical, Bool.and_eq_true] at h
    simp only [prefixAll, prefix_eq_text h.1, prefixAll_eq_text es h.2, List.map_cons]

theorem text_operation {op : OpKind} {es : List Expr} (h : allCanonical es = true) :
    (Expr.Operation op es).text
      = '(' :: (op.sign ++ ' ' :: (joinSpace (es.map Expr.text) ++ [')'])) := by
  simp [Expr.text, Expr.prefix, prefixAll_eq_text es h]

theorem text_variable (v : Char) : (Expr.Variable v).text = [v] := rfl

theorem text_const (val : Num) : (Expr.Const val).text = valToString val := rfl

theorem allCanonical_iff {es : List Expr} :
    allCanonical es = true ↔ ∀ e ∈ es, e.Canonical = true := by
  induction es with
  | nil => simp [allCanonical]
  | cons e es ih => simp [allCanonical, ih]

theorem height_le_heightAll {es : List Expr} {e : Expr} (h : e ∈ es) :
    e.height ≤ heightAll es := by
  induction es with
  | nil => cases h
  | cons a as ih =>
    simp only [heightAll]
    rcases List.mem_cons.mp h with h | h
    · subst h; exact le_max_left _ _
    · exact le_trans (ih h) (le_max_right _ _)

/-- The text of a canonical tree starts with a character that is neither a
space nor a closing bracket, and it is an opening bracket only for an operation. -/
theorem text_head {e : Expr} (h : e.Canonical = true) :
    ∃ c w, e.text = c :: w ∧ c ≠ ' ' ∧ c ≠ ')' := by
  cases e with
  | Operation op es =>
    simp only [Expr.Canonical, Bool.and_eq_true] at h
    exact ⟨'(', _, text_operation h.2, by decide, by decide⟩
  | Variable v =>
    refine ⟨v, [], rfl, ?_, ?_⟩ <;> (intro hv; subst hv; revert h; decide)
  | Const val =>
    obtain ⟨n, hval, hn⟩ := canonical_const h
    subst hval
    · obtain ⟨hne, hall⟩ := valToString_numChar hn
      cases hw : valToString (.int n) with
      | nil => exact absurd hw hne
      | cons c w =>
        have hc := numChar_ne (hall c (by rw [hw]; simp))
        exact ⟨c, w, by rw [text_const, hw], hc.1, hc.2.2⟩
  | Object => simp [Expr.Canonical] at h

/-! ## Nesting depth of a text -/

theorem depth_take_append (a b : List Char) (n : Nat) :
    depth ((a ++ b).take n) = depth (a.take n) + depth (b.take (n - a.length)) := by
  rw [List.take_append_eq_append_take, depth_append]

theorem prefixNonneg_append {a b : List Char} (ha : PrefixNonneg a) (ha0 : depth a = 0)
    (hb : PrefixNonneg b) : PrefixNonneg (a ++ b) := by
  intro n
  rw [depth_take_append]
  by_cases h : n ≤ a.length
  · have : n - a.length = 0 := by omega
    rw [this]
    simp only [List.take_zero, depth, add_zero]
    exact ha n
  · rw [List.take_of_length_le (by omega), ha0, zero_add]
    exact hb _

theorem depth_of_no_bracket {w : List Char} (h : ∀ c ∈ w, c ≠ '(' ∧ c ≠ ')') : depth w = 0 := by
  induction w with
  | nil => rfl
  | cons c w ih =>
    have hc := h c (by simp)
    simp [depth, bracketDelta, hc.1, hc.2, ih (fun d hd => h d (by simp [hd]))]

theorem prefixNonneg_of_no_bracket {w : List Char} (h : ∀ c ∈ w, c ≠ '(' ∧ c ≠ ')') :
    PrefixNonneg w := by
  intro n
  rw [depth_of_no_bracket (fun c hc => h c (List.mem_of_mem_take hc))]

theorem sign_no_bracket (op : OpKind) : ∀ c ∈ op.sign, c ≠ '(' ∧ c ≠ ')' := by
  cases op <;> decide

theorem sign_tokenChar (op : OpKind) : ∀ c ∈ op.sign, tokenChar c = true := by
  cases op <;> decide

/-- The text of an operation between its brackets. -/
theorem prefixNonneg_enclose {body : List Char} (h : PrefixNonneg body) (h0 : depth body = 0) :
    depth ('(' :: (body ++ [')'])) = 0 ∧ PrefixNonneg ('(' :: (body ++ [')'])) ∧
      ∀ n, 0 < n → n < ('(' :: (body ++ [')'])).length →
        0 < depth (('(' :: (body ++ [')'])).take n) := by
  have hd : depth ('(' :: (body ++ [')'])) = 0 := by
    simp [depth, depth_append, h0, bracketDelta]
  have hpos : ∀ n, 0 < n → n < ('(' :: (body ++ [')'])).length →
      0 < depth (('(' :: (body ++ [')'])).take n) := by
    intro n hn hlt
    obtain ⟨k, rfl⟩ : ∃ k, n = k + 1 := ⟨n - 1, by omega⟩
    simp only [List.length_cons, List.length_append, List.length_singleton,
      List.length_nil] at hlt
    simp only [List.take_succ_cons, depth, List.take_append_eq_append_take, depth_append]
    have hk : k - body.length = 0 := by omega
    rw [hk]
    have := h k
    simp [depth, bracketDelta]
    omega
  refine ⟨hd, ?_, hpos⟩
  intro n
  by_cases hn : n = 0
  · subst hn; simp [depth]
  · by_cases hlt : n < ('(' :: (body ++ [')'])).length
    · exact le_of_lt (hpos n (by omega) hlt)
    · rw [List.take_of_length_le (by omega), hd]

end ObjectExpression

namespace ObjectExpression

theorem joinSpace_cons_cons (a b : List Char) (rest : List (List Char)) :
    joinSpace (a :: b :: rest) = a ++ ' ' :: joinSpace (b :: rest) := rfl

theorem prefixNonneg_space_cons {w : List Char} (h : PrefixNonneg w) :
    PrefixNonneg (' ' :: w) := by
  intro n
  cases n with
  | zero => simp [depth]
  | succ k =>
    have := h k
    simpa [depth, bracketDelta] using this

theorem depth_space_cons (w : List Char) : depth (' ' :: w) = depth w := by
  simp [depth, bracketDelta]

mutual
/-- The text of a canonical tree has balanced brackets. -/
theorem text_depth : ∀ (e : Expr), e.Canonical = true →
    depth e.text = 0 ∧ PrefixNonneg e.text
  | .Operation op es, h => by
    simp only [Expr.Canonical, Bool.and_eq_true] at h
    obtain ⟨hj0, hj⟩ := joinSpace_depth es h.2
    have hs0 := depth_of_no_bracket (sign_no_bracket op)
    have hs := prefixNonneg_of_no_bracket (sign_no_bracket op)
    have hb0 : depth (op.sign ++ ' ' :: joinSpace (es.map Expr.text)) = 0 := by
      rw [depth_append, hs0, depth_space_cons, hj0]; rfl
    have hb : PrefixNonneg (op.sign ++ ' ' :: joinSpace (es.map Expr.text)) :=
      prefixNonneg_append hs hs0 (prefixNonneg_space_cons hj)
    have := prefixNonneg_enclose hb hb0
    rw [text_operation h.2]
    simp only [List.append_assoc, List.cons_append] at this
    exact ⟨this.1, this.2.1⟩
  | .Variable v, h => by
    have hv : ∀ c ∈ [v], c ≠ '(' ∧ c ≠ ')' := by
      intro c hc
      simp at hc
      subst hc
      constructor <;> (intro hv; subst hv; revert h; decide)
    exact ⟨depth_of_no_bracket hv, prefixNonneg_of_no_bracket hv⟩
  | .Const val, h => by
    obtain ⟨n, hval, hn⟩ := canonical_const h
    subst hval
    have hv : ∀ c ∈ valToString (.int n), c ≠ '(' ∧ c ≠ ')' := by
      intro c hc
      exact (numChar_ne ((valToString_numChar hn).2 c hc)).2
    exact ⟨depth_of_no_bracket hv, prefixNonneg_of_no_bracket hv⟩
  | .Object, h => by simp [Expr.Canonical] at h
theorem joinSpace_depth : ∀ (es : List Expr), allCanonical es = true →
    depth (joinSpace (es.map Expr.text)) = 0 ∧ PrefixNonneg (joinSpace (es.map Expr.text))
  | [], _ => ⟨rfl, fun n => by simp [joinSpace, depth]⟩
  | [e], h => by
    simp only [allCanonical, Bool.and_eq_true] at h
    simpa [joinSpace] using text_depth e h.1
  | e :: e' :: es, h => by
    have h' := h
    simp only [allCanonical, Bool.and_eq_true] at h
    obtain ⟨h0, hn⟩ := text_depth e h.1
    obtain ⟨hj0, hj⟩ := joinSpace_depth (e' :: es) (by simp [allCanonical, h.2.1, h.2.2])
    simp only [List.map_cons, joinSpace_cons_cons] at hj0 hj ⊢
    refine ⟨?_, prefixNonneg_append hn h0 (prefixNonneg_space_cons hj)⟩
    rw [depth_append, h0, depth_space_cons, hj0]; rfl
end

/-! ## Finding the closing bracket of an operand -/

/-- The scan of `skipBrackets` inside a bracketed text: from an inner position
it runs to the position after the matching closing bracket. -/
theorem skipBracketsLoop_inner (s : List Char) (r p : Nat) (T rest : List Char)
    (hdrop : s.drop p = T ++ rest) (hT0 : depth T = 0)
    (hpos : ∀ n, 0 < n → n < T.length → 0 < depth (T.take n))
    (hr : p + T.length ≤ r + 1) :
    ∀ (d k fuel : Nat), d = T.length - k → 0 < k → k ≤ T.length → fuel = r + 1 - (p + k) →
      skipBracketsLoop s r false fuel (p + k) false (depth (T.take k)) = (p + T.length, 0) := by
  intro d
  induction d with
  | zero =>
    intro k fuel hd hk hkT hf
    have hkeq : k = T.length := by omega
    subst hkeq
    rw [List.take_of_length_le (le_refl _), hT0]
    cases fuel with
    | zero => rfl
    | succ n => simp [skipBracketsLoop]
  | succ d ih =>
    intro k fuel hd hk hkT hf
    have hlt : k < T.length := by omega
    have hcount := hpos k hk hlt
    have hget : s[p + k]? = some (T[k]) := by
      rw [getElem?_drop_add hdrop k, List.getElem?_append_left hlt, List.getElem?_eq_getElem hlt]
    have htake : depth (T.take (k + 1)) = depth (T.take k) + bracketDelta (T[k]) := by
      rw [List.take_succ, depth_append, List.getElem?_eq_getElem hlt]
      simp [depth]
    have hnext : 0 ≤ depth (T.take (k + 1)) := by
      by_cases hk1 : k + 1 < T.length
      · exact le_of_lt (hpos (k + 1) (by omega) hk1)
      · rw [List.take_of_length_le (by omega), hT0]
    cases fuel with
    | zero => omega
    | succ n =>
      have hle : p + k ≤ r := by omega
      have hc2 : (if s[p + k]? = some ')' then
            (if s[p + k]? = some '(' then depth (T.take k) + 1 else depth (T.take k)) - 1
          else (if s[p + k]? = some '(' then depth (T.take k) + 1 else depth (T.take k)))
          = depth (T.take (k + 1)) := by
        rw [hget, htake]
        by_cases h1 : T[k] = '('
        · rw [h1]; simp [bracketDelta]
        · by_cases h2 : T[k] = ')'
          · rw [h2]; simp [bracketDelta]; ring
          · simp [bracketDelta, h1, h2]
      simp only [skipBracketsLoop, hle, if_true, hc2]
      rw [if_neg (by omega), if_neg (by omega)]
      have := ih (k + 1) n (by omega) (by omega) (by omega) (by omega)
      rw [← this]
      rfl

/-- Function `skipBrackets`, non-strict, at the opening bracket of a bracketed
text returns the position of the matching closing bracket. -/
theorem skipBrackets_enclosed {s : List Char} {p r : Nat} {body rest : List Char}
    (hdrop : s.drop p = '(' :: (body ++ [')']) ++ rest)
    (hb : PrefixNonneg body) (hb0 : depth body = 0)
    (hprev : p = 0 ∨ s[p - 1]? ≠ some '(')
    (hr : p + (body.length + 2) ≤ r + 1) :
    skipBrackets s p r false = .ok (p + body.length + 1) := by
  obtain ⟨hT0, _, hpos⟩ := prefixNonneg_enclose hb hb0
  have hlen : ('(' :: (body ++ [')'])).length = body.length + 2 := by simp
  have hget : s[p]? = some '(' := getElem?_of_drop (by simpa using hdrop)
  have hseed : ¬ (0 < p ∧ s[p - 1]? = some '(') := by
    rintro ⟨h0, h1⟩
    rcases hprev with h | h
    · omega
    · exact h h1
  have hinner := skipBracketsLoop_inner s r p _ rest hdrop hT0 hpos (by rw [hlen]; exact hr)
    (body.length + 1) 1 (r - p) (by rw [hlen]; omega) (by omega) (by rw [hlen]; omega)
    (by omega)
  have htake1 : depth (('(' :: (body ++ [')'])).take 1) = 1 := by
    simp [depth, bracketDelta]
  rw [htake1, hlen] at hinner
  unfold skipBrackets
  simp only [if_neg hseed]
  have hfuel : r + 1 - p = (r - p) + 1 := by omega
  rw [hfuel]
  have hle : p ≤ r := by omega
  simp only [skipBracketsLoop, hle, if_true, hget]
  simp only [Bool.true_eq_false, and_false, if_false]
  have : (if some '(' = some ')' then (if True then (0 : Int) + 1 else 0) - 1
      else if True then (0 : Int) + 1 else 0) = 1 := by
    simp
  simp only [if_true] at this ⊢
  simp only [zero_add, reduceCtorEq] at hinner ⊢
  simp [hinner]
  omega

end ObjectExpression

namespace ObjectExpression

/-! ## Operator tokens and operands in a canonical text -/

theorem sign_ne_nil (op : OpKind) : ∃ c w, op.sign = c :: w ∧ c ≠ ' ' := by
  cases op <;> exact ⟨_, _, rfl, by decide⟩

/-- On the text of a registered operator followed by one space, `getOp` returns
the operator and the position after that space. -/
theorem getOp_registered {s : List Char} {q r : Nat} {op : OpKind} {rest : List Char}
    (hreg : opMapGet op.sign = some (.ctor op))
    (hdrop : s.drop q = op.sign ++ ' ' :: rest)
    (hr : q + op.sign.length ≤ r) (hrest : rest.head? ≠ some ' ') :
    getOp s q r = .ok (some (.ctor op, q + op.sign.length + 1)) := by
  obtain ⟨c, w, hw, hc⟩ := sign_ne_nil op
  have hget : s[q]? = some c := getElem?_of_drop (by rw [hdrop, hw]; rfl)
  have hws : skipWhitespaces s q = q := skipWhitespaces_of_ne (by rw [hget]; simp [hc])
  have hres : parseComplexOp s q r = op.sign :=
    parseComplexOp_eq hdrop (sign_tokenChar op) (Or.inl ⟨' ', rfl, rfl⟩) hr
  have hsp : s[q + op.sign.length]? = some ' ' := by
    rw [head?_cases_getElem? hdrop rfl]; rfl
  have hnext : s[q + op.sign.length + 1]? = rest.head? := by
    have h := head?_cases_getElem? (s := s) (p := q) (k := op.sign.length + 1)
      (w := op.sign ++ [' ']) (t := rest) (by simpa using hdrop) (by simp)
    rw [← h]; rfl
  have hend : skipWhitespaces s (q + op.sign.length) = q + op.sign.length + 1 := by
    rw [skipWhitespaces_of_space hsp, skipWhitespaces_of_ne (by rw [hnext]; exact hrest)]
  have hminus : ¬ (op.sign = ['-'] ∧ isDigit (some '-') = true) := by
    rintro ⟨_, h⟩; revert h; decide
  unfold getOp
  simp only [hws, hres, hreg, hend]
  rw [if_pos hminus]

/-- After the operands, `checkSingle` passes at a closing bracket that is
followed by another closing bracket, or is the last position looked at. -/
theorem checkSingle_ok {s : List Char} {fin r : Nat} (hfin : s[fin]? = some ')')
    (h : s[fin + 1]? = some ')' ∨ fin = r ∨ fin + 1 = s.length) :
    checkSingle s fin r = .ok () := by
  have hloop : checkSingleLoop s r (r - (fin + 1)) (fin + 1) = fin + 1 := by
    cases hf : r - (fin + 1) with
    | zero => rfl
    | succ n =>
      rcases h with h | h | h
      · simp [checkSingleLoop, h]
      · omega
      · have : s[fin + 1]? = none := List.getElem?_eq_none (by omega)
        simp [checkSingleLoop, this]
  unfold checkSingle
  simp only [hfin, if_true, hloop]
  rcases h with h | h | h
  · simp [h]
  · rw [if_neg (by omega)]
  · rw [if_neg (by rintro ⟨_, h2, _⟩; exact h2 h)]

/-- Positions right after an operand that is followed by a closing bracket. -/
theorem after_operand_closing {s : List Char} {a : Nat} {rest : List Char}
    (hdrop : s.drop a = ')' :: rest) :
    s[a]? = some ')' ∧ skipWhitespaces s a = a := by
  have hget : s[a]? = some ')' := getElem?_of_drop hdrop
  exact ⟨hget, skipWhitespaces_of_ne (by rw [hget]; decide)⟩

/-- Positions right after an operand that is followed by one space and the
next operand. -/
theorem after_operand_space {s : List Char} {a : Nat} {c : Char} {rest : List Char}
    (hdrop : s.drop a = ' ' :: c :: rest) (hc1 : c ≠ ' ') (hc2 : c ≠ ')') :
    skipWhitespaces s a = a + 1 ∧ skipWhitespaces s (a + 1) = a + 1 ∧
      skipClosing s (a + 1) = a + 1 := by
  have hget : s[a]? = some ' ' := getElem?_of_drop hdrop
  have hget1 : s[a + 1]? = some c := by
    rw [getElem?_drop_add hdrop 1]; simp
  have h1 : skipWhitespaces s (a + 1) = a + 1 :=
    skipWhitespaces_of_ne (by rw [hget1]; simp [hc1])
  exact ⟨by rw [skipWhitespaces_of_space hget, h1], h1,
    skipClosing_of_ne (by rw [hget1]; simp [hc2])⟩

/-- The text of an operation between its brackets is balanced. -/
theorem body_depth (op : OpKind) {es : List Expr} (h : allCanonical es = true) :
    depth (op.sign ++ ' ' :: joinSpace (es.map Expr.text)) = 0 ∧
      PrefixNonneg (op.sign ++ ' ' :: joinSpace (es.map Expr.text)) := by
  obtain ⟨hj0, hj⟩ := joinSpace_depth es h
  have hs0 := depth_of_no_bracket (sign_no_bracket op)
  have hs := prefixNonneg_of_no_bracket (sign_no_bracket op)
  refine ⟨?_, prefixNonneg_append hs hs0 (prefixNonneg_space_cons hj)⟩
  rw [depth_append, hs0, depth_space_cons, hj0]; rfl

theorem text_operation_body (op : OpKind) {es : List Expr} (h : allCanonical es = true) :
    (Expr.Operation op es).text
      = '(' :: ((op.sign ++ ' ' :: joinSpace (es.map Expr.text)) ++ [')']) := by
  rw [text_operation h]; simp

/-- End position returned for a leaf operand that ends right before `a`. -/
theorem leaf_end {s : List Char} {a : Nat} {rest : List Char} (hafter : s.drop a = rest) :
    (∀ rest1, rest = ')' :: rest1 →
        s[skipWhitespaces s a]? = some ')' ∧ skipWhitespaces s a = a) ∧
      (∀ c rest1, rest = ' ' :: c :: rest1 → c ≠ ' ' → c ≠ ')' →
        skipClosing s (skipWhitespaces s (skipWhitespaces s a)) = a + 1) := by
  constructor
  · intro rest1 h
    obtain ⟨h1, h2⟩ := after_operand_closing (hafter.trans h)
    rw [h2]
    exact ⟨h1, rfl⟩
  · intro c rest1 h hc1 hc2
    obtain ⟨h1, h2, h3⟩ := after_operand_space (hafter.trans h) hc1 hc2
    rw [h1, h2, h3]

/-- What `getArg` does on one canonical operand `e` whose text starts at `q`:
it returns `e`; the end position is at the closing bracket of the enclosing
operation when `e` is its last operand, and otherwise leads the next call of
`getArg` to the next operand. -/
theorem getArg_canonical {s : List Char} (parseRec : Nat → Nat → Except Err Expr)
    (start r : Nat) {q : Nat} {e : Expr} {rest : List Char}
    (hcan : e.Canonical = true)
    (hrec : ∀ op args, e = .Operation op args → parseRec q (q + e.text.length - 1) = .ok e)
    (hstart : skipClosing s (skipWhitespaces s start) = q)
    (hdrop : s.drop q = e.text ++ rest)
    (hprev : s[q - 1]? = some ' ')
    (hnext : rest.head? = none ∨ rest.head? = some ' ' ∨ rest.head? = some ')')
    (hr : q + e.text.length ≤ r + 1) :
    ∃ fin, getArg s parseRec start r = .ok (some (e, fin)) ∧
      (∀ rest1, rest = ')' :: rest1 →
        s[fin]? = some ')' ∧ (fin = q + e.text.length ∨ fin + 1 = q + e.text.length)) ∧
      (∀ c rest1, rest = ' ' :: c :: rest1 → c ≠ ' ' → c ≠ ')' →
        skipClosing s (skipWhitespaces s fin) = q + e.text.length + 1) := by
  have hafter : s.drop (q + e.text.length) = rest := by
    rw [drop_add_of_drop hdrop, List.drop_left]
  obtain ⟨hl1, hl2⟩ := leaf_end hafter
  cases e with
  | Variable v =>
    refine ⟨skipWhitespaces s (q + 1), ?_, ?_, hl2⟩
    · exact getArg_variable parseRec hstart hdrop hcan (Or.inr hprev) hnext
    · intro rest1 h
      obtain ⟨h1, h2⟩ := hl1 rest1 h
      exact ⟨h1, Or.inl h2⟩
  | Const val =>
    obtain ⟨n, hval, hn⟩ := canonical_const hcan
    subst hval
    · refine ⟨skipWhitespaces s (q + (valToString (.int n)).length), ?_, ?_, hl2⟩
      · exact getArg_const parseRec hn hstart hdrop (Or.inr hprev) hnext
      · intro rest1 h
        obtain ⟨h1, h2⟩ := hl1 rest1 h
        exact ⟨h1, Or.inl h2⟩
  | Operation op es =>
    simp only [Expr.Canonical, Bool.and_eq_true] at hcan
    obtain ⟨hb0, hb⟩ := body_depth op hcan.2
    have htext := text_operation_body op hcan.2
    have hrec1 := hrec op es rfl
    rw [htext] at hdrop hr hafter hrec1 ⊢
    generalize op.sign ++ ' ' :: joinSpace (es.map Expr.text) = body at *
    have hdrop1 : s.drop q = '(' :: (body ++ [')']) ++ rest := hdrop
    have hlen : ('(' :: (body ++ [')'])).length = body.length + 2 := by simp
    rw [hlen] at hr hafter hrec1 ⊢
    have hget : s[q]? = some '(' := getElem?_of_drop hdrop1
    have hsb := skipBrackets_enclosed hdrop1 hb hb0 (Or.inr (by rw [hprev]; decide)) hr
    have hclose : s[q + body.length + 1]? = some ')' := by
      have := head?_cases_getElem? (s := s) (p := q) (k := body.length + 1)
        (w := '(' :: body) (t := ')' :: rest) (by simpa using hdrop1) (by simp)
      rw [← Nat.add_assoc] at this
      rw [this]; rfl
    have hws : skipWhitespaces s (q + body.length + 1) = q + body.length + 1 :=
      skipWhitespaces_of_ne (by rw [hclose]; decide)
    have hidx : q + (body.length + 2) - 1 = q + body.length + 1 := by omega
    rw [hidx] at hrec1
    refine ⟨q + body.length + 1, ?_, ?_, ?_⟩
    · unfold getArg
      simp only [hstart, hget, if_true, hsb, hrec1, hws]
    · intro rest1 _
      exact ⟨hclose, Or.inr (by omega)⟩
    · intro c rest1 h hc1 hc2
      have hafter1 : s.drop (q + body.length + 1 + 1) = ' ' :: c :: rest1 := by
        have hi : q + body.length + 1 + 1 = q + (body.length + 2) := by omega
        rw [hi, hafter, h]
      obtain ⟨h1, _, h3⟩ := after_operand_space hafter1 hc1 hc2
      rw [hws, skipClosing_of_closing hclose, h1, h3]
      omega
  | Object => simp [Expr.Canonical] at hcan

end ObjectExpression

namespace ObjectExpression

/-! ## Parsing the text of a canonical operation -/

theorem joinSpace_head (t : List Char) (ts : List (List Char)) :
    ∃ tl, joinSpace (t :: ts) = t ++ tl := by
  cases ts with
  | nil => exact ⟨[], by simp [joinSpace]⟩
  | cons b rest => exact ⟨' ' :: joinSpace (b :: rest), rfl⟩

/-- The joined texts of a non-empty list of canonical operands start with a
character that is neither a space nor a closing bracket. -/
theorem joinSpace_text_head {e : Expr} (es : List Expr) (h : e.Canonical = true) :
    ∃ c w, joinSpace ((e :: es).map Expr.text) = c :: w ∧ c ≠ ' ' ∧ c ≠ ')' := by
  obtain ⟨c, w, hw, h1, h2⟩ := text_head h
  obtain ⟨tl, htl⟩ := joinSpace_head e.text (es.map Expr.text)
  exact ⟨c, w ++ tl, by rw [List.map_cons, htl, hw]; rfl, h1, h2⟩

/-- The operand loop of `parse` on the joined texts of canonical operands that
start at `q` and are followed by a closing bracket: it returns the operands,
and ends at that closing bracket or at the one right before it. -/
theorem parseOperands_canonical {s : List Char} {parseRec : Nat → Nat → Except Err Expr}
    {r : Nat} :
    ∀ (es : List Expr), es ≠ [] → allCanonical es = true →
      (∀ e ∈ es, ∀ op args, e = .Operation op args → ∀ q rest,
        s.drop q = e.text ++ rest → parseRec q (q + e.text.length - 1) = .ok e) →
      ∀ (start q : Nat) (acc : List Expr) (rest : List Char),
        skipClosing s (skipWhitespaces s start) = q →
        s.drop q = joinSpace (es.map Expr.text) ++ ')' :: rest →
        s[q - 1]? = some ' ' →
        q + (joinSpace (es.map Expr.text)).length ≤ r →
        ∃ fin, parseOperands s parseRec r es.length start acc = .ok (acc ++ es, fin) ∧
          s[fin]? = some ')' ∧
          (fin = q + (joinSpace (es.map Expr.text)).length
            ∨ fin + 1 = q + (joinSpace (es.map Expr.text)).length) := by
  intro es
  induction es with
  | nil => intro h; exact absurd rfl h
  | cons e es ih =>
    intro _ hcan hrec start q acc rest hstart hdrop hprev hr
    simp only [allCanonical, Bool.and_eq_true] at hcan
    cases es with
    | nil =>
      simp only [List.map_cons, List.map_nil, joinSpace] at hdrop hr ⊢
      obtain ⟨fin, hget, h2, _⟩ := getArg_canonical parseRec start r hcan.1
        (fun op args he => hrec e (by simp) op args he q _ hdrop) hstart hdrop hprev
        (Or.inr (Or.inr rfl)) (by omega)
      refine ⟨fin, ?_, h2 rest rfl⟩
      simp [parseOperands, hget]
    | cons e' es' =>
      have hcan' : allCanonical (e' :: es') = true := hcan.2
      have hcan1 : e'.Canonical = true := by
        simp only [allCanonical, Bool.and_eq_true] at hcan'
        exact hcan'.1
      obtain ⟨c, w, hw, hc1, hc2⟩ := joinSpace_text_head es' hcan1
      simp only [List.map_cons, joinSpace_cons_cons] at hdrop hr ⊢
      simp only [List.map_cons] at hw ih
      have hdrop1 : s.drop q = e.text ++ (' ' :: (joinSpace (e'.text :: es'.map Expr.text)
          ++ ')' :: rest)) := by
        rw [hdrop]; simp
      have hlenJ : (e.text ++ ' ' :: joinSpace (e'.text :: es'.map Expr.text)).length
          = e.text.length + 1 + (joinSpace (e'.text :: es'.map Expr.text)).length := by
        simp; omega
      rw [hlenJ] at hr ⊢
      obtain ⟨fin, hget, _, h3⟩ := getArg_canonical parseRec start r hcan.1
        (fun op args he => hrec e (by simp) op args he q _ hdrop1) hstart hdrop1 hprev
        (Or.inr (Or.inl rfl)) (by omega)
      have hstart' := h3 c (w ++ ')' :: rest) (by rw [hw]; rfl) hc1 hc2
      have hdrop' : s.drop (q + e.text.length + 1)
          = joinSpace (e'.text :: es'.map Expr.text) ++ ')' :: rest := by
        have := drop_add_of_drop hdrop1 (e.text.length + 1)
        rw [← Nat.add_assoc] at this
        rw [this]
        simp [List.drop_append_eq_append_drop]
      have hprev' : s[q + e.text.length + 1 - 1]? = some ' ' := by
        have := head?_cases_getElem? hdrop1 rfl
        simpa using this
      obtain ⟨fin', hres, hf1, hf2⟩ := ih (by simp) hcan'
        (fun x hx => hrec x (by simp [List.mem_cons] at hx ⊢; exact Or.inr hx))
        fin (q + e.text.length + 1) (acc ++ [e]) rest hstart' hdrop' hprev' (by omega)
      refine ⟨fin', ?_, hf1, ?_⟩
      · simp only [List.length_cons] at hres ⊢
        rw [parseOperands, hget]
        simp only
        rw [hres]
        simp
      · omega

end ObjectExpression

namespace ObjectExpression

theorem length_of_drop {s : List Char} {p : Nat} {t : List Char} (h : s.drop p = t)
    (ht : t ≠ []) : s.length = p + t.length := by
  have hl := congrArg List.length h
  simp only [List.length_drop] at hl
  have : 0 < t.length := List.length_pos.mpr ht
  omega

theorem argNum_pos_of_registered {op : OpKind} (h : opMapGet op.sign = some (.ctor op)) :
    0 < op.argNum := by
  cases op <;> simp [OpKind.argNum]

/-- Function `parse` on the text of a canonical operation that starts at `p`
and ends at `r` (or right before `r`, at the end of the source) returns the
operation, whenever the recursion counter is at least the height of the tree. -/
theorem parse_operation : ∀ (fuel : Nat) (op : OpKind) (es : List Expr),
    (Expr.Operation op es).Canonical = true → (Expr.Operation op es).height ≤ fuel →
    ∀ (s : List Char) (p r : Nat) (rest : List Char),
      s.drop p = (Expr.Operation op es).text ++ rest →
      (r + 1 = p + (Expr.Operation op es).text.length
        ∨ (rest = [] ∧ r = p + (Expr.Operation op es).text.length)) →
      parse s fuel p r = .ok (.Operation op es) := by
  intro fuel
  induction fuel with
  | zero =>
    intro op es _ hh
    simp [Expr.height] at hh
  | succ n ih =>
    intro op es hcan hh s p r rest hdrop hr
    have hcan0 := hcan
    simp only [Expr.Canonical, Bool.and_eq_true, decide_eq_true_eq] at hcan
    obtain ⟨⟨hreg, hlen⟩, hall⟩ := hcan
    have hpos := argNum_pos_of_registered hreg
    obtain ⟨e0, es0, hes⟩ : ∃ e0 es0, es = e0 :: es0 := by
      cases es with
      | nil => simp at hlen; omega
      | cons a b => exact ⟨a, b, rfl⟩
    have hne : es ≠ [] := by rw [hes]; simp
    have he0 : e0.Canonical = true := by
      rw [hes] at hall
      simp only [allCanonical, Bool.and_eq_true] at hall
      exact hall.1
    obtain ⟨c, w, hw, hc1, hc2⟩ := joinSpace_text_head es0 he0
    rw [← hes] at hw
    rw [text_operation hall] at hdrop hr
    generalize hJ : joinSpace (es.map Expr.text) = J at hdrop hr hw
    have hTlen : ('(' :: (op.sign ++ ' ' :: (J ++ [')']))).length
        = op.sign.length + J.length + 3 := by
      simp; omega
    rw [hTlen] at hr
    have hslen : s.length = p + (op.sign.length + J.length + 3) + rest.length := by
      have := length_of_drop hdrop (by simp)
      rw [this]
      simp; omega
    have hget : s[p]? = some '(' := getElem?_of_drop (by simpa using hdrop)
    have hdropq : s.drop (p + 1) = op.sign ++ ' ' :: (J ++ ')' :: rest) := by
      have := drop_add_of_drop hdrop 1
      rw [this]; simp
    have hop : getOp s (p + 1) r = .ok (some (.ctor op, p + 1 + op.sign.length + 1)) :=
      getOp_registered hreg hdropq (by omega) (by rw [hw]; simp [hc1])
    have hdropJ : s.drop (p + 1 + op.sign.length + 1) = J ++ ')' :: rest := by
      have := drop_add_of_drop hdropq (op.sign.length + 1)
      rw [← Nat.add_assoc] at this
      rw [this]
      simp [List.drop_append_eq_append_drop]
    have hgetJ : s[p + 1 + op.sign.length + 1]? = some c :=
      getElem?_of_drop (by rw [hdropJ, hw]; rfl)
    have hstart : skipClosing s (skipWhitespaces s (p + 1 + op.sign.length + 1))
        = p + 1 + op.sign.length + 1 := by
      rw [skipWhitespaces_of_ne (by rw [hgetJ]; simp [hc1]),
        skipClosing_of_ne (by rw [hgetJ]; simp [hc2])]
    have hprev : s[p + 1 + op.sign.length + 1 - 1]? = some ' ' := by
      have := head?_cases_getElem? hdropq rfl
      simpa using this
    have hrec : ∀ e ∈ es, ∀ op' args, e = .Operation op' args → ∀ q rest',
        s.drop q = e.text ++ rest' → parse s n q (q + e.text.length - 1) = .ok e := by
      intro e he op' args heq q rest' hd
      subst heq
      have hce : (Expr.Operation op' args).Canonical = true := allCanonical_iff.mp hall _ he
      have hhe : (Expr.Operation op' args).height ≤ n := by
        have := height_le_heightAll he
        simp only [Expr.height] at hh this ⊢
        omega
      obtain ⟨c', w', hw', _⟩ := text_head hce
      refine ih op' args hce hhe s q _ rest' hd (Or.inl ?_)
      rw [hw']; simp; omega
    obtain ⟨fin, hops, hfin, hfin2⟩ := parseOperands_canonical (r := r) es hne hall hrec
      (p + 1 + op.sign.length + 1) (p + 1 + op.sign.length + 1) [] rest hstart
      (by rw [hJ]; exact hdropJ) hprev (by rw [hJ]; omega)
    rw [hJ] at hfin2
    have hclose : s[p + 1 + op.sign.length + 1 + J.length]? = some ')' := by
      rw [head?_cases_getElem? hdropJ rfl]; rfl
    have hcs : checkSingle s fin r = .ok () := by
      apply checkSingle_ok hfin
      rcases hfin2 with h | h
      · rcases hr with hr | ⟨hrest, hr⟩
        · exact Or.inr (Or.inl (by omega))
        · subst hrest
          simp only [List.length_nil] at hslen
          exact Or.inr (Or.inr (by omega))
      · rw [h]; exact Or.inl hclose
    unfold parse
    simp only [hget, if_true, hop, OpMapEntry.argNum]
    rw [← hlen, hops]
    simp only [hcs, List.nil_append]

end ObjectExpression

namespace ObjectExpression

/-! ## `parsePrefix` on the text of a canonical tree -/

mutual
theorem height_le_text_length : ∀ (e : Expr), e.Canonical = true → e.height ≤ e.text.length
  | .Operation op es, h => by
    simp only [Expr.Canonical, Bool.and_eq_true] at h
    have := heightAll_le_joinSpace_length es h.2
    rw [text_operation h.2]
    simp only [Expr.height, List.length_cons, List.length_append]
    omega
  | .Variable _, _ => by simp [Expr.height]
  | .Const _, _ => by simp [Expr.height]
  | .Object, _ => by simp [Expr.height]
theorem heightAll_le_joinSpace_length : ∀ (es : List Expr), allCanonical es = true →
    heightAll es ≤ (joinSpace (es.map Expr.text)).length
  | [], _ => by simp [heightAll]
  | [e], h => by
    simp only [allCanonical, Bool.and_eq_true] at h
    have := height_le_text_length e h.1
    simp [heightAll, joinSpace]
    exact this
  | e :: e' :: es, h => by
    simp only [allCanonical, Bool.and_eq_true] at h
    have h1 := height_le_text_length e h.1
    have h2 := heightAll_le_joinSpace_length (e' :: es) (by simp [allCanonical, h.2.1, h.2.2])
    simp only [List.map_cons, joinSpace_cons_cons, List.length_append, List.length_cons,
      heightAll] at h2 ⊢
    omega
end

theorem balanced_text {e : Expr} (h : e.Canonical = true) : Balanced e.text := by
  obtain ⟨h0, hn⟩ := text_depth e h
  exact ⟨fun n _ => hn n, h0⟩

theorem opMapGet_of_numChar {w : List Char} (hw : ∀ c ∈ w, numChar c = true)
    (hne : w ≠ ['-']) : opMapGet w = none := by
  cases w with
  | nil => rfl
  | cons c w =>
    have hc := hw c (by simp)
    unfold opMapGet
    have key : ∀ (d : Char) (k : List Char), numChar d = false → ¬ (c :: w = d :: k) := by
      intro d k hd heq
      simp only [List.cons.injEq] at heq
      rw [heq.1, hd] at hc
      cases hc
    rw [if_neg (key '+' [] (by decide)), if_neg hne, if_neg (key '/' [] (by decide)),
      if_neg (key '*' [] (by decide)), if_neg (key 'n' _ (by decide)),
      if_neg (key 'e' _ (by decide)), if_neg (key 'a' _ (by decide)),
      if_neg (key 'c' _ (by decide)), if_neg]
    rintro (h | h | h | h | h | h | h | h | h | h | h)
    · exact key 't' _ (by decide) h
    · exact key 'v' _ (by decide) h
    · exact key 't' _ (by decide) h
    · exact key 'h' _ (by decide) h
    · exact key 'i' _ (by decide) h
    · exact key 'p' _ (by decide) h
    · exact key '_' _ (by decide) h
    · exact key '_' _ (by decide) h
    · exact key '_' _ (by decide) h
    · exact key '_' _ (by decide) h
    · exact key '_' _ (by decide) h

theorem intToString_ne_minus (n : Int) : intToString n ≠ ['-'] := by
  cases n with
  | ofNat k =>
    obtain ⟨h1, h2, _⟩ := natToString_spec k
    intro h
    simp only [intToString] at h
    have := h2 '-' (by rw [h]; simp)
    revert this; decide
  | negSucc k =>
    obtain ⟨h1, _, _⟩ := natToString_spec (k + 1)
    intro h
    simp only [intToString, List.cons.injEq, true_and] at h
    exact h1 h

theorem valToString_ne_minus {n : Int} (hn : n.natAbs < 9007199254740992) :
    valToString (.int n) ≠ ['-'] := by
  rw [valToString_int hn]
  exact intToString_ne_minus n

theorem checkSingle_end (s : List Char) : checkSingle s s.length s.length = .ok () := by
  have hget : s[s.length]? = none := List.getElem?_eq_none (le_refl _)
  simp [checkSingle, hget, checkSingleLoop]

theorem skipWhitespaces_end (s : List Char) : skipWhitespaces s s.length = s.length :=
  skipWhitespaces_of_ne (by rw [List.getElem?_eq_none (le_refl _)]; simp)

/-- Function `parse` over a source that is exactly one leaf token. -/
theorem parse_leaf {s : List Char} {e : Expr} {c : Char} {w : List Char} (fuel : Nat)
    (hs : s = c :: w) (htok : ∀ d ∈ s, tokenChar d = true) (hmap : opMapGet s = none)
    (hc : isDigit (some c) = true ∨ isAcceptableLetter (some c) = true ∨ c = '-')
    (harg : ∀ parseRec, getArg s parseRec 0 s.length = .ok (some (e, skipWhitespaces s s.length))) :
    parse s (fuel + 1) 0 s.length = .ok e := by
  have hget : s[0]? = some c := by rw [hs]; simp
  have hc0 := htok c (by rw [hs]; simp)
  simp only [tokenChar, Bool.and_eq_true, bne_iff_ne, ne_eq] at hc0
  have hws : skipWhitespaces s 0 = 0 := skipWhitespaces_of_ne (by rw [hget]; simp [hc0.1.1])
  have hres : parseComplexOp s 0 s.length = s :=
    parseComplexOp_eq (t := []) (by simp) htok (Or.inr (by simp)) (by simp)
  have hcus : checkUnacceptableSymbols s 0 0 = .ok () := by
    unfold checkUnacceptableSymbols
    rw [if_neg]
    rw [hget]
    rintro ⟨h1, _, h3, _, h5⟩
    rcases hc with h | h | h
    · rw [h] at h1; cases h1
    · rw [h] at h3; cases h3
    · subst h; revert h5; decide
  have hop : getOp s 0 s.length = .ok none := by
    unfold getOp
    simp only [hws, hres, hmap, hcus]
  unfold parse
  simp only [hget]
  rw [if_neg (by simp [hc0.1.2]), hop]
  simp only [parseOperands, harg, skipWhitespaces_end, checkSingle_end]
  simp

/-- Parsing the text of a canonical tree gives the tree back. -/
theorem parsePrefix_text {e : Expr} (h : e.Canonical = true) : parsePrefix e.text = .ok e := by
  obtain ⟨c, w, hw, _, _⟩ := text_head h
  obtain ⟨n, hn⟩ := checkBrecketSequence_ok_of_balanced (balanced_text h)
  have hlen : e.text.length ≠ 0 := by rw [hw]; simp
  unfold parsePrefix
  rw [if_neg hlen, hn]
  simp only
  cases e with
  | Operation op es =>
    exact parse_operation _ op es h (by have := height_le_text_length _ h; omega) _ 0 _ []
      (by simp) (Or.inr ⟨rfl, by simp⟩)
  | Variable v =>
    have hv : v = 'x' ∨ v = 'y' ∨ v = 'z' := by
      simp only [Expr.Canonical, isAcceptableLetter, Bool.or_eq_true, decide_eq_true_eq,
        Option.some.injEq] at h
      rcases h with (h | h) | h
      · exact Or.inl h
      · exact Or.inr (Or.inl h)
      · exact Or.inr (Or.inr h)
    refine parse_leaf (c := v) (w := []) _ rfl ?_ ?_ (Or.inr (Or.inl h)) ?_
    · intro d hd
      simp only [text_variable, List.mem_singleton] at hd
      subst hd
      rcases hv with h | h | h <;> (subst h; rfl)
    · rcases hv with h | h | h <;> (subst h; rfl)
    · intro parseRec
      exact getArg_variable parseRec (by rcases hv with h | h | h <;> (subst h; rfl))
        (show List.drop 0 [v] = v :: [] from rfl) h (Or.inl rfl) (Or.inl rfl)
  | Const val =>
    obtain ⟨k, hval, hk⟩ := canonical_const h
    subst hval
    · obtain ⟨hne, hall⟩ := valToString_numChar hk
      rw [text_const] at hw
      have hget : (valToString (.int k))[0]? = some c := by rw [hw]; simp
      have hcn : numChar c = true := hall c (by rw [hw]; simp)
      have hc1 := numChar_ne hcn
      refine parse_leaf (c := c) (w := w) _ hw ?_ ?_ ?_ ?_
      · intro d hd
        have := numChar_ne (hall d hd)
        simp [tokenChar, this.1, this.2.1, this.2.2]
      · exact opMapGet_of_numChar hall (valToString_ne_minus hk)
      · simp only [numChar, Bool.or_eq_true, beq_iff_eq] at hcn
        rcases hcn with h | h
        · exact Or.inl h
        · exact Or.inr (Or.inr h)
      · intro parseRec
        have hstart : skipClosing (valToString (.int k))
            (skipWhitespaces (valToString (.int k)) 0) = 0 := by
          rw [skipWhitespaces_of_ne (by rw [hget]; simp [hc1.1]),
            skipClosing_of_ne (by rw [hget]; simp [hc1.2.2])]
        have := getArg_const parseRec (r := (valToString (.int k)).length)
          (n := k) hk hstart
          (show List.drop 0 (valToString (.int k)) = valToString (.int k) ++ [] by simp)
          (Or.inl rfl) (Or.inl rfl)
        simpa using this
  | Object => simp [Expr.Canonical] at h

end ObjectExpression

namespace ObjectExpression

/-! ## Parsing without an operator, and the error paths -/

theorem skipWhitespaces_replicate {s : List Char} :
    ∀ (n l : Nat) (t : List Char), s.drop l = List.replicate n ' ' ++ t →
      t.head? ≠ some ' ' → skipWhitespaces s l = l + n := by
  intro n
  induction n with
  | zero =>
    intro l t hdrop ht
    have hget : s[l]? = t.head? := by
      have := head?_cases_getElem? (s := s) (p := l) (k := 0) (w := []) (t := t)
        (by simpa using hdrop) rfl
      simpa using this
    exact skipWhitespaces_of_ne (by rw [hget]; exact ht)
  | succ n ih =>
    intro l t hdrop ht
    have hget : s[l]? = some ' ' := getElem?_of_drop (by rw [hdrop]; rfl)
    have hdrop1 : s.drop (l + 1) = List.replicate n ' ' ++ t := by
      have := drop_add_of_drop hdrop 1
      rw [this]; simp [List.replicate_succ]
    rw [skipWhitespaces_of_space hget, ih (l + 1) t hdrop1 ht]
    omega

theorem getArg_variable_eq {s : List Char} (parseRec : Nat → Nat → Except Err Expr)
    {start r p : Nat} {v : Char}
    (hstart : skipClosing s (skipWhitespaces s start) = p)
    (hget : s[p]? = some v) (hv : isAcceptableLetter (some v) = true) :
    getArg s parseRec start r =
      match checkPlaceholder s p p true with
      | .error e => .error e
      | .ok _ => .ok (some (.Variable v, skipWhitespaces s (p + 1))) := by
  have hne : v ≠ '(' := by
    intro h; subst h; revert hv; decide
  unfold getArg
  simp only [hstart, hget]
  rw [if_neg (by simp [hne]), if_pos hv]
  cases checkPlaceholder s p p true with
  | error e => rfl
  | ok u => simp [List.getD, hget]

theorem getArg_literal_eq {s : List Char} (parseRec : Nat → Nat → Except Err Expr)
    {start r p : Nat} {w t : List Char}
    (hstart : skipClosing s (skipWhitespaces s start) = p)
    (hdrop : s.drop p = w ++ t) (hne : w ≠ []) (hall : ∀ c ∈ w, numChar c = true)
    (hstop : t.head?.all (fun c => !numChar c) = true) :
    getArg s parseRec start r =
      match checkPlaceholder s p (p + w.length - 1) false with
      | .error e => .error e
      | .ok _ => .ok (some (.Const (parseInt w), skipWhitespaces s (p + w.length))) := by
  obtain ⟨c, w', hw⟩ : ∃ c w', w = c :: w' := by
    cases w with
    | nil => exact absurd rfl hne
    | cons c w' => exact ⟨c, w', rfl⟩
  have hget : s[p]? = some c := getElem?_of_drop (by rw [hdrop, hw]; rfl)
  have hc : numChar c = true := hall c (by rw [hw]; simp)
  have hc1 : c ≠ '(' := (numChar_ne hc).2.1
  have hc2 : isAcceptableLetter (some c) = false := by
    by_contra h
    simp only [Bool.not_eq_false] at h
    simp only [isAcceptableLetter, Bool.or_eq_true, decide_eq_true_eq, Option.some.injEq] at h
    rcases h with (h | h) | h <;> (subst h; revert hc; decide)
  have hc3 : isDigit (some c) = true ∨ some c = some '-' := by
    simp only [numChar, Bool.or_eq_true, beq_iff_eq] at hc
    rcases hc with h | h
    · exact Or.inl h
    · exact Or.inr (by rw [h])
  unfold getArg
  simp only [hstart, hget]
  rewrite [if_neg (by simp [hc1]), if_neg (by simp [hc2]), if_pos hc3,
    parseNumStr_eq hdrop hall hstop hne]
  rfl

/-- A leaf directly between an opening and a closing bracket. -/
theorem checkPlaceholder_bare {s : List Char} {l r : Nat} {isVar : Bool}
    (hl : 0 < l) (hprev : s[l - 1]? = some '(') (hnext : s[r + 1]? = some ')') :
    checkPlaceholder s l r isVar = .error .bareBrackets := by
  have hlt : r + 1 < s.length := by
    by_contra hc
    rw [List.getElem?_eq_none (by omega)] at hnext
    cases hnext
  unfold checkPlaceholder checkBareBrackets
  rw [if_neg, if_pos ⟨hl, hprev, hlt, hnext⟩]
  rintro (⟨_, _, _, h, _⟩ | ⟨_, _, h, _⟩)
  · exact h hprev
  · exact h hnext

theorem getOp_none {s : List Char} {l r q : Nat} {w : List Char}
    (hws : skipWhitespaces s l = q) (hres : parseComplexOp s q r = w)
    (hmap : opMapGet w = none) (hcus : checkUnacceptableSymbols s q q = .ok ()) :
    getOp s l r = .ok none := by
  unfold getOp
  simp only [hws, hres, hmap, hcus]

theorem getOp_error {s : List Char} {l r q : Nat} {w : List Char} {e : Err}
    (hws : skipWhitespaces s l = q) (hres : parseComplexOp s q r = w)
    (hmap : opMapGet w = none) (hcus : checkUnacceptableSymbols s q q = .error e) :
    getOp s l r = .error e := by
  unfold getOp
  simp only [hws, hres, hmap, hcus]

/-- Function `parse` when `getOp` finds no operator: one operand, then `checkSingle`. -/
theorem parse_no_operator {s : List Char} {fuel l r q : Nat}
    (hq : (if s[l]? = some '(' then l + 1 else l) = q) (hop : getOp s q r = .ok none) :
    parse s (fuel + 1) l r =
      match getArg s (parse s fuel) q r with
      | .error e => .error e
      | .ok none => .error .undefinedArg
      | .ok (some (res, next)) =>
        match checkSingle s next r with
        | .error e => .error e
        | .ok _ => .ok res := by
  unfold parse
  simp only [hq, hop, parseOperands]
  cases getArg s (parse s fuel) q r with
  | error e => rfl
  | ok o =>
    cases o with
    | none => rfl
    | some pr =>
      obtain ⟨res, next⟩ := pr
      cases checkSingle s next r <;> rfl

theorem parse_getOp_error {s : List Char} {fuel l r q : Nat} {e : Err}
    (hq : (if s[l]? = some '(' then l + 1 else l) = q) (hop : getOp s q r = .error e) :
    parse s (fuel + 1) l r = .error e := by
  unfold parse
  simp only [hq, hop]

/-- Past the end of the source `getArg` fails in `isLetter`. -/
theorem getArg_at_end {s : List Char} (parseRec : Nat → Nat → Except Err Expr)
    {start r p : Nat} (hstart : skipClosing s (skipWhitespaces s start) = p)
    (hp : s.length ≤ p) : getArg s parseRec start r = .error .wrongNumberOfArguments := by
  have hget : s[p]? = none := List.getElem?_eq_none hp
  have hcus : checkUnacceptableSymbols s p p = .error .wrongNumberOfArguments := by
    unfold checkUnacceptableSymbols
    rw [hget, if_pos (by decide)]
    rfl
  unfold getArg
  simp only [hstart, hget, hcus]
  rw [if_neg (by decide), if_neg (by decide), if_neg (by decide)]

theorem checkUnacceptableSymbols_ok {s : List Char} {q : Nat} {c : Char}
    (hget : s[q]? = some c)
    (hc : isDigit (some c) = true ∨ isAcceptableLetter (some c) = true ∨ c = '-') :
    checkUnacceptableSymbols s q q = .ok () := by
  unfold checkUnacceptableSymbols
  rw [if_neg]
  rw [hget]
  rintro ⟨h1, _, h3, _, h5⟩
  rcases hc with h | h | h
  · rw [h] at h1; cases h1
  · rw [h] at h3; cases h3
  · subst h; revert h5; decide

theorem isDigit_toNat {c : Char} (h : isDigit (some c) = true) : 48 ≤ c.toNat ∧ c.toNat ≤ 57 := by
  simp only [isDigit, Bool.and_eq_true, decide_eq_true_eq] at h
  obtain ⟨h1, h2⟩ := h
  rw [Char.le_def] at h1 h2
  have e1 : ('9' : Char).val.toNat = 57 := rfl
  have e2 : ('0' : Char).val.toNat = 48 := rfl
  have h1' : c.val.toNat ≤ ('9' : Char).val.toNat := h1
  have h2' : ('0' : Char).val.toNat ≤ c.val.toNat := h2
  rw [e1] at h1'
  rw [e2] at h2'
  exact ⟨h2', h1'⟩

theorem not_letter_of_isDigit {c : Char} (h : isDigit (some c) = true) :
    isLetter (some c) = .ok false := by
  obtain ⟨h1, h2⟩ := isDigit_toNat h
  have hc : isCased c = false := by
    unfold isCased
    generalize c.toNat = n at h1 h2
    interval_cases n <;> rfl
  simp [isLetter, hc]

/-- At a letter other than `x`, `y`, `z`, `checkUnacceptableSymbols(l, l)` raises
the error with an empty token: `parseComplexOp(l, l)` reads nothing. -/
theorem checkUnacceptableSymbols_letter {s : List Char} {q : Nat} {c : Char}
    (hget : s[q]? = some c) (hlet : isLetter (some c) = .ok true)
    (hacc : isAcceptableLetter (some c) = false) :
    checkUnacceptableSymbols s q q = .error (.unacceptableToken [] q) := by
  have hd : isDigit (some c) = false := by
    by_contra h
    simp only [Bool.not_eq_false] at h
    rw [not_letter_of_isDigit h] at hlet
    cases hlet
  have hne : ∀ d : Char, isLetter (some d) = .ok false → c ≠ d := by
    intro d hd' h
    subst h
    rw [hd'] at hlet
    cases hlet
  have hb : isBraket (some c) = false := by
    simp [isBraket, hne '(' rfl, hne ')' rfl]
  have hsp : (some c : Option Char) ≠ some ' ' := by
    simp [hne ' ' rfl]
  have hin : inOpMap (jsStr (some c)) = false := by
    simp [inOpMap, jsStr, opMapGet, hne '+' rfl, hne '-' rfl, hne '/' rfl, hne '*' rfl]
  unfold checkUnacceptableSymbols
  rw [hget, if_pos ⟨hd, hb, hacc, hsp, hin⟩, hlet]
  simp only [parseComplexOp_self]
  rw [if_pos ⟨trivial, rfl⟩]

theorem balanced_enclose {body : List Char} (h : ∀ c ∈ body, c ≠ '(' ∧ c ≠ ')') :
    Balanced ('(' :: (body ++ [')'])) := by
  obtain ⟨h0, hn, _⟩ := prefixNonneg_enclose (prefixNonneg_of_no_bracket h)
    (depth_of_no_bracket h)
  exact ⟨fun n _ => hn n, h0⟩

theorem parsePrefix_of_balanced {s : List Char} (hne : s ≠ []) (hb : Balanced s) :
    parsePrefix s = parse s (s.length + 1) 0 s.length := by
  have hlen : s.length ≠ 0 := fun h => hne (List.length_eq_zero.mp h)
  obtain ⟨n, hn⟩ := checkBrecketSequence_ok_of_balanced hb
  simp [parsePrefix, hlen, hn]

/-- The two kinds of leaf token. -/
theorem leafToken_cases {w : List Char} (h : isLeafToken w = true) :
    (∃ v, w = [v] ∧ isAcceptableLetter (some v) = true) ∨
      (w ≠ [] ∧ (∀ c ∈ w, numChar c = true) ∧ w ≠ ['-']) := by
  simp only [isLeafToken, Bool.or_eq_true, beq_iff_eq] at h
  rcases h with ((h | h) | h) | h
  · exact Or.inl ⟨'x', h, rfl⟩
  · exact Or.inl ⟨'y', h, rfl⟩
  · exact Or.inl ⟨'z', h, rfl⟩
  · right
    have key : ∀ ds : List Char, (!ds.isEmpty && ds.all (fun c => isDigit (some c))) = true →
        ds ≠ [] ∧ ∀ c ∈ ds, isDigit (some c) = true := by
      intro ds hds
      simp only [Bool.and_eq_true, Bool.not_eq_true', List.isEmpty_eq_false, List.all_eq_true] at hds
      exact ⟨fun h => by simp [h] at hds, hds.2⟩
    unfold isIntLiteral at h
    split at h
    · rename_i ds
      obtain ⟨h1, h2⟩ := key ds h
      refine ⟨by simp, ?_, by simpa using h1⟩
      intro c hc
      rcases List.mem_cons.mp hc with hc | hc
      · subst hc; rfl
      · simp [numChar, h2 c hc]
    · obtain ⟨h1, h2⟩ := key w h
      refine ⟨h1, fun c hc => by simp [numChar, h2 c hc], ?_⟩
      intro hw
      have := h2 '-' (by rw [hw]; simp)
      revert this; decide

end ObjectExpression

namespace ObjectExpression

/-! ## Leaves in bare brackets, missing operands, unknown words -/

theorem numChar_tokenChar {c : Char} (h : numChar c = true) : tokenChar c = true := by
  have := numChar_ne h
  simp [tokenChar, this.1, this.2.1, this.2.2]

/-- What the parser needs to know about a leaf token. -/
theorem leafToken_facts {v : List Char} (h : isLeafToken v = true) :
    ∃ c w, v = c :: w ∧ (∀ d ∈ v, tokenChar d = true) ∧ opMapGet v = none ∧
      (isDigit (some c) = true ∨ isAcceptableLetter (some c) = true ∨ c = '-') := by
  rcases leafToken_cases h with ⟨c, hv, hc⟩ | ⟨hne, hall, hminus⟩
  · have hc' : c = 'x' ∨ c = 'y' ∨ c = 'z' := by
      simp only [isAcceptableLetter, Bool.or_eq_true, decide_eq_true_eq,
        Option.some.injEq] at hc
      rcases hc with (h | h) | h
      · exact Or.inl h
      · exact Or.inr (Or.inl h)
      · exact Or.inr (Or.inr h)
    refine ⟨c, [], hv, ?_, ?_, Or.inr (Or.inl hc)⟩
    · intro d hd
      rw [hv] at hd
      simp only [List.mem_singleton] at hd
      subst hd
      rcases hc' with h | h | h <;> (subst h; rfl)
    · rw [hv]
      rcases hc' with h | h | h <;> (subst h; rfl)
  · obtain ⟨c, w, hw⟩ : ∃ c w, v = c :: w := by
      cases v with
      | nil => exact absurd rfl hne
      | cons c w => exact ⟨c, w, rfl⟩
    refine ⟨c, w, hw, fun d hd => numChar_tokenChar (hall d hd),
      opMapGet_of_numChar hall hminus, ?_⟩
    have hc := hall c (by rw [hw]; simp)
    simp only [numChar, Bool.or_eq_true, beq_iff_eq] at hc
    rcases hc with h | h
    · exact Or.inl h
    · exact Or.inr (Or.inr h)

theorem tokenChar_ne {c : Char} (h : tokenChar c = true) : c ≠ ' ' ∧ c ≠ '(' ∧ c ≠ ')' := by
  simp only [tokenChar, Bool.and_eq_true, bne_iff_ne, ne_eq] at h
  exact ⟨h.1.1, h.1.2, h.2⟩

/-- What `getArg` does on a leaf token at `p`: the outcome of `checkPlaceholder`
decides, and the end position is behind the token and the spaces after it. -/
theorem getArg_leafToken {s : List Char} (parseRec : Nat → Nat → Except Err Expr)
    {start r p : Nat} {v t : List Char} (hv : isLeafToken v = true)
    (hstart : skipClosing s (skipWhitespaces s start) = p)
    (hdrop : s.drop p = v ++ t)
    (hstop : t.head? = none ∨ t.head? = some ' ' ∨ t.head? = some ')') :
    ∃ e isVar, getArg s parseRec start r =
      match checkPlaceholder s p (p + v.length - 1) isVar with
      | .error err => .error err
      | .ok _ => .ok (some (e, skipWhitespaces s (p + v.length))) := by
  rcases leafToken_cases hv with ⟨c, hc, hacc⟩ | ⟨hne, hall, _⟩
  · subst hc
    have hget : s[p]? = some c := getElem?_of_drop (by rw [hdrop]; rfl)
    exact ⟨.Variable c, true, getArg_variable_eq parseRec hstart hget hacc⟩
  · have hst : t.head?.all (fun c => !numChar c) = true := by
      rcases hstop with h | h | h <;> rw [h] <;> rfl
    exact ⟨.Const (parseInt v), false, getArg_literal_eq parseRec hstart hdrop hne hall hst⟩

/-- A leaf token alone between brackets is rejected with "Bare brackets". -/
theorem parsePrefix_bare {v : List Char} (hv : isLeafToken v = true) :
    parsePrefix ('(' :: (v ++ [')'])) = .error .bareBrackets := by
  obtain ⟨c, w, hw, htok, hmap, hc⟩ := leafToken_facts hv
  have hnb : ∀ d ∈ v, d ≠ '(' ∧ d ≠ ')' := fun d hd => (tokenChar_ne (htok d hd)).2
  have hc0 := tokenChar_ne (htok c (by rw [hw]; simp))
  generalize hs : '(' :: (v ++ [')']) = s
  have hlen : s.length = v.length + 2 := by rw [← hs]; simp
  have hdrop1 : s.drop 1 = v ++ [')'] := by rw [← hs]; rfl
  have hget0 : s[0]? = some '(' := by rw [← hs]; simp
  have hget1 : s[1]? = some c := getElem?_of_drop (by rw [hdrop1, hw]; rfl)
  have hgetr : s[1 + v.length]? = some ')' := by
    rw [head?_cases_getElem? hdrop1 rfl]; rfl
  have hws : skipWhitespaces s 1 = 1 := skipWhitespaces_of_ne (by rw [hget1]; simp [hc0.1])
  have hres : parseComplexOp s 1 s.length = v :=
    parseComplexOp_eq hdrop1 htok (Or.inl ⟨')', rfl, rfl⟩) (by omega)
  have hop : getOp s 1 s.length = .ok none :=
    getOp_none hws hres hmap (checkUnacceptableSymbols_ok hget1 hc)
  have hstart : skipClosing s (skipWhitespaces s 1) = 1 := by
    rw [hws, skipClosing_of_ne (by rw [hget1]; simp [hc0.2.2])]
  have hvlen : 0 < v.length := by rw [hw]; simp
  have hbare : ∀ isVar, checkPlaceholder s 1 (1 + v.length - 1) isVar = .error .bareBrackets := by
    intro isVar
    refine checkPlaceholder_bare (by omega) hget0 ?_
    have : 1 + v.length - 1 + 1 = 1 + v.length := by omega
    rw [this, hgetr]
  obtain ⟨e, isVar, harg⟩ := getArg_leafToken (parse s s.length) (r := s.length) hv hstart hdrop1
    (Or.inr (Or.inr rfl))
  rw [parsePrefix_of_balanced (by rw [← hs]; simp) (by rw [← hs]; exact balanced_enclose hnb),
    parse_no_operator (q := 1) (by rw [hget0]; rfl) hop, harg, hbare isVar]

theorem joinSpace_no_bracket : ∀ (ts : List (List Char)),
    (∀ t ∈ ts, ∀ c ∈ t, c ≠ '(' ∧ c ≠ ')') → ∀ c ∈ joinSpace ts, c ≠ '(' ∧ c ≠ ')'
  | [], _ => by intro c hc; simp [joinSpace] at hc
  | [a], h => by
    intro c hc
    exact h a (by simp) c (by simpa [joinSpace] using hc)
  | a :: b :: rest, h => by
    intro c hc
    rw [joinSpace_cons_cons] at hc
    simp only [List.mem_append, List.mem_cons] at hc
    rcases hc with hc | hc | hc
    · exact h a (by simp) c hc
    · subst hc; exact ⟨by decide, by decide⟩
    · exact joinSpace_no_bracket (b :: rest) (fun t ht => h t (by simp [ht])) c hc

/-- The general form of `getOp_registered`: the operator's text may be followed
by a space or by a bracket. -/
theorem getOp_registered_gen {s : List Char} {q r : Nat} {op : OpKind} {t : List Char}
    (hreg : opMapGet op.sign = some (.ctor op))
    (hdrop : s.drop q = op.sign ++ t)
    (hr : q + op.sign.length ≤ r) (ht : ∃ c, t.head? = some c ∧ tokenChar c = false) :
    getOp s q r = .ok (some (.ctor op, skipWhitespaces s (q + op.sign.length))) := by
  obtain ⟨c, w, hw, hc⟩ := sign_ne_nil op
  have hget : s[q]? = some c := getElem?_of_drop (by rw [hdrop, hw]; rfl)
  have hws : skipWhitespaces s q = q := skipWhitespaces_of_ne (by rw [hget]; simp [hc])
  have hres : parseComplexOp s q r = op.sign :=
    parseComplexOp_eq hdrop (sign_tokenChar op) (Or.inl ht) hr
  have hminus : ¬ (op.sign = ['-'] ∧ isDigit (some '-') = true) := by
    rintro ⟨_, h⟩; revert h; decide
  unfold getOp
  simp only [hws, hres, hreg]
  rw [if_pos hminus]

/-- A call of `getArg` that starts at the last character, a closing bracket,
runs past the end and fails in `isLetter`. -/
theorem getArg_after_last {s : List Char} (parseRec : Nat → Nat → Except Err Expr)
    {start r : Nat} (hstart : s.drop start = [')']) :
    getArg s parseRec start r = .error .wrongNumberOfArguments := by
  have hlen : s.length = start + 1 := length_of_drop hstart (by simp)
  have hget : s[start]? = some ')' := getElem?_of_drop hstart
  have h1 : skipWhitespaces s start = start := skipWhitespaces_of_ne (by rw [hget]; decide)
  have hend : s[start + 1]? = none := List.getElem?_eq_none (by omega)
  have h2 : skipWhitespaces s (start + 1) = start + 1 :=
    skipWhitespaces_of_ne (by rw [hend]; simp)
  refine getArg_at_end parseRec (p := start + 1) ?_ (by omega)
  rw [h1, skipClosing_of_closing hget, h2, skipClosing_of_ne (by rw [hend]; simp)]

theorem parseOperands_error {s : List Char} {parseRec : Nat → Nat → Except Err Expr}
    {r n start : Nat} {acc : List Expr} {e : Err}
    (h : getArg s parseRec start r = .error e) :
    parseOperands s parseRec r (n + 1) start acc = .error e := by
  rw [parseOperands, h]

theorem parseOperands_step {s : List Char} {parseRec : Nat → Nat → Except Err Expr}
    {r n start next : Nat} {acc : List Expr} {res : Expr}
    (h : getArg s parseRec start r = .ok (some (res, next))) :
    parseOperands s parseRec r (n + 1) start acc
      = parseOperands s parseRec r n next (acc ++ [res]) := by
  rw [parseOperands, h]

theorem parse_operands_error {s : List Char} {fuel l r q : Nat} {entry : OpMapEntry}
    {opEnd : Nat} {e : Err}
    (hq : (if s[l]? = some '(' then l + 1 else l) = q)
    (hop : getOp s q r = .ok (some (entry, opEnd)))
    (hops : parseOperands s (parse s fuel) r entry.argNum opEnd [] = .error e) :
    parse s (fuel + 1) l r = .error e := by
  unfold parse
  simp only [hq, hop, hops]

/-- A registered operator with fewer leaf operands than its `argNum`. -/
theorem parsePrefix_too_few_registered {op : OpKind} {leaves : List (List Char)}
    (hreg : opMapGet op.sign = some (.ctor op))
    (hk : leaves.length < op.argNum) (hl : ∀ a ∈ leaves, isLeafToken a = true) :
    parsePrefix ('(' :: (joinSpace (op.sign :: leaves) ++ [')']))
      = .error .wrongNumberOfArguments := by
  have hnb : ∀ d ∈ joinSpace (op.sign :: leaves), d ≠ '(' ∧ d ≠ ')' := by
    apply joinSpace_no_bracket
    intro t ht
    rcases List.mem_cons.mp ht with h | h
    · subst h; exact sign_no_bracket op
    · obtain ⟨_, _, _, htok, _⟩ := leafToken_facts (hl t h)
      exact fun d hd => (tokenChar_ne (htok d hd)).2
  have harity : op.argNum ≤ 2 := by
    cases op <;> simp [OpKind.argNum] <;> simp [opMapGet, OpKind.sign] at hreg
  generalize hs : '(' :: (joinSpace (op.sign :: leaves) ++ [')']) = s
  have hbal : Balanced s := by rw [← hs]; exact balanced_enclose hnb
  have hne : s ≠ [] := by rw [← hs]; simp
  have hget0 : s[0]? = some '(' := by rw [← hs]; simp
  rw [parsePrefix_of_balanced hne hbal]
  cases leaves with
  | nil =>
    have hdrop1 : s.drop 1 = op.sign ++ [')'] := by rw [← hs]; rfl
    have hlen : s.length = op.sign.length + 2 := by rw [← hs]; simp [joinSpace]
    have hdrop2 : s.drop (1 + op.sign.length) = [')'] := by
      rw [drop_add_of_drop hdrop1]; simp
    have hget : s[1 + op.sign.length]? = some ')' := getElem?_of_drop hdrop2
    have hop := getOp_registered_gen (r := s.length) hreg hdrop1 (by omega) ⟨')', rfl, rfl⟩
    rw [skipWhitespaces_of_ne (by rw [hget]; decide)] at hop
    obtain ⟨n, hn⟩ : ∃ n, op.argNum = n + 1 := ⟨op.argNum - 1, by omega⟩
    refine parse_operands_error (q := 1) (by rw [hget0]; rfl) hop ?_
    simp only [OpMapEntry.argNum, hn]
    exact parseOperands_error (getArg_after_last _ hdrop2)
  | cons a rest =>
    have hrest : rest = [] := by
      cases rest with
      | nil => rfl
      | cons b rest' => simp at hk; omega
    subst hrest
    have hn : op.argNum = 0 + 1 + 1 := by simp at hk; omega
    have ha := hl a (by simp)
    obtain ⟨c, w, hw, htok, _, _⟩ := leafToken_facts ha
    have hc0 := tokenChar_ne (htok c (by rw [hw]; simp))
    have hdrop1 : s.drop 1 = op.sign ++ ' ' :: (a ++ [')']) := by
      rw [← hs]; simp [joinSpace]
    have hlen : s.length = op.sign.length + a.length + 3 := by
      rw [← hs]; simp [joinSpace]; omega
    have hop := getOp_registered (r := s.length) hreg hdrop1 (by omega)
      (by rw [hw]; simp [hc0.1])
    have hdropa : s.drop (1 + op.sign.length + 1) = a ++ [')'] := by
      have := drop_add_of_drop hdrop1 (op.sign.length + 1)
      rw [← Nat.add_assoc] at this
      rw [this]
      simp [List.drop_append_eq_append_drop]
    have hgeta : s[1 + op.sign.length + 1]? = some c :=
      getElem?_of_drop (by rw [hdropa, hw]; rfl)
    have hstart : skipClosing s (skipWhitespaces s (1 + op.sign.length + 1))
        = 1 + op.sign.length + 1 := by
      rw [skipWhitespaces_of_ne (by rw [hgeta]; simp [hc0.1]),
        skipClosing_of_ne (by rw [hgeta]; simp [hc0.2.2])]
    have hprev : s[1 + op.sign.length + 1 - 1]? = some ' ' := by
      have := head?_cases_getElem? hdrop1 rfl
      simpa using this
    have hdropr : s.drop (1 + op.sign.length + 1 + a.length) = [')'] := by
      rw [drop_add_of_drop hdropa]; simp
    have hgetr : s[1 + op.sign.length + 1 + a.length]? = some ')' := getElem?_of_drop hdropr
    have halen : 0 < a.length := by rw [hw]; simp
    obtain ⟨e, isVar, harg⟩ := getArg_leafToken (parse s s.length) (r := s.length) ha hstart
      hdropa (Or.inr (Or.inr rfl))
    rw [checkPlaceholder_ok (Or.inr hprev) (by
        have : 1 + op.sign.length + 1 + a.length - 1 + 1 = 1 + op.sign.length + 1 + a.length := by
          omega
        rw [this, hgetr]
        exact Or.inr (Or.inr rfl)),
      skipWhitespaces_of_ne (by rw [hgetr]; decide)] at harg
    refine parse_operands_error (q := 1) (by rw [hget0]; rfl) hop ?_
    simp only [OpMapEntry.argNum, hn]
    rw [parseOperands_step harg]
    exact parseOperands_error (getArg_after_last _ hdropr)

/-- A word that starts with `m` and is not in `opMap`, right after the opening
bracket: `getOp` rejects it whatever follows. -/
theorem parsePrefix_too_few_unregistered {op : OpKind} {leaves : List (List Char)}
    (hop : op = .Min3 ∨ op = .Max5) (hl : ∀ a ∈ leaves, isLeafToken a = true) :
    parsePrefix ('(' :: (joinSpace (op.sign :: leaves) ++ [')']))
      = .error (.unacceptableToken [] 1) := by
  have hnb : ∀ d ∈ joinSpace (op.sign :: leaves), d ≠ '(' ∧ d ≠ ')' := by
    apply joinSpace_no_bracket
    intro t ht
    rcases List.mem_cons.mp ht with h | h
    · subst h; exact sign_no_bracket op
    · obtain ⟨_, _, _, htok, _⟩ := leafToken_facts (hl t h)
      exact fun d hd => (tokenChar_ne (htok d hd)).2
  obtain ⟨tl, htl, hhead⟩ : ∃ tl, joinSpace (op.sign :: leaves) = op.sign ++ tl ∧
      (tl = [] ∨ tl.head? = some ' ') := by
    cases leaves with
    | nil => exact ⟨[], by simp [joinSpace], Or.inl rfl⟩
    | cons a rest => exact ⟨' ' :: joinSpace (a :: rest), rfl, Or.inr rfl⟩
  generalize hs : '(' :: (joinSpace (op.sign :: leaves) ++ [')']) = s
  have hbal : Balanced s := by rw [← hs]; exact balanced_enclose hnb
  have hne : s ≠ [] := by rw [← hs]; simp
  have hget0 : s[0]? = some '(' := by rw [← hs]; simp
  have hdrop1 : s.drop 1 = op.sign ++ (tl ++ [')']) := by
    rw [← hs, htl]; simp
  have hlen : s.length = op.sign.length + tl.length + 2 := by
    rw [← hs, htl]; simp; omega
  have hstop : ∃ c, (tl ++ [')']).head? = some c ∧ tokenChar c = false := by
    rcases hhead with h | h
    · subst h; exact ⟨')', rfl, rfl⟩
    · cases tl with
      | nil => simp at h
      | cons d tl' =>
        simp only [List.head?_cons, Option.some.injEq] at h
        subst h
        exact ⟨' ', rfl, rfl⟩
  have hres : parseComplexOp s 1 s.length = op.sign :=
    parseComplexOp_eq hdrop1 (sign_tokenChar op) (Or.inl hstop) (by omega)
  have hget1 : s[1]? = some 'm' := by
    rcases hop with h | h <;> (subst h; exact getElem?_of_drop (by rw [hdrop1]; rfl))
  have hmap : opMapGet op.sign = none := by
    rcases hop with h | h <;> (subst h; rfl)
  rw [parsePrefix_of_balanced hne hbal]
  exact parse_getOp_error (q := 1) (by rw [hget0]; rfl)
    (getOp_error (skipWhitespaces_of_ne (by rw [hget1]; decide)) hres hmap
      (checkUnacceptableSymbols_letter hget1 rfl rfl))

end ObjectExpression

namespace ObjectExpression

/-! ## An unknown word where the operator is looked for -/

theorem letter_tokenChar {c : Char} (h : isLetter (some c) = .ok true) : tokenChar c = true := by
  have hne : ∀ d : Char, isLetter (some d) = .ok false → c ≠ d := by
    intro d hd heq
    subst heq
    rw [hd] at h
    cases h
  simp [tokenChar, hne ' ' rfl, hne '(' rfl, hne ')' rfl]

theorem takeWhile_tokenChar_stop (rest : List Char) :
    (∃ c, (rest.dropWhile tokenChar).head? = some c ∧ tokenChar c = false)
      ∨ rest.dropWhile tokenChar = [] := by
  induction rest with
  | nil => exact Or.inr rfl
  | cons c cs ih =>
    by_cases hc : tokenChar c = true
    · simpa [List.dropWhile_cons, hc] using ih
    · left
      simp only [Bool.not_eq_true] at hc
      exact ⟨c, by simp [List.dropWhile_cons, hc], hc⟩

/-- The word that `parseComplexOp` reads at a letter: the letter and the
token characters after it. -/
theorem parseComplexOp_word {s : List Char} {q : Nat} {c : Char} {rest : List Char}
    (hdrop : s.drop q = c :: rest) (hc : tokenChar c = true) :
    parseComplexOp s q s.length = c :: rest.takeWhile tokenChar := by
  have hsplit : s.drop q = (c :: rest.takeWhile tokenChar) ++ rest.dropWhile tokenChar := by
    rw [hdrop]; simp
  have hlen : s.length = q + (c :: rest).length := length_of_drop hdrop (by simp)
  have hlen2 : rest.length = (rest.takeWhile tokenChar).length
      + (rest.dropWhile tokenChar).length := by
    have := congrArg List.length (List.takeWhile_append_dropWhile tokenChar rest)
    rw [List.length_append] at this
    omega
  refine parseComplexOp_eq hsplit ?_ ?_ ?_
  · intro d hd
    rcases List.mem_cons.mp hd with h | h
    · subst h; exact hc
    · exact (List.mem_takeWhile_imp h)
  · rcases takeWhile_tokenChar_stop rest with h | h
    · exact Or.inl h
    · right
      rw [h] at hlen2
      simp only [List.length_cons, List.length_nil] at hlen hlen2 ⊢
      omega
  · simp only [List.length_cons] at hlen ⊢
    omega

/-- An input that starts, after an optional opening bracket and spaces, with a
word whose first character is a letter other than `x`, `y`, `z` and that is
no property name of `opMap`: when its brackets are balanced, `parsePrefix`
raises the "Unacceptable symbol" error, with an empty token and the position of
the word. -/
theorem parsePrefix_unknown_word {pre : List Char} {n : Nat} {c : Char} {rest : List Char}
    (hpre : pre = List.replicate n ' ' ∨ pre = '(' :: List.replicate n ' ')
    (hlet : isLetter (some c) = .ok true) (hacc : isAcceptableLetter (some c) = false)
    (hmap : opMapGet (c :: rest.takeWhile tokenChar) = none)
    (hb : Balanced (pre ++ c :: rest)) :
    parsePrefix (pre ++ c :: rest) = .error (.unacceptableToken [] pre.length) := by
  have htok := letter_tokenChar hlet
  have hc0 := tokenChar_ne htok
  generalize hs : pre ++ c :: rest = s at hb
  have hne : s ≠ [] := by rw [← hs]; simp
  have hdropq : s.drop pre.length = c :: rest := by rw [← hs]; simp
  have hgetq : s[pre.length]? = some c := getElem?_of_drop hdropq
  have hres := parseComplexOp_word hdropq htok
  have hcus := checkUnacceptableSymbols_letter hgetq hlet hacc
  rw [parsePrefix_of_balanced hne hb]
  rcases hpre with h | h
  · have hlen : pre.length = n := by rw [h]; simp
    have hget0 : s[0]? ≠ some '(' := by
      cases n with
      | zero =>
        rw [hlen] at hgetq
        rw [hgetq]; simp [hc0.2.1]
      | succ m =>
        have : s[0]? = some ' ' := by rw [← hs, h]; simp [List.replicate_succ]
        rw [this]; decide
    have hws : skipWhitespaces s 0 = pre.length := by
      have := skipWhitespaces_replicate (s := s) n 0 (c :: rest) (by rw [← hs, h]; simp)
        (by simp [hc0.1])
      rw [this, hlen]; simp
    exact parse_getOp_error (q := 0) (by rw [if_neg hget0]) (getOp_error hws hres hmap hcus)
  · have hlen : pre.length = n + 1 := by rw [h]; simp
    have hget0 : s[0]? = some '(' := by rw [← hs, h]; simp
    have hws : skipWhitespaces s 1 = pre.length := by
      have := skipWhitespaces_replicate (s := s) n 1 (c :: rest) (by rw [← hs, h]; simp)
        (by simp [hc0.1])
      rw [this, hlen]; omega
    exact parse_getOp_error (q := 1) (by rw [if_pos hget0]) (getOp_error hws hres hmap hcus)

end ObjectExpression

namespace ObjectExpression

/-! ## Which errors the parser raises, and where it recurses -/

theorem skipClosingLoop_ge (s : List Char) :
    ∀ (fuel l : Nat), l ≤ skipClosingLoop s fuel l := by
  intro fuel
  induction fuel with
  | zero => intro l; exact Nat.le_refl l
  | succ n ih =>
    intro l
    simp only [skipClosingLoop]
    split
    · have h1 := skipWhitespaces_ge s (l + 1)
      have h2 := ih (skipWhitespaces s (l + 1))
      omega
    · exact Nat.le_refl l

theorem skipClosing_ge (s : List Char) (l : Nat) : l ≤ skipClosing s l :=
  skipClosingLoop_ge s _ l

theorem skipBracketsLoop_ge (s : List Char) (r : Nat) (b : Bool) :
    ∀ (fuel l : Nat) (firstIn : Bool) (c : Int),
      l ≤ (skipBracketsLoop s r b fuel l firstIn c).1 := by
  intro fuel
  induction fuel with
  | zero => intro l _ _; exact Nat.le_refl l
  | succ n ih =>
    intro l firstIn c
    simp only [skipBracketsLoop]
    split_ifs <;> first | exact Nat.le_refl l | exact Nat.le_of_succ_le (ih _ _ _)

/-- Where `skipBrackets` ends when it is called at an opening bracket: not
before that bracket, unless the range is empty, and then the character before
the bracket is no opening bracket. -/
theorem skipBrackets_ok_pos {s : List Char} {l r end_ : Nat}
    (hget : s[l]? = some '(') (h : skipBrackets s l r false = .ok end_) :
    l ≤ end_ ∨ (end_ + 1 = l ∧ s[end_]? ≠ some '(') := by
  unfold skipBrackets at h
  simp only at h
  generalize hseed : (if 0 < l ∧ s[l - 1]? = some '(' then (1 : Int) else 0) = seed at h
  have hseed0 : 0 ≤ seed := by
    rw [← hseed]; split <;> omega
  by_cases hcount : (skipBracketsLoop s r false (r + 1 - l) l true seed).2 ≠ 0
  · rw [if_pos hcount] at h; cases h
  · rw [if_neg hcount] at h
    simp only [ne_eq, Decidable.not_not] at hcount
    injection h with h
    by_cases hlr : l ≤ r
    · left
      have hf : r + 1 - l = (r - l) + 1 := by omega
      rw [hf] at h
      have hstep : skipBracketsLoop s r false (r - l + 1) l true seed
          = skipBracketsLoop s r false (r - l) (l + 1) false (seed + 1) := by
        simp only [skipBracketsLoop, hlr, if_true, hget]
        simp only [Bool.true_eq_false, and_false, if_false, reduceCtorEq, if_true]
        rw [if_neg (by omega)]
        have hne : ¬ ((some '(' : Option Char) = some ')') := by decide
        rw [if_neg hne]
      rw [hstep] at h
      have := skipBracketsLoop_ge s r false (r - l) (l + 1) false (seed + 1)
      omega
    · right
      have hf : r + 1 - l = 0 := by omega
      rw [hf] at h hcount
      simp only [skipBracketsLoop] at h hcount
      have hl : 0 < l := by omega
      have hprev : s[l - 1]? ≠ some '(' := by
        intro hp
        rw [if_pos ⟨hl, hp⟩] at hseed
        omega
      subst h
      exact ⟨by omega, hprev⟩

theorem checkPlaceholder_error {s : List Char} {l r : Nat} {isVar : Bool} {e : Err}
    (h : checkPlaceholder s l r isVar = .error e) :
    e = .wrongPlaceholder isVar ∨ e = .bareBrackets := by
  unfold checkPlaceholder checkBareBrackets at h
  split at h
  · injection h with h; exact Or.inl h.symm
  · split at h
    · injection h with h; exact Or.inr h.symm
    · cases h

theorem parseNumStrLoop_length (s : List Char) :
    ∀ (fuel l : Nat) (acc : List Char), acc.length ≤ (parseNumStrLoop s fuel l acc).length := by
  intro fuel
  induction fuel with
  | zero => intro l acc; exact Nat.le_refl _
  | succ n ih =>
    intro l acc
    simp only [parseNumStrLoop]
    split
    · have := ih (l + 1) (acc ++ jsStr s[l]?)
      simp only [List.length_append] at this
      omega
    · exact Nat.le_refl _

/-- At a digit or a `-` sign `parseNumStr` reads at least one character, so it
does not raise its "NaN" error. -/
theorem parseNumStr_ok_of_head {s : List Char} {l : Nat}
    (h : isDigit s[l]? = true ∨ s[l]? = some '-') :
    ∃ res, parseNumStr s l = .ok res ∧ 1 ≤ res.length := by
  have hl : l < s.length := by
    by_contra hc
    rw [List.getElem?_eq_none (by omega)] at h
    rcases h with h | h <;> cases h
  obtain ⟨c, hc⟩ : ∃ c, s[l]? = some c := ⟨s[l], List.getElem?_eq_getElem hl⟩
  have hf : s.length - l = (s.length - l - 1) + 1 := by omega
  have hlen : 1 ≤ (parseNumStrLoop s (s.length - l) l []).length := by
    rw [hf, parseNumStrLoop, if_pos h, hc]
    have := parseNumStrLoop_length s (s.length - l - 1) (l + 1) [c]
    simpa [jsStr] using this
  refine ⟨parseNumStrLoop s (s.length - l) l [], ?_, hlen⟩
  unfold parseNumStr
  simp only
  rw [if_neg (by omega)]

theorem checkUnacceptableSymbols_error {s : List Char} {l r : Nat} {e : Err}
    (h : checkUnacceptableSymbols s l r = .error e) : e.raisedByParser = true := by
  unfold checkUnacceptableSymbols at h
  split at h
  · cases hl : isLetter s[l]? with
    | error e' =>
      rw [hl] at h
      simp only at h
      injection h with h
      subst h
      cases hs : s[l]? with
      | none => rw [hs] at hl; injection hl with hl; subst hl; rfl
      | some c => rw [hs] at hl; cases hl
    | ok b =>
      rw [hl] at h
      simp only at h
      split at h
      · injection h with h; subst h; rfl
      · split at h <;> (injection h with h; subst h; rfl)
  · cases h

theorem checkSingle_error {s : List Char} {l r : Nat} {e : Err}
    (h : checkSingle s l r = .error e) : e = .operandsWithoutOperator := by
  unfold checkSingle at h
  simp only at h
  split_ifs at h <;> (injection h with h; exact h.symm)

theorem getOp_error_raised {s : List Char} {l r : Nat} {e : Err}
    (h : getOp s l r = .error e) : e.raisedByParser = true := by
  unfold getOp at h
  simp only at h
  split at h
  · split at h
    · cases h
    · split at h
      · rename_i e' hcus
        injection h with h
        subst h
        exact checkUnacceptableSymbols_error hcus
      · cases h
  · split at h
    · rename_i e' hcus
      injection h with h
      subst h
      exact checkUnacceptableSymbols_error hcus
    · cases h

theorem opMapGet_nil : opMapGet [] = none := rfl

/-- The end position that `getOp` returns with an operator is behind its start. -/
theorem getOp_some_gt {s : List Char} {l r opEnd : Nat} {entry : OpMapEntry}
    (h : getOp s l r = .ok (some (entry, opEnd))) : l < opEnd := by
  unfold getOp at h
  simp only at h
  split at h
  · rename_i entry' hmap
    split at h
    · injection h with h
      injection h with h
      injection h with _ h
      have hne : (parseComplexOp s (skipWhitespaces s l) r).length ≠ 0 := by
        intro h0
        rw [List.length_eq_zero.mp h0, opMapGet_nil] at hmap
        cases hmap
      have h1 := skipWhitespaces_ge s l
      have h2 := skipWhitespaces_ge s
        (skipWhitespaces s l + (parseComplexOp s (skipWhitespaces s l) r).length)
      omega
    · split at h <;> cases h
  · split at h <;> cases h

end ObjectExpression

namespace ObjectExpression

/-! ## The outcomes of `getArg` -/

/-- The outcomes of `getArg` at an opening bracket. -/
theorem getArg_nested {s : List Char} (g : Nat → Nat → Except Err Expr) {start r l : Nat}
    (hl : skipClosing s (skipWhitespaces s start) = l) (hget : s[l]? = some '(') :
    getArg s g start r = .error .wrongBracketSequence ∨
      ∃ end_, skipBrackets s l r false = .ok end_ ∧
        ((∃ e, g l end_ = .error e ∧ getArg s g start r = .error e) ∨
          (∃ res, g l end_ = .ok res ∧
            getArg s g start r = .ok (some (res, skipWhitespaces s end_)))) := by
  unfold getArg
  simp only [hl, hget, if_true]
  cases hsb : skipBrackets s l r false with
  | error e =>
    left
    rw [skipBrackets_error hsb]
  | ok end_ =>
    right
    refine ⟨end_, rfl, ?_⟩
    simp only
    cases hg : g l end_ with
    | error e => exact Or.inl ⟨e, rfl, rfl⟩
    | ok res => exact Or.inr ⟨res, rfl, rfl⟩

/-- The outcomes of `getArg` at any other character: they do not depend on the
recursive call. -/
theorem getArg_leaf {s : List Char} (g : Nat → Nat → Except Err Expr) {start r l : Nat}
    (hl : skipClosing s (skipWhitespaces s start) = l) (hget : s[l]? ≠ some '(') :
    (∃ e, getArg s g start r = .error e ∧ e.raisedByParser = true) ∨
      getArg s g start r = .ok none ∨
      (∃ v, s[l]? = some v ∧ isAcceptableLetter (some v) = true ∧
        getArg s g start r = .ok (some (.Variable v, skipWhitespaces s (l + 1)))) ∨
      (∃ res, parseNumStr s l = .ok res ∧ 1 ≤ res.length ∧
        getArg s g start r
          = .ok (some (.Const (parseInt res), skipWhitespaces s (l + res.length)))) := by
  unfold getArg
  simp only [hl]
  rw [if_neg hget]
  by_cases hacc : isAcceptableLetter s[l]? = true
  · rw [if_pos hacc]
    cases hcp : checkPlaceholder s l l true with
    | error e =>
      left
      refine ⟨e, rfl, ?_⟩
      rcases checkPlaceholder_error hcp with h | h <;> (subst h; rfl)
    | ok u =>
      right; right; left
      cases hs : s[l]? with
      | none => rw [hs] at hacc; cases hacc
      | some v =>
        rw [hs] at hacc
        exact ⟨v, rfl, hacc, by simp [List.getD, hs]⟩
  · rw [if_neg hacc]
    by_cases hnum : isDigit s[l]? = true ∨ s[l]? = some '-'
    · rw [if_pos hnum]
      obtain ⟨res, hres, hlen⟩ := parseNumStr_ok_of_head hnum
      rw [hres]
      simp only
      cases hcp : checkPlaceholder s l (l + res.length - 1) false with
      | error e =>
        left
        refine ⟨e, rfl, ?_⟩
        rcases checkPlaceholder_error hcp with h | h <;> (subst h; rfl)
      | ok u =>
        right; right; right
        exact ⟨res, rfl, hlen, rfl⟩
    · rw [if_neg hnum]
      cases hcus : checkUnacceptableSymbols s l l with
      | error e => exact Or.inl ⟨e, rfl, checkUnacceptableSymbols_error hcus⟩
      | ok u => exact Or.inr (Or.inl rfl)

/-- Function `getArg` calls `parse` at most once, at an opening bracket at or
behind `start`: two functions that agree there give the same result. -/
theorem getArg_congr {s : List Char} (g h : Nat → Nat → Except Err Expr) (start r : Nat)
    (hgh : ∀ l' r', start ≤ l' → s[l']? = some '(' → g l' r' = h l' r') :
    getArg s g start r = getArg s h start r := by
  have hge : start ≤ skipClosing s (skipWhitespaces s start) :=
    le_trans (skipWhitespaces_ge s start) (skipClosing_ge s _)
  by_cases hget : s[skipClosing s (skipWhitespaces s start)]? = some '('
  · unfold getArg
    simp only [hget, if_true]
    cases hsb : skipBrackets s (skipClosing s (skipWhitespaces s start)) r false with
    | error e => rfl
    | ok end_ =>
      simp only
      rw [hgh _ end_ hge hget]
  · unfold getArg
    simp only
    rw [if_neg hget, if_neg hget]

/-- An error of `getArg` is an error of the parser's own checks or the error of
the one recursive call. -/
theorem getArg_error_prov {s : List Char} (g : Nat → Nat → Except Err Expr) {start r : Nat}
    {e : Err} (h : getArg s g start r = .error e) :
    e.raisedByParser = true ∨
      ∃ l' r', start ≤ l' ∧ s[l']? = some '(' ∧ g l' r' = .error e := by
  have hge : start ≤ skipClosing s (skipWhitespaces s start) :=
    le_trans (skipWhitespaces_ge s start) (skipClosing_ge s _)
  by_cases hget : s[skipClosing s (skipWhitespaces s start)]? = some '('
  · rcases getArg_nested g rfl hget with h1 | ⟨end_, _, ⟨e', hg, h1⟩ | ⟨res, _, h1⟩⟩
    · rw [h1] at h; injection h with h; subst h; exact Or.inl rfl
    · rw [h1] at h; injection h with h; subst h
      exact Or.inr ⟨_, end_, hge, hget, hg⟩
    · rw [h1] at h; cases h
  · rcases getArg_leaf g rfl hget with ⟨e', h1, he⟩ | h1 | ⟨v, _, _, h1⟩ | ⟨res, _, _, h1⟩
    · rw [h1] at h; injection h with h; subst h; exact Or.inl he
    · rw [h1] at h; cases h
    · rw [h1] at h; cases h
    · rw [h1] at h; cases h

/-- Behind the end position that `getArg` returns, every opening bracket is at
or behind the start of that call. -/
theorem getArg_next {s : List Char} (g : Nat → Nat → Except Err Expr) {start r next : Nat}
    {res : Expr} (h : getArg s g start r = .ok (some (res, next))) :
    ∀ p, next ≤ p → s[p]? = some '(' → start ≤ p := by
  have hge : start ≤ skipClosing s (skipWhitespaces s start) :=
    le_trans (skipWhitespaces_ge s start) (skipClosing_ge s _)
  intro p hp hpo
  by_cases hget : s[skipClosing s (skipWhitespaces s start)]? = some '('
  · rcases getArg_nested g rfl hget with h1 | ⟨end_, hsb, ⟨e', _, h1⟩ | ⟨res', _, h1⟩⟩
    · rw [h1] at h; cases h
    · rw [h1] at h; cases h
    · rw [h1] at h
      injection h with h; injection h with h; injection h with _ h
      have hws := skipWhitespaces_ge s end_
      rcases skipBrackets_ok_pos hget hsb with hle | ⟨heq, hno⟩
      · omega
      · by_cases hpe : p = end_
        · subst hpe; exact absurd hpo hno
        · omega
  · rcases getArg_leaf g rfl hget with ⟨e', h1, _⟩ | h1 | ⟨v, _, _, h1⟩ | ⟨res', _, _, h1⟩
    · rw [h1] at h; cases h
    · rw [h1] at h; cases h
    · rw [h1] at h
      injection h with h; injection h with h; injection h with _ h
      have := skipWhitespaces_ge s (skipClosing s (skipWhitespaces s start) + 1)
      omega
    · rw [h1] at h
      injection h with h; injection h with h; injection h with _ h
      have := skipWhitespaces_ge s (skipClosing s (skipWhitespaces s start) + res'.length)
      omega

/-- The tree that `getArg` returns is a variable `x`, `y` or `z`, a constant,
or the tree of the recursive call. -/
theorem getArg_shaped {s : List Char} (g : Nat → Nat → Except Err Expr) {start r next : Nat}
    {res : Expr} (hg : ∀ l' r' t, g l' r' = .ok t → t.Shaped = true)
    (h : getArg s g start r = .ok (some (res, next))) : res.Shaped = true := by
  by_cases hget : s[skipClosing s (skipWhitespaces s start)]? = some '('
  · rcases getArg_nested g rfl hget with h1 | ⟨end_, _, ⟨e', _, h1⟩ | ⟨res', hres, h1⟩⟩
    · rw [h1] at h; cases h
    · rw [h1] at h; cases h
    · rw [h1] at h
      injection h with h; injection h with h; injection h with h _
      subst h
      exact hg _ _ _ hres
  · rcases getArg_leaf g rfl hget with ⟨e', h1, _⟩ | h1 | ⟨v, _, hv, h1⟩ | ⟨res', _, _, h1⟩
    · rw [h1] at h; cases h
    · rw [h1] at h; cases h
    · rw [h1] at h
      injection h with h; injection h with h; injection h with h _
      subst h
      exact hv
    · rw [h1] at h
      injection h with h; injection h with h; injection h with h _
      subst h
      rfl

end ObjectExpression

namespace ObjectExpression

/-! ## The operand loop and the recursion of `parse` -/

theorem noOpenAt_next {s : List Char} {l start next : Nat}
    (h : NoOpenAt s l start) (hn : ∀ p, next ≤ p → s[p]? = some '(' → start ≤ p) :
    NoOpenAt s l next :=
  fun p hp hpo => h p (hn p hp hpo) hpo

theorem lt_length_of_getElem? {s : List Char} {p : Nat} {c : Char} (h : s[p]? = some c) :
    p < s.length := by
  by_contra hc
  rw [List.getElem?_eq_none (by omega)] at h
  cases h

/-- The operand loop calls `parse` only at opening brackets behind `l`. -/
theorem parseOperands_congr {s : List Char} (g h : Nat → Nat → Except Err Expr) (l r : Nat)
    (hgh : ∀ l' r', l < l' → l' < s.length → g l' r' = h l' r') :
    ∀ (n start : Nat) (acc : List Expr), NoOpenAt s l start →
      parseOperands s g r n start acc = parseOperands s h r n start acc := by
  intro n
  induction n with
  | zero => intro start acc _; rfl
  | succ n ih =>
    intro start acc hno
    have hga : getArg s g start r = getArg s h start r :=
      getArg_congr g h start r
        (fun l' r' hl' hpo => hgh l' r' (hno l' hl' hpo) (lt_length_of_getElem? hpo))
    rw [parseOperands, parseOperands, ← hga]
    cases hres : getArg s g start r with
    | error e => rfl
    | ok o =>
      cases o with
      | none => rfl
      | some pr =>
        obtain ⟨res, next⟩ := pr
        exact ih next (acc ++ [res]) (noOpenAt_next hno (getArg_next g hres))

/-- An error of the operand loop is an error of the parser's own checks or the
error of a recursive call at an opening bracket behind `l`. -/
theorem parseOperands_error_prov {s : List Char} (g : Nat → Nat → Except Err Expr)
    (l r : Nat) {e : Err} :
    ∀ (n start : Nat) (acc : List Expr), NoOpenAt s l start →
      parseOperands s g r n start acc = .error e →
      e.raisedByParser = true ∨ ∃ l' r', l < l' ∧ l' < s.length ∧ g l' r' = .error e := by
  intro n
  induction n with
  | zero => intro start acc _ h; cases h
  | succ n ih =>
    intro start acc hno h
    rw [parseOperands] at h
    cases hres : getArg s g start r with
    | error e' =>
      rw [hres] at h
      injection h with h
      subst h
      rcases getArg_error_prov g hres with h1 | ⟨l', r', hl', hpo, hg⟩
      · exact Or.inl h1
      · exact Or.inr ⟨l', r', hno l' hl' hpo, lt_length_of_getElem? hpo, hg⟩
    | ok o =>
      rw [hres] at h
      cases o with
      | none =>
        injection h with h
        subst h
        exact Or.inl rfl
      | some pr =>
        obtain ⟨res, next⟩ := pr
        exact ih next (acc ++ [res]) (noOpenAt_next hno (getArg_next g hres)) h

theorem allShaped_append {as bs : List Expr} (ha : allShaped as = true)
    (hb : allShaped bs = true) : allShaped (as ++ bs) = true := by
  induction as with
  | nil => exact hb
  | cons a as ih =>
    simp only [allShaped, Bool.and_eq_true] at ha
    simp only [List.cons_append, allShaped, Bool.and_eq_true]
    exact ⟨ha.1, ih ha.2⟩

/-- The operand loop returns its `n` operands behind `acc`, each of them a
variable, a constant or the tree of a recursive call. -/
theorem parseOperands_shaped {s : List Char} (g : Nat → Nat → Except Err Expr) (r : Nat)
    (hg : ∀ l' r' t, g l' r' = .ok t → t.Shaped = true) :
    ∀ (n start : Nat) (acc es : List Expr) (fin : Nat), allShaped acc = true →
      parseOperands s g r n start acc = .ok (es, fin) →
      es.length = acc.length + n ∧ allShaped es = true := by
  intro n
  induction n with
  | zero =>
    intro start acc es fin hacc h
    rw [parseOperands] at h
    injection h with h
    injection h with h _
    subst h
    exact ⟨rfl, hacc⟩
  | succ n ih =>
    intro start acc es fin hacc h
    rw [parseOperands] at h
    cases hres : getArg s g start r with
    | error e' => rw [hres] at h; cases h
    | ok o =>
      rw [hres] at h
      cases o with
      | none => cases h
      | some pr =>
        obtain ⟨res, next⟩ := pr
        have hres' := getArg_shaped g hg hres
        have := ih next (acc ++ [res]) es fin
          (allShaped_append hacc (by simp [allShaped, hres'])) h
        simp only [List.length_append, List.length_singleton] at this
        exact ⟨by omega, this.2⟩

/-- Where the operand loop of `parse(l, r)` starts when `getOp` found no
operator, no opening bracket is at or before `l`. -/
theorem noOpenAt_start_none (s : List Char) (l : Nat) :
    NoOpenAt s l (if s[l]? = some '(' then l + 1 else l) := by
  intro p hp hpo
  by_cases hl : s[l]? = some '('
  · rw [if_pos hl] at hp; omega
  · rw [if_neg hl] at hp
    by_cases hpl : p = l
    · subst hpl; exact absurd hpo hl
    · omega

/-- The operand loop of `parse(l, r)` starts behind `l` when `getOp` found an
operator. -/
theorem noOpenAt_start_some {s : List Char} {l r opEnd : Nat} {entry : OpMapEntry}
    (hop : getOp s (if s[l]? = some '(' then l + 1 else l) r = .ok (some (entry, opEnd))) :
    NoOpenAt s l opEnd := by
  intro p hp _
  have := getOp_some_gt hop
  split at this <;> omega

/-- One level of `parse` depends on the level below only through the calls at
opening brackets behind `l`. -/
theorem parse_step_congr (s : List Char) (fuel1 fuel2 l r : Nat)
    (h : ∀ l' r', l < l' → l' < s.length → parse s fuel1 l' r' = parse s fuel2 l' r') :
    parse s (fuel1 + 1) l r = parse s (fuel2 + 1) l r := by
  rw [parse, parse]
  simp only
  cases hop : getOp s (if s[l]? = some '(' then l + 1 else l) r with
  | error e => rfl
  | ok op =>
    cases op with
    | none =>
      simp only
      rw [parseOperands_congr (parse s fuel1) (parse s fuel2) l r h _ _ []
        (noOpenAt_start_none s l)]
    | some pr =>
      obtain ⟨entry, opEnd⟩ := pr
      simp only
      rw [parseOperands_congr (parse s fuel1) (parse s fuel2) l r h _ _ []
        (noOpenAt_start_some hop)]

/-- With a recursion counter above `length - l`, `parse(l, r)` does not depend
on the counter. -/
theorem parse_fuel_indep (s : List Char) :
    ∀ (fuel1 fuel2 l r : Nat), s.length - l < fuel1 → s.length - l < fuel2 →
      parse s fuel1 l r = parse s fuel2 l r := by
  intro fuel1
  induction fuel1 with
  | zero => intro fuel2 l r h; omega
  | succ n ih =>
    intro fuel2 l r h1 h2
    cases fuel2 with
    | zero => omega
    | succ m =>
      exact parse_step_congr s n m l r
        (fun l' r' hl' hlen => ih m l' r' (by omega) (by omega))

/-- With a recursion counter above `length - l`, every error of `parse(l, r)` is
raised by one of the parser's own checks; the counter does not run out. -/
theorem parse_error_raised (s : List Char) :
    ∀ (fuel l r : Nat) (e : Err), s.length - l < fuel → parse s fuel l r = .error e →
      e.raisedByParser = true := by
  intro fuel
  induction fuel with
  | zero => intro l r e h; omega
  | succ n ih =>
    intro l r e hf h
    have key : ∀ (argNum start : Nat) (e' : Err), NoOpenAt s l start →
        parseOperands s (parse s n) r argNum start [] = .error e' →
        e'.raisedByParser = true := by
      intro argNum start e' hno hops
      rcases parseOperands_error_prov (parse s n) l r argNum start [] hno hops
        with h1 | ⟨l', r', hl', hlen, hg⟩
      · exact h1
      · exact ih l' r' _ (by omega) hg
    rw [parse] at h
    simp only at h
    cases hop : getOp s (if s[l]? = some '(' then l + 1 else l) r with
    | error e' =>
      rw [hop] at h
      injection h with h
      subst h
      exact getOp_error_raised hop
    | ok op =>
      rw [hop] at h
      cases op with
      | none =>
        simp only at h
        cases hops : parseOperands s (parse s n) r 1
            (if s[l]? = some '(' then l + 1 else l) [] with
        | error e' =>
          rw [hops] at h
          injection h with h
          subst h
          exact key _ _ _ (noOpenAt_start_none s l) hops
        | ok pr =>
          obtain ⟨operands, fin⟩ := pr
          rw [hops] at h
          simp only at h
          cases hcs : checkSingle s fin r with
          | error e' =>
            rw [hcs] at h
            injection h with h
            subst h
            rw [checkSingle_error hcs]
            rfl
          | ok u =>
            rw [hcs] at h
            cases operands with
            | nil => injection h with h; subst h; rfl
            | cons first rest => cases h
      | some pr =>
        obtain ⟨entry, opEnd⟩ := pr
        simp only at h
        cases hops : parseOperands s (parse s n) r entry.argNum opEnd [] with
        | error e' =>
          rw [hops] at h
          injection h with h
          subst h
          exact key _ _ _ (noOpenAt_start_some hop) hops
        | ok pr =>
          obtain ⟨operands, fin⟩ := pr
          rw [hops] at h
          simp only at h
          cases hcs : checkSingle s fin r with
          | error e' =>
            rw [hcs] at h
            injection h with h
            subst h
            rw [checkSingle_error hcs]
            rfl
          | ok u =>
            rw [hcs] at h
            cases entry with
            | ctor k => cases h
            | objectCtor => cases h
            | notConstructible => injection h with h; subst h; rfl

theorem opMapGet_ctor_sign {res : List Char} {k : OpKind}
    (h : opMapGet res = some (.ctor k)) : opMapGet k.sign = some (.ctor k) := by
  unfold opMapGet at h
  by_cases h0 : res = ['+']
  · rw [if_pos h0] at h; injection h with h; injection h with h; subst h; rfl
  rw [if_neg h0] at h
  by_cases h1 : res = ['-']
  · rw [if_pos h1] at h; injection h with h; injection h with h; subst h; rfl
  rw [if_neg h1] at h
  by_cases h2 : res = ['/']
  · rw [if_pos h2] at h; injection h with h; injection h with h; subst h; rfl
  rw [if_neg h2] at h
  by_cases h3 : res = ['*']
  · rw [if_pos h3] at h; injection h with h; injection h with h; subst h; rfl
  rw [if_neg h3] at h
  by_cases h4 : res = ['n', 'e', 'g', 'a', 't', 'e']
  · rw [if_pos h4] at h; injection h with h; injection h with h; subst h; rfl
  rw [if_neg h4] at h
  by_cases h5 : res = ['e', 'x', 'p']
  · rw [if_pos h5] at h; injection h with h; injection h with h; subst h; rfl
  rw [if_neg h5] at h
  by_cases h6 : res = ['a', 't', 'a', 'n']
  · rw [if_pos h6] at h; injection h with h; injection h with h; subst h; rfl
  rw [if_neg h6] at h
  split_ifs at h <;> cases h

theorem getOp_ctor_registered {s : List Char} {l r opEnd : Nat} {k : OpKind}
    (h : getOp s l r = .ok (some (.ctor k, opEnd))) : opMapGet k.sign = some (.ctor k) := by
  unfold getOp at h
  simp only at h
  cases hmap : opMapGet (parseComplexOp s (skipWhitespaces s l) r) with
  | none =>
    rw [hmap] at h
    simp only at h
    cases hcus : checkUnacceptableSymbols s (skipWhitespaces s l) (skipWhitespaces s l) with
    | error e => rw [hcus] at h; cases h
    | ok u => rw [hcus] at h; cases h
  | some entry =>
    rw [hmap] at h
    simp only at h
    by_cases hm : ¬ (parseComplexOp s (skipWhitespaces s l) r = ['-']
        ∧ isDigit (some '-') = true)
    · rw [if_pos hm] at h
      injection h with h
      injection h with h
      injection h with h _
      subst h
      exact opMapGet_ctor_sign hmap
    · exfalso
      apply hm
      rintro ⟨_, hd⟩
      revert hd
      decide

/-- Every tree that `parse` returns is shaped: its operations carry operators
of `opMap` with `argNum` operands each, its variables are `x`, `y` or `z`. -/
theorem parse_shaped (s : List Char) :
    ∀ (fuel l r : Nat) (t : Expr), parse s fuel l r = .ok t → t.Shaped = true := by
  intro fuel
  induction fuel with
  | zero => intro l r t h; cases h
  | succ n ih =>
    intro l r t h
    have hg : ∀ l' r' t', parse s n l' r' = .ok t' → t'.Shaped = true := ih
    rw [parse] at h
    simp only at h
    cases hop : getOp s (if s[l]? = some '(' then l + 1 else l) r with
    | error e' => rw [hop] at h; cases h
    | ok op =>
      rw [hop] at h
      cases op with
      | none =>
        simp only at h
        cases hops : parseOperands s (parse s n) r 1
            (if s[l]? = some '(' then l + 1 else l) [] with
        | error e' => rw [hops] at h; cases h
        | ok pr =>
          obtain ⟨operands, fin⟩ := pr
          rw [hops] at h
          simp only at h
          obtain ⟨_, hsh⟩ := parseOperands_shaped (parse s n) r hg _ _ [] _ _ rfl hops
          cases hcs : checkSingle s fin r with
          | error e' => rw [hcs] at h; cases h
          | ok u =>
            rw [hcs] at h
            cases operands with
            | nil => cases h
            | cons first rest =>
              injection h with h
              subst h
              simp only [allShaped, Bool.and_eq_true] at hsh
              exact hsh.1
      | some pr =>
        obtain ⟨entry, opEnd⟩ := pr
        simp only at h
        cases hops : parseOperands s (parse s n) r entry.argNum opEnd [] with
        | error e' => rw [hops] at h; cases h
        | ok pr =>
          obtain ⟨operands, fin⟩ := pr
          rw [hops] at h
          simp only at h
          obtain ⟨hlen, hsh⟩ := parseOperands_shaped (parse s n) r hg _ _ [] _ _ rfl hops
          cases hcs : checkSingle s fin r with
          | error e' => rw [hcs] at h; cases h
          | ok u =>
            rw [hcs] at h
            cases entry with
            | ctor k =>
              injection h with h
              subst h
              have hreg := getOp_ctor_registered hop
              simp only [List.length_nil, Nat.zero_add, OpMapEntry.argNum] at hlen
              simp [Expr.Shaped, hreg, hlen, hsh]
            | objectCtor =>
              injection h with h
              subst h
              rfl
            | notConstructible => cases h

end ObjectExpression

namespace ObjectExpression

/-! ## The text that `prefix` produces -/

theorem prefixAll_ok_iff : ∀ (es : List Expr) (strs : List (List Char)),
    prefixAll es = .ok strs ↔ List.Forall₂ (fun e str => Expr.prefix e = .ok str) es strs := by
  intro es
  induction es with
  | nil =>
    intro strs
    cases strs <;> simp [prefixAll]
  | cons e es ih =>
    intro strs
    simp only [prefixAll]
    cases he : Expr.prefix e with
    | error err =>
      simp only
      constructor
      · intro h; cases h
      · intro h
        cases h with
        | cons h1 _ => rw [he] at h1; cases h1
    | ok v =>
      simp only
      cases hes : prefixAll es with
      | error err =>
        simp only
        constructor
        · intro h; cases h
        · intro h
          cases h with
          | cons _ h2 =>
            rw [← ih] at h2
            rw [hes] at h2; cases h2
      | ok ws =>
        simp only
        constructor
        · intro h
          cases h
          exact List.Forall₂.cons he ((ih ws).mp hes)
        · intro h
          cases h with
          | cons h1 h2 =>
            rw [he] at h1
            cases h1
            rw [← ih, hes] at h2
            cases h2
            rfl

theorem digitChar_eq (d : Nat) (h : d < 10) : digitChar d = Nat.digitChar d := by
  interval_cases d <;> rfl

theorem natToStringLoop_eq_toDigitsCore :
    ∀ (fuel n : Nat) (acc : List Char),
      natToStringLoop fuel n acc = Nat.toDigitsCore 10 fuel n acc := by
  intro fuel
  induction fuel with
  | zero => intro n acc; rfl
  | succ k ih =>
    intro n acc
    simp only [natToStringLoop, Nat.toDigitsCore]
    rw [digitChar_eq (n % 10) (Nat.mod_lt n (by decide)), ih]

/-- The text of a natural number is its decimal representation. -/
theorem natToString_eq_repr (n : Nat) : natToString n = (Nat.repr n).toList := by
  simp only [natToString, natToStringLoop_eq_toDigitsCore, Nat.repr, Nat.toDigits]
  rfl

/-- The decimal text of an integer is its decimal representation. -/
theorem intToString_eq_toString (n : Int) : intToString n = (toString n).toList := by
  cases n with
  | ofNat k =>
    simp only [intToString, natToString_eq_repr]
    rfl
  | negSucc k =>
    simp only [intToString, natToString_eq_repr]
    rfl

/-- The text of an integer constant below 2^53 is its decimal representation. -/
theorem valToString_eq_toString {n : Int} (hn : n.natAbs < 9007199254740992) :
    valToString (.int n) = (toString n).toList := by
  rw [valToString_int hn, intToString_eq_toString]

theorem natToString_no_bracket (n : Nat) : ∀ c ∈ natToString n, c ≠ '(' ∧ c ≠ ')' := by
  intro c hc
  have hd := (natToString_spec n).2.1 c hc
  exact (numChar_ne (by simp [numChar, hd])).2

theorem largeToString_no_bracket (m : Nat) : ∀ c ∈ largeToString m, c ≠ '(' ∧ c ≠ ')' := by
  unfold largeToString
  cases roundDouble m with
  | none => decide
  | some x =>
    simp only
    generalize shortestLoop x (natToString x).length 17 1 = sp
    have hdig : ∀ c ∈ natToString sp.1 ++ List.replicate sp.2 '0', c ≠ '(' ∧ c ≠ ')' := by
      intro c hc
      rcases List.mem_append.mp hc with h | h
      · exact natToString_no_bracket _ c h
      · rw [List.eq_of_mem_replicate h]
        decide
    generalize natToString sp.1 ++ List.replicate sp.2 '0' = digits at hdig
    by_cases hlen : digits.length ≤ 21
    · rw [if_pos hlen]
      exact hdig
    · rw [if_neg hlen]
      have hsig : ∀ c ∈ (digits.reverse.dropWhile (fun c => c = '0')).reverse,
          c ≠ '(' ∧ c ≠ ')' := by
        intro c hc
        rw [List.mem_reverse] at hc
        exact hdig c (List.mem_reverse.mp ((List.dropWhile_sublist _).subset hc))
      generalize (digits.reverse.dropWhile (fun c => c = '0')).reverse = sig at hsig
      intro c hc
      simp only [List.mem_append, List.mem_cons] at hc
      rcases hc with (hc | hc) | hc | hc | hc
      · apply hsig
        cases sig with
        | nil => simp at hc
        | cons a t =>
          simp at hc
          rw [hc]
          simp
      · by_cases ht : sig.tail = []
        · rw [if_pos ht] at hc
          simp at hc
        · rw [if_neg ht] at hc
          rcases List.mem_cons.mp hc with h | h
          · rw [h]; decide
          · exact hsig c (List.mem_of_mem_tail h)
      · rw [hc]; decide
      · rw [hc]; decide
      · exact natToString_no_bracket _ c hc

mutual
theorem prefix_ok_of_isExpression : ∀ (e : Expr), e.IsExpression = true →
    ∃ t, Expr.prefix e = .ok t
  | .Operation op operands, h => by
    simp only [Expr.IsExpression] at h
    obtain ⟨ts, hts⟩ := prefixAll_ok_of_isExpression operands h
    simp only [ Expr.prefix, hts]
    exact ⟨_, rfl⟩
  | .Variable v, _ => ⟨[v], rfl⟩
  | .Const val, _ => ⟨valToString val, rfl⟩
  | .Object, h => by simp [Expr.IsExpression] at h
theorem prefixAll_ok_of_isExpression :
    ∀ (es : List Expr), allIsExpression es = true → ∃ ts, prefixAll es = .ok ts
  | [], _ => ⟨[], rfl⟩
  | e :: es, h => by
    simp only [allIsExpression, Bool.and_eq_true] at h
    obtain ⟨t, ht⟩ := prefix_ok_of_isExpression e h.1
    obtain ⟨ts, hts⟩ := prefixAll_ok_of_isExpression es h.2
    simp only [prefixAll, ht, hts]
    exact ⟨_, rfl⟩
end

theorem valToString_no_bracket (val : Num) :
    ∀ c ∈ valToString val, c ≠ '(' ∧ c ≠ ')' := by
  cases val with
  | nan => decide
  | negZero => decide
  | inf b => cases b <;> decide
  | int n =>
    simp only [valToString]
    split_ifs with h1 h2
    · exact fun c hc => (numChar_ne ((intToString_numChar n).2 c hc)).2
    · intro c hc
      rcases List.mem_cons.mp hc with h | h
      · rw [h]; decide
      · exact largeToString_no_bracket _ c h
    · exact largeToString_no_bracket _

theorem count_open_of_no_bracket {w : List Char} (h : ∀ c ∈ w, c ≠ '(' ∧ c ≠ ')') :
    w.count '(' = 0 := by
  rw [List.count_eq_zero]
  intro hm
  exact (h '(' hm).1 rfl

mutual
/-- What `prefix` returns for a tree of the data model: a text with balanced
brackets that holds one opening bracket for each operation. -/
theorem prefix_shape : ∀ (e : Expr) (str : List Char), e.IsExpression = true →
    Expr.prefix e = .ok str →
    depth str = 0 ∧ PrefixNonneg str ∧ str.count '(' = e.operationCount
  | .Operation op es, str, h, hp => by
    simp only [Expr.IsExpression] at h
    obtain ⟨ts, hts⟩ := prefixAll_ok_of_isExpression es h
    obtain ⟨hj0, hj, hjc⟩ := prefixAll_shape es ts h hts
    have hs0 := depth_of_no_bracket (sign_no_bracket op)
    have hs := prefixNonneg_of_no_bracket (sign_no_bracket op)
    have hsc := count_open_of_no_bracket (sign_no_bracket op)
    have hb0 : depth (op.sign ++ ' ' :: joinSpace ts) = 0 := by
      rw [depth_append, hs0, depth_space_cons, hj0]; rfl
    have hb : PrefixNonneg (op.sign ++ ' ' :: joinSpace ts) :=
      prefixNonneg_append hs hs0 (prefixNonneg_space_cons hj)
    have henc := prefixNonneg_enclose hb hb0
    simp only [ Expr.prefix, hts] at hp
    injection hp with hp
    subst hp
    simp only [List.append_assoc, List.cons_append] at henc
    refine ⟨henc.1, henc.2.1, ?_⟩
    simp only [Expr.operationCount, List.count_cons, List.count_append, hsc, hjc]
    simp [List.count_cons, List.count_nil]
  | .Variable v, str, h, hp => by
    injection hp with hp
    subst hp
    have hv : ∀ c ∈ [v], c ≠ '(' ∧ c ≠ ')' := by
      intro c hc
      simp only [List.mem_singleton] at hc
      subst hc
      constructor <;> (intro hv; subst hv; revert h; decide)
    exact ⟨depth_of_no_bracket hv, prefixNonneg_of_no_bracket hv, count_open_of_no_bracket hv⟩
  | .Const val, str, _, hp => by
    injection hp with hp
    subst hp
    exact ⟨depth_of_no_bracket (valToString_no_bracket val),
      prefixNonneg_of_no_bracket (valToString_no_bracket val),
      count_open_of_no_bracket (valToString_no_bracket val)⟩
  | .Object, _, h, _ => by simp [Expr.IsExpression] at h
theorem prefixAll_shape : ∀ (es : List Expr) (ts : List (List Char)),
    allIsExpression es = true → prefixAll es = .ok ts →
    depth (joinSpace ts) = 0 ∧ PrefixNonneg (joinSpace ts) ∧
      (joinSpace ts).count '(' = operationCountAll es
  | [], ts, _, hp => by
    injection hp with hp
    subst hp
    exact ⟨rfl, fun n => by simp [joinSpace, depth], rfl⟩
  | [e], ts, h, hp => by
    simp only [allIsExpression, Bool.and_eq_true] at h
    obtain ⟨t, ht⟩ := prefix_ok_of_isExpression e h.1
    simp only [prefixAll, ht] at hp
    injection hp with hp
    subst hp
    obtain ⟨h0, hn, hc⟩ := prefix_shape e t h.1 ht
    exact ⟨by simpa [joinSpace] using h0, by simpa [joinSpace] using hn,
      by simp [joinSpace, operationCountAll, hc]⟩
  | e :: e' :: es, ts, h, hp => by
    simp only [allIsExpression, Bool.and_eq_true] at h
    obtain ⟨t, ht⟩ := prefix_ok_of_isExpression e h.1
    obtain ⟨ts', hts'⟩ := prefixAll_ok_of_isExpression (e' :: es)
      (by simp [allIsExpression, h.2.1, h.2.2])
    obtain ⟨h0, hn, hc⟩ := prefix_shape e t h.1 ht
    obtain ⟨hj0, hj, hjc⟩ := prefixAll_shape (e' :: es) ts'
      (by simp [allIsExpression, h.2.1, h.2.2]) hts'
    have hts2 := hts'
    rw [prefixAll] at hp
    simp only [ht, hts'] at hp
    injection hp with hp
    subst hp
    obtain ⟨b, rest, hbr⟩ : ∃ b rest, ts' = b :: rest := by
      cases ts' with
      | nil =>
        simp only [prefixAll] at hts2
        split at hts2
        · split at hts2 <;> cases hts2
        · cases hts2
      | cons b rest => exact ⟨b, rest, rfl⟩
    subst hbr
    rw [joinSpace_cons_cons]
    refine ⟨?_, prefixNonneg_append hn h0 (prefixNonneg_space_cons hj), ?_⟩
    · rw [depth_append, h0, depth_space_cons, hj0]; rfl
    · rw [List.count_append, List.count_cons, hc, hjc]
      simp [operationCountAll]
end

end ObjectExpression

namespace ObjectExpression

/-! ## Placeholder adjacency, and the closing bracket of an operand -/

/-- When `checkPlaceholder` raises its "Wrong Variable" or "Wrong Number" error. -/
theorem checkPlaceholder_wrong_iff {s : List Char} {l r : Nat} {isVar : Bool}
    (hl : l ≤ s.length) :
    checkPlaceholder s l r isVar = .error (.wrongPlaceholder isVar) ↔
      ((∃ c, 0 < l ∧ s[l - 1]? = some c ∧ c ≠ ' ' ∧ c ≠ ')' ∧ c ≠ '('
          ∧ (c ≠ '-' ∨ isVar = true))
        ∨ (∃ c, s[r + 1]? = some c ∧ c ≠ ' ' ∧ c ≠ ')' ∧ c ≠ '(')) := by
  have hcond : ((0 < l ∧ s[l - 1]? ≠ some ' ' ∧ s[l - 1]? ≠ some ')' ∧ s[l - 1]? ≠ some '('
        ∧ (s[l - 1]? ≠ some '-' ∨ isVar = true))
      ∨ (r + 1 < s.length ∧ s[r + 1]? ≠ some ' ' ∧ s[r + 1]? ≠ some ')'
        ∧ s[r + 1]? ≠ some '(')) ↔
      ((∃ c, 0 < l ∧ s[l - 1]? = some c ∧ c ≠ ' ' ∧ c ≠ ')' ∧ c ≠ '('
          ∧ (c ≠ '-' ∨ isVar = true))
        ∨ (∃ c, s[r + 1]? = some c ∧ c ≠ ' ' ∧ c ≠ ')' ∧ c ≠ '(')) := by
    constructor
    · rintro (⟨h0, h1, h2, h3, h4⟩ | ⟨h0, h1, h2, h3⟩)
      · left
        have hlt : l - 1 < s.length := by omega
        have hget : s[l - 1]? = some s[l - 1] := List.getElem?_eq_getElem hlt
        rw [hget] at h1 h2 h3 h4
        refine ⟨s[l - 1], h0, hget, by simpa using h1, by simpa using h2, by simpa using h3, ?_⟩
        rcases h4 with h4 | h4
        · exact Or.inl (by simpa using h4)
        · exact Or.inr h4
      · right
        have hget : s[r + 1]? = some s[r + 1] := List.getElem?_eq_getElem h0
        rw [hget] at h1 h2 h3
        exact ⟨s[r + 1], hget, by simpa using h1, by simpa using h2, by simpa using h3⟩
    · rintro (⟨c, h0, hget, h1, h2, h3, h4⟩ | ⟨c, hget, h1, h2, h3⟩)
      · left
        rw [hget]
        refine ⟨h0, by simpa using h1, by simpa using h2, by simpa using h3, ?_⟩
        rcases h4 with h4 | h4
        · exact Or.inl (by simpa using h4)
        · exact Or.inr h4
      · right
        rw [hget]
        exact ⟨lt_length_of_getElem? hget, by simpa using h1, by simpa using h2,
          by simpa using h3⟩
  rw [← hcond]
  unfold checkPlaceholder checkBareBrackets
  constructor
  · intro h
    by_contra hc
    rw [if_neg hc] at h
    split_ifs at h
    cases h
  · intro h
    rw [if_pos h]

/-- A variable that is directly followed by another character than a space or
a bracket: `getArg` raises "Wrong Variable". -/
theorem getArg_variable_followed {s : List Char} (g : Nat → Nat → Except Err Expr)
    {start r l : Nat} {v c : Char}
    (hstart : skipClosing s (skipWhitespaces s start) = l)
    (hget : s[l]? = some v) (hv : isAcceptableLetter (some v) = true)
    (hnext : s[l + 1]? = some c) (hc : c ≠ ' ' ∧ c ≠ ')' ∧ c ≠ '(') :
    getArg s g start r = .error (.wrongPlaceholder true) := by
  rw [getArg_variable_eq g hstart hget hv,
    (checkPlaceholder_wrong_iff (le_of_lt (lt_length_of_getElem? hget))).mpr
      (Or.inr ⟨c, hnext, hc⟩)]

/-- An integer literal, read as the longest run of digits and `-` signs, that
is directly followed by another character than a space or a bracket: `getArg`
raises "Wrong Number". -/
theorem getArg_literal_followed {s : List Char} (g : Nat → Nat → Except Err Expr)
    {start r l : Nat} {w t : List Char} {c : Char}
    (hstart : skipClosing s (skipWhitespaces s start) = l)
    (hdrop : s.drop l = w ++ c :: t) (hne : w ≠ []) (hall : ∀ d ∈ w, numChar d = true)
    (hcn : numChar c = false) (hc : c ≠ ' ' ∧ c ≠ ')' ∧ c ≠ '(') :
    getArg s g start r = .error (.wrongPlaceholder false) := by
  have hlen : 0 < w.length := List.length_pos.mpr hne
  have hnext : s[l + w.length - 1 + 1]? = some c := by
    have : l + w.length - 1 + 1 = l + w.length := by omega
    rw [this, head?_cases_getElem? hdrop rfl]
    rfl
  have hl : l ≤ s.length := by
    have := length_of_drop hdrop (by simp)
    omega
  rw [getArg_literal_eq g hstart hdrop hne hall (by simp [hcn]),
    (checkPlaceholder_wrong_iff hl).mpr (Or.inr ⟨c, hnext, hc⟩)]

/-- Function `skipBrackets`, non-strict, at the opening bracket of a text `T`
whose nesting depth stays positive up to its last character and ends at zero,
returns the position of that last character. -/
theorem skipBrackets_of_inner {s : List Char} {p r : Nat} {T rest : List Char}
    (hdrop : s.drop p = T ++ rest) (hget : s[p]? = some '(') (hlen : 2 ≤ T.length)
    (hT0 : depth T = 0) (hpos : ∀ n, 0 < n → n < T.length → 0 < depth (T.take n))
    (hprev : p = 0 ∨ s[p - 1]? ≠ some '(')
    (hr : p + T.length ≤ r + 1) :
    skipBrackets s p r false = .ok (p + T.length - 1) := by
  have hseed : ¬ (0 < p ∧ s[p - 1]? = some '(') := by
    rintro ⟨h0, h1⟩
    rcases hprev with h | h
    · omega
    · exact h h1
  have hT : ∃ T', T = '(' :: T' := by
    cases T with
    | nil => simp at hlen
    | cons c T' =>
      have : s[p]? = some c := getElem?_of_drop (by simpa using hdrop)
      rw [hget] at this
      injection this with this
      exact ⟨T', by rw [this]⟩
  obtain ⟨T', hT'⟩ := hT
  have htake1 : depth (T.take 1) = 1 := by
    rw [hT']; simp [depth, bracketDelta]
  have hinner := skipBracketsLoop_inner s r p T rest hdrop hT0 hpos hr
    (T.length - 1) 1 (r - p) rfl (by omega) (by omega) (by omega)
  rw [htake1] at hinner
  unfold skipBrackets
  simp only [if_neg hseed]
  have hfuel : r + 1 - p = (r - p) + 1 := by omega
  rw [hfuel]
  have hle : p ≤ r := by omega
  simp only [skipBracketsLoop, hle, if_true, hget]
  simp only [Bool.true_eq_false, and_false, if_false]
  simp only [if_true, zero_add, reduceCtorEq] at hinner ⊢
  simp [hinner]

theorem depth_take_succ {T : List Char} {k : Nat} (hk : k < T.length) :
    depth (T.take (k + 1)) = depth (T.take k) + bracketDelta (T[k]) := by
  rw [List.take_succ, depth_append, List.getElem?_eq_getElem hk]
  simp [depth]

/-- The facts about a matching pair of brackets that the parser uses. -/
theorem matchAt_facts {s : List Char} {l m : Nat} (h : MatchAt s l m) :
    ∃ T rest, s.drop l = T ++ rest ∧ T.length = m + 1 - l ∧ depth T = 0 ∧
      (∀ n, 0 < n → n < T.length → 0 < depth (T.take n)) ∧ s[m]? = some ')' := by
  obtain ⟨hlm, hm, hget, h0, hpos⟩ := h
  have hlen : ((s.drop l).take (m + 1 - l)).length = m + 1 - l := by
    rw [List.length_take, List.length_drop]; omega
  have hpos' : ∀ n, 0 < n → n < ((s.drop l).take (m + 1 - l)).length →
      0 < depth (((s.drop l).take (m + 1 - l)).take n) := by
    intro n hn hlt
    rw [hlen] at hlt
    rw [List.take_take, Nat.min_eq_left (by omega)]
    exact hpos n (by omega) hn
  refine ⟨(s.drop l).take (m + 1 - l), (s.drop l).drop (m + 1 - l),
    (List.take_append_drop _ _).symm, hlen, h0, hpos', ?_⟩
  have hk : m - l < ((s.drop l).take (m + 1 - l)).length := by rw [hlen]; omega
  have hstep := depth_take_succ hk
  have hfull : ((s.drop l).take (m + 1 - l)).take (m - l + 1)
      = (s.drop l).take (m + 1 - l) := by
    rw [List.take_take]; congr 1; omega
  rw [hfull, h0] at hstep
  have hbefore := hpos' (m - l) (by omega) hk
  have hchar : ((s.drop l).take (m + 1 - l))[m - l] = ')' := by
    by_contra hne
    have : 0 ≤ bracketDelta (((s.drop l).take (m + 1 - l))[m - l]) := by
      unfold bracketDelta
      split_ifs <;> omega
    omega
  have hsm : ((s.drop l).take (m + 1 - l))[m - l]? = s[m]? := by
    rw [List.getElem?_take_of_lt (by omega), List.getElem?_drop]
    congr 1
    omega
  rw [← hsm, List.getElem?_eq_getElem hk, hchar]

/-- Function `skipBrackets`, non-strict, at an opening bracket that is not
preceded by another opening bracket, returns the position of the matching
closing bracket. -/
theorem skipBrackets_matchAt {s : List Char} {l m r : Nat} (hm : MatchAt s l m) (hr : m ≤ r)
    (hprev : l = 0 ∨ s[l - 1]? ≠ some '(') : skipBrackets s l r false = .ok m := by
  obtain ⟨T, rest, hdrop, hlen, h0, hpos, _⟩ := matchAt_facts hm
  have hlm := hm.1
  have hlen2 : 2 ≤ T.length := by omega
  have hr2 : l + T.length ≤ r + 1 := by omega
  have := skipBrackets_of_inner hdrop hm.2.2.1 hlen2 h0 hpos hprev hr2
  rw [this]
  congr 1
  omega

/-- Function `getArg` at such an opening bracket: the recursive call gets
exactly the range from the bracket to its match, and the end position is the
position of the matching closing bracket. -/
theorem getArg_matchAt {s : List Char} (g : Nat → Nat → Except Err Expr) {start l m r : Nat}
    (hstart : skipClosing s (skipWhitespaces s start) = l)
    (hm : MatchAt s l m) (hr : m ≤ r) (hprev : l = 0 ∨ s[l - 1]? ≠ some '(') :
    getArg s g start r = (g l m).map (fun res => some (res, m)) := by
  obtain ⟨_, _, _, _, _, _, hclose⟩ := matchAt_facts hm
  have hws : skipWhitespaces s m = m := skipWhitespaces_of_ne (by rw [hclose]; decide)
  unfold getArg
  simp only [hstart, hm.2.2.1, if_true, skipBrackets_matchAt hm hr hprev, hws]
  cases g l m <;> rfl

end ObjectExpression

namespace ObjectExpression

/-! ## Every outcome of `parsePrefix` -/

/-- On a non-empty input every error of `parsePrefix` is raised by one of the
parser's own checks. -/
theorem parsePrefix_error_raised {s : List Char} {e : Err} (hne : s ≠ [])
    (h : parsePrefix s = .error e) : e.raisedByParser = true := by
  have hlen : s.length ≠ 0 := fun hl => hne (List.length_eq_zero.mp hl)
  unfold parsePrefix at h
  rw [if_neg hlen] at h
  cases hc : checkBrecketSequence s with
  | error e' =>
    rw [hc] at h
    injection h with h
    subst h
    rw [skipBrackets_error hc]
    rfl
  | ok n =>
    rw [hc] at h
    exact parse_error_raised s _ 0 _ e (by omega) h

/-- Every tree that `parsePrefix` returns is shaped. -/
theorem parsePrefix_shaped {s : List Char} {t : Expr} (h : parsePrefix s = .ok t) :
    t.Shaped = true := by
  unfold parsePrefix at h
  split_ifs at h
  cases hc : checkBrecketSequence s with
  | error e' => rw [hc] at h; cases h
  | ok n =>
    rw [hc] at h
    exact parse_shaped s _ _ _ t h

/-- The first operand of a registered operator fails in `parsePrefix` with the
error that `getArg` raises for it. -/
theorem parsePrefix_first_operand_error {op : OpKind} {c : Char} {t : List Char} {e : Err}
    (hreg : opMapGet op.sign = some (.ctor op))
    (hc : c ≠ ' ' ∧ c ≠ '(' ∧ c ≠ ')')
    (hb : Balanced ('(' :: (op.sign ++ ' ' :: c :: t)))
    (harg : ∀ g r, getArg ('(' :: (op.sign ++ ' ' :: c :: t)) g (1 + op.sign.length + 1) r
      = .error e) :
    parsePrefix ('(' :: (op.sign ++ ' ' :: c :: t)) = .error e := by
  generalize hs : '(' :: (op.sign ++ ' ' :: c :: t) = s at hb harg
  have hne : s ≠ [] := by rw [← hs]; simp
  have hget0 : s[0]? = some '(' := by rw [← hs]; simp
  have hdrop1 : s.drop 1 = op.sign ++ ' ' :: c :: t := by rw [← hs]; rfl
  have hlen : s.length = op.sign.length + t.length + 3 := by
    rw [← hs]; simp; omega
  rw [parsePrefix_of_balanced hne hb]
  have hop := getOp_registered (r := s.length) hreg hdrop1 (by omega) (by simp [hc.1])
  obtain ⟨n, hn⟩ : ∃ n, op.argNum = n + 1 :=
    ⟨op.argNum - 1, by have := argNum_pos_of_registered hreg; omega⟩
  refine parse_operands_error (q := 1) (by rw [hget0]; rfl) hop ?_
  simp only [OpMapEntry.argNum, hn]
  exact parseOperands_error (harg _ _)

/-- A variable as first operand of a registered operator, directly followed by
a character that is no space and no bracket: "Wrong Variable". -/
theorem parsePrefix_variable_followed {op : OpKind} {v c : Char} {t : List Char}
    (hreg : opMapGet op.sign = some (.ctor op))
    (hv : isAcceptableLetter (some v) = true) (hc : c ≠ ' ' ∧ c ≠ ')' ∧ c ≠ '(')
    (hb : Balanced ('(' :: (op.sign ++ ' ' :: v :: c :: t))) :
    parsePrefix ('(' :: (op.sign ++ ' ' :: v :: c :: t)) = .error (.wrongPlaceholder true) := by
  have hv3 : v ≠ ' ' ∧ v ≠ '(' ∧ v ≠ ')' := by
    refine ⟨?_, ?_, ?_⟩ <;> (rintro rfl; revert hv; decide)
  refine parsePrefix_first_operand_error hreg hv3 hb ?_
  intro g r
  generalize hs : '(' :: (op.sign ++ ' ' :: v :: c :: t) = s
  have hdrop : s.drop (1 + op.sign.length + 1) = v :: c :: t := by
    rw [← hs]
    simp [Nat.add_comm 1, List.drop_append_eq_append_drop]
  have hget : s[1 + op.sign.length + 1]? = some v := getElem?_of_drop hdrop
  have hnext : s[1 + op.sign.length + 1 + 1]? = some c := by
    rw [getElem?_drop_add hdrop 1]; simp
  have hstart : skipClosing s (skipWhitespaces s (1 + op.sign.length + 1))
      = 1 + op.sign.length + 1 := by
    rw [skipWhitespaces_of_ne (by rw [hget]; simp [hv3.1]),
      skipClosing_of_ne (by rw [hget]; simp [hv3.2.2])]
  exact getArg_variable_followed g hstart hget hv hnext hc

/-- An integer literal as first operand of a registered operator, directly
followed by a character that is no space and no bracket: "Wrong Number". -/
theorem parsePrefix_literal_followed {op : OpKind} {d c : Char} {w t : List Char}
    (hreg : opMapGet op.sign = some (.ctor op))
    (hall : ∀ a ∈ d :: w, numChar a = true)
    (hcn : numChar c = false) (hc : c ≠ ' ' ∧ c ≠ ')' ∧ c ≠ '(')
    (hb : Balanced ('(' :: (op.sign ++ ' ' :: d :: (w ++ c :: t)))) :
    parsePrefix ('(' :: (op.sign ++ ' ' :: d :: (w ++ c :: t)))
      = .error (.wrongPlaceholder false) := by
  have hd3 : d ≠ ' ' ∧ d ≠ '(' ∧ d ≠ ')' :=
    tokenChar_ne (numChar_tokenChar (hall d (by simp)))
  refine parsePrefix_first_operand_error hreg hd3 hb ?_
  intro g r
  generalize hs : '(' :: (op.sign ++ ' ' :: d :: (w ++ c :: t)) = s
  have hdrop : s.drop (1 + op.sign.length + 1) = (d :: w) ++ c :: t := by
    rw [← hs]
    simp [Nat.add_comm 1, List.drop_append_eq_append_drop]
  have hget : s[1 + op.sign.length + 1]? = some d := getElem?_of_drop hdrop
  have hstart : skipClosing s (skipWhitespaces s (1 + op.sign.length + 1))
      = 1 + op.sign.length + 1 := by
    rw [skipWhitespaces_of_ne (by rw [hget]; simp [hd3.1]),
      skipClosing_of_ne (by rw [hget]; simp [hd3.2.2])]
  exact getArg_literal_followed g hstart hdrop (by simp) hall hcn hc

end ObjectExpression

namespace ObjectExpression

/-! ## The claims -/

theorem evaluateAll_ok_iff {V : Type} (N : NumOps V) (args : List V) :
    ∀ (es : List Expr) (vs : List V),
      evaluateAll N es args = .ok vs ↔
        List.Forall₂ (fun e v => Expr.evaluate N e args = .ok v) es vs := by
  intro es
  induction es with
  | nil =>
    intro vs
    cases vs <;> simp [evaluateAll]
  | cons e es ih =>
    intro vs
    simp only [evaluateAll]
    cases he : Expr.evaluate N e args with
    | error err =>
      simp only
      constructor
      · intro h; cases h
      · intro h
        cases h with
        | cons h1 _ => rw [he] at h1; cases h1
    | ok v =>
      simp only
      cases hes : evaluateAll N es args with
      | error err =>
        simp only
        constructor
        · intro h; cases h
        · intro h
          cases h with
          | cons _ h2 =>
            rw [← ih] at h2
            rw [hes] at h2; cases h2
      | ok ws =>
        simp only
        constructor
        · intro h
          cases h
          exact List.Forall₂.cons he ((ih ws).mp hes)
        · intro h
          cases h with
          | cons h1 h2 =>
            rw [he] at h1
            cases h1
            rw [← ih, hes] at h2
            cases h2
            rfl

/-- C1 fails at the tree `Min3(x, y, z)`, built from an operator of the registry
table with exactly three operands: its canonical text is `(min3 x y z)`, and
`parsePrefix` rejects that text, because `opMap` holds neither `min3` nor
`max5`. Beside that, the text that `prefix` gives for the constant 10^21 is
`1e+21`, which `parsePrefix` rejects as well. What does hold: for every tree
over the seven operators of `opMap` (each with exactly `argNum` operands), the
variables `x`, `y`, `z` and the integer constants below 2^53 in magnitude,
`prefix` yields the canonical text and `parsePrefix` of that text returns the
tree itself, so its `evaluate` agrees with that of the tree; the parse of
`(+ x y)` evaluates to the sum of the first two inputs and the parse of
`(* (+ x 1) (- y 2))` to `(a + 1) * (b - 2)`, which is 5 at (2, 3, 0) and 12 at
(3, 5, 0). -/
theorem C1_registry_tree_rejected :
    Expr.prefix (.Operation .Min3 [.Variable 'x', .Variable 'y', .Variable 'z'])
      = .ok "(min3 x y z)".toList ∧
    parsePrefix "(min3 x y z)".toList = .error (.unacceptableToken [] 1) ∧
    Expr.prefix (.Operation .Max5
        [.Variable 'x', .Variable 'y', .Variable 'z', .Variable 'x', .Variable 'y'])
      = .ok "(max5 x y z x y)".toList ∧
    parsePrefix "(max5 x y z x y)".toList = .error (.unacceptableToken [] 1) ∧
    Expr.prefix (.Const (.int 1000000000000000000000)) = .ok "1e+21".toList ∧
    parsePrefix "1e+21".toList = .error (.wrongPlaceholder false) ∧
    (∀ t : Expr, t.Canonical = true →
      ∃ s, Expr.prefix t = .ok s ∧ ∃ t', parsePrefix s = .ok t' ∧ t' = t ∧
        ∀ (V : Type) (N : NumOps V) (a b c : V),
          t'.evaluate N [a, b, c] = t.evaluate N [a, b, c]) ∧
    (∃ e, parsePrefix "(+ x y)".toList = .ok e ∧
      (∀ (V : Type) (N : NumOps V) (a b c : V), e.evaluate N [a, b, c] = .ok (N.add a b)) ∧
      e.evaluate exactOps [some 2, some 3, some 0] = .ok (some 5)) ∧
    (∃ e, parsePrefix "(* (+ x 1) (- y 2))".toList = .ok e ∧
      (∀ (V : Type) (N : NumOps V) (a b c : V), e.evaluate N [a, b, c]
        = .ok (N.mul (N.add a (N.ofInt 1)) (N.sub b (N.ofInt 2)))) ∧
      e.evaluate exactOps [some 3, some 5, some 0] = .ok (some 12)) := by
  refine ⟨rfl, rfl, rfl, rfl, rfl, rfl, ?_, ?_, ?_⟩
  · intro t ht
    exact ⟨t.text, prefix_eq_text ht, t, parsePrefix_text ht, rfl, fun _ _ _ _ _ => rfl⟩
  · exact ⟨.Operation .Add [.Variable 'x', .Variable 'y'], rfl, fun _ _ _ _ _ => rfl, rfl⟩
  · exact ⟨.Operation .Multiply [.Operation .Add [.Variable 'x', .Const (.int 1)],
      .Operation .Subtract [.Variable 'y', .Const (.int 2)]], rfl, fun _ _ _ _ _ => rfl, rfl⟩

/-- C2 fails at `(+ x (+ y z)) 1`: the parse succeeds and returns the tree of
`(+ x (+ y z))`, although the tokens of the input are the tokens of that tree
followed by the token `1`, which belongs to no node and is left over; after a
leaf as last operand the same token raises "Operands without operator". What
success does imply: the input is not empty and its brackets are balanced. -/
theorem C2_leftover_token_accepted :
    parsePrefix "(+ x (+ y z)) 1".toList
      = .ok (.Operation .Add [.Variable 'x', .Operation .Add [.Variable 'y', .Variable 'z']]) ∧
    tokens "(+ x (+ y z)) 1".toList
      = treeTokens (.Operation .Add
          [.Variable 'x', .Operation .Add [.Variable 'y', .Variable 'z']]) ++ [['1']] ∧
    parsePrefix "(+ x (+ y z))".toList
      = .ok (.Operation .Add [.Variable 'x', .Operation .Add [.Variable 'y', .Variable 'z']]) ∧
    parsePrefix "(+ x y) 1".toList = .error .operandsWithoutOperator ∧
    (∀ (s : List Char) (t : Expr), parsePrefix s = .ok t → s ≠ [] ∧ Balanced s) := by
  refine ⟨rfl, by decide, rfl, rfl, ?_⟩
  intro s t h
  constructor
  · intro hs
    subst hs
    cases h
  · by_contra hb
    by_cases hs : s = []
    · subst hs; cases h
    · have hlen : s.length ≠ 0 := fun hl => hs (List.length_eq_zero.mp hl)
      have := (checkBrecketSequence_error_iff s).mpr hb
      simp [parsePrefix, hlen, this] at h

/-- C3 fails at `(+ - 1)`: the parse succeeds with a constant that holds `NaN`,
the text of the tree is `(+ NaN 1)`, and parsing that text raises the
"Unacceptable symbol" error. -/
theorem C3_roundtrip_failure :
    parsePrefix "(+ - 1)".toList = .ok (.Operation .Add [.Const .nan, .Const (.int 1)]) ∧
    Expr.prefix (.Operation .Add [.Const .nan, .Const (.int 1)]) = .ok "(+ NaN 1)".toList ∧
    parsePrefix "(+ NaN 1)".toList = .error (.unacceptableToken [] 3) :=
  ⟨rfl, rfl, rfl⟩

/-- C4: on a non-empty input the strict bracket check, which `parsePrefix` runs
before `parse`, raises "wrong bracket sequence" exactly when the brackets are
not balanced (some prefix holds more closing than opening brackets, or the
totals differ); `parsePrefix` fails with that error on every unbalanced input
and hands every balanced one to `parse`. -/
theorem C4_strict_bracket_check (s : List Char) (hs : s ≠ []) :
    (checkBrecketSequence s = .error .wrongBracketSequence ↔ ¬ Balanced s) ∧
    (¬ Balanced s → parsePrefix s = .error .wrongBracketSequence) ∧
    (Balanced s → parsePrefix s = parse s (s.length + 1) 0 s.length) := by
  have hlen : s.length ≠ 0 := fun h => hs (List.length_eq_zero.mp h)
  refine ⟨checkBrecketSequence_error_iff s, ?_, ?_⟩
  · intro h
    have := (checkBrecketSequence_error_iff s).mpr h
    simp [parsePrefix, hlen, this]
  · intro h
    obtain ⟨n, hn⟩ := checkBrecketSequence_ok_of_balanced h
    simp [parsePrefix, hlen, hn]

/-- C4 at the unbalanced input `(+ x y))`. -/
theorem C4_strict_bracket_check_witness :
    (checkBrecketSequence "(+ x y))".toList = .error .wrongBracketSequence
      ↔ ¬ Balanced "(+ x y))".toList) ∧
    (¬ Balanced "(+ x y))".toList → parsePrefix "(+ x y))".toList = .error .wrongBracketSequence) ∧
    (Balanced "(+ x y))".toList →
      parsePrefix "(+ x y))".toList
        = parse "(+ x y))".toList ("(+ x y))".toList.length + 1) 0 "(+ x y))".toList.length) :=
  C4_strict_bracket_check "(+ x y))".toList (by decide)

/-- C5 fails for `min3` and `max5`: both constructors exist and evaluate to the
minimum of three and the maximum of five operands, but `opMap` does not hold
them, so `(min3 x y z)` and `(max5 x y z x y)` are rejected with the
"Unacceptable symbol" error; the seven symbols of `opMap` are recognised with
their arity. -/
theorem C5_min3_max5_unregistered :
    parsePrefix "(min3 x y z)".toList = .error (.unacceptableToken [] 1) ∧
    parsePrefix "(max5 x y z x y)".toList = .error (.unacceptableToken [] 1) ∧
    opMapGet OpKind.Min3.sign = none ∧ opMapGet OpKind.Max5.sign = none ∧
    (∀ op : OpKind, op ≠ .Min3 → op ≠ .Max5 →
      parsePrefix ('(' :: (joinSpace (op.sign :: List.replicate op.argNum ['x']) ++ [')']))
        = .ok (.Operation op (List.replicate op.argNum (.Variable 'x')))) ∧
    (∀ (V : Type) (N : NumOps V) (a b c : V),
      Expr.evaluate N (.Operation .Min3 [.Variable 'x', .Variable 'y', .Variable 'z']) [a, b, c]
        = .ok (N.min a (N.min b c))) := by
  refine ⟨rfl, rfl, rfl, rfl, ?_, fun _ _ _ _ _ => rfl⟩
  intro op h3 h5
  cases op <;> first | rfl | exact absurd rfl h3 | exact absurd rfl h5

/-- C6: `evaluate` is the compositional denotation of the tree. A constant
evaluates to its stored value; the variables `x`, `y`, `z` evaluate to the
first, second and third input; an operation whose operands evaluate, in their
stored order, to the values `vs` evaluates to its registered function applied
to `vs`, where `+`, `-`, `*` and `negate` are the host operations on the first
arguments, `min3` is the minimum of three and `max5` the maximum of five. -/
theorem C6_evaluate_compositional {V : Type} (N : NumOps V) (x y z : V) :
    (∀ n : Int, Expr.evaluate N (.Const (.int n)) [x, y, z] = .ok (N.ofInt n)) ∧
    Expr.evaluate N (.Variable 'x') [x, y, z] = .ok x ∧
    Expr.evaluate N (.Variable 'y') [x, y, z] = .ok y ∧
    Expr.evaluate N (.Variable 'z') [x, y, z] = .ok z ∧
    (∀ (op : OpKind) (operands : List Expr) (vs : List V),
      List.Forall₂ (fun e v => Expr.evaluate N e [x, y, z] = .ok v) operands vs →
        Expr.evaluate N (.Operation op operands) [x, y, z] = .ok (op.opFnc N vs)) ∧
    (∀ a b : V, OpKind.Add.opFnc N [a, b] = N.add a b) ∧
    (∀ a b : V, OpKind.Subtract.opFnc N [a, b] = N.sub a b) ∧
    (∀ a b : V, OpKind.Multiply.opFnc N [a, b] = N.mul a b) ∧
    (∀ a : V, OpKind.Negate.opFnc N [a] = N.neg a) ∧
    (∀ a b c : V, OpKind.Min3.opFnc N [a, b, c] = N.min a (N.min b c)) ∧
    (∀ a b c d e : V, OpKind.Max5.opFnc N [a, b, c, d, e]
      = N.max a (N.max b (N.max c (N.max d e)))) := by
  refine ⟨fun _ => rfl, rfl, rfl, rfl, ?_, fun _ _ => rfl, fun _ _ => rfl, fun _ _ => rfl,
    fun _ => rfl, fun _ _ _ => rfl, fun _ _ _ _ _ => rfl⟩
  intro op operands vs h
  have := (evaluateAll_ok_iff N [x, y, z] operands vs).mpr h
  simp [Expr.evaluate, this]

/-- C6 in exact integer arithmetic at the inputs (7, 2, 9): the operation
`max5` over the operands `x`, `y`, `z`, `4`, `(- x y)` evaluates to 9. -/
theorem C6_evaluate_compositional_witness :
    Expr.evaluate exactOps (.Operation .Max5 [.Variable 'x', .Variable 'y', .Variable 'z',
        .Const (.int 4), .Operation .Subtract [.Variable 'x', .Variable 'y']])
      [some 7, some 2, some 9]
      = .ok (OpKind.Max5.opFnc exactOps [some 7, some 2, some 9, some 4, some 5]) :=
  (C6_evaluate_compositional exactOps (some 7) (some 2) (some 9)).2.2.2.2.1 .Max5 _ _
    (.cons rfl (.cons rfl (.cons rfl (.cons rfl (.cons rfl .nil)))))

/-- C7: an operator with too few operands is rejected. For each of the nine
operators, every number `k` of leaf operands (variables `x`, `y`, `z` or
integer literals) below its arity, `parsePrefix` of `(op a1 ... ak)` raises an
error: "Wrong Number of Arguments" for the operators of `opMap`,
"Unacceptable symbol" for `min3` and `max5`. -/
theorem C7_too_few_operands (op : OpKind) (leaves : List (List Char))
    (hk : leaves.length < op.argNum) (hl : ∀ a ∈ leaves, isLeafToken a = true) :
    parsePrefix ('(' :: (joinSpace (op.sign :: leaves) ++ [')']))
      = .error (if opMapGet op.sign = some (.ctor op) then .wrongNumberOfArguments
          else .unacceptableToken [] 1) := by
  by_cases hreg : opMapGet op.sign = some (.ctor op)
  · rw [if_pos hreg]
    exact parsePrefix_too_few_registered hreg hk hl
  · rw [if_neg hreg]
    refine parsePrefix_too_few_unregistered ?_ hl
    cases op <;> first | exact absurd rfl hreg | exact Or.inl rfl | exact Or.inr rfl

/-- C7 at the input `(+ x)`. -/
theorem C7_too_few_operands_witness :
    parsePrefix "(+ x)".toList = .error .wrongNumberOfArguments :=
  C7_too_few_operands .Add [['x']] (by decide) (by decide)

/-- C8 fails at `(+ x (+ y z)) 1`: the token `1` after the complete expression
is not rejected, the parse succeeds; the same token after a leaf operand, or
inside the brackets, raises "Operands without operator". -/
theorem C8_trailing_operand_accepted :
    parsePrefix "(+ x (+ y z)) 1".toList
      = .ok (.Operation .Add [.Variable 'x', .Operation .Add [.Variable 'y', .Variable 'z']]) ∧
    parsePrefix "(+ x y) 1".toList = .error .operandsWithoutOperator ∧
    parsePrefix "(+ x (+ y z) 1)".toList = .error .operandsWithoutOperator ∧
    parsePrefix "(+ x y z)".toList = .error .operandsWithoutOperator :=
  ⟨rfl, rfl, rfl, rfl⟩

/-- C9: a leaf wrapped in its own bracket pair is rejected. For every leaf token
`v` (a variable `x`, `y`, `z`, or an integer literal with an optional leading
`-`), `parsePrefix` of `(v)` raises the "Bare brackets" error. -/
theorem C9_bare_brackets (v : List Char) (hv : isLeafToken v = true) :
    parsePrefix ('(' :: (v ++ [')'])) = .error .bareBrackets :=
  parsePrefix_bare hv

/-- C9 at the inputs `(x)` and `(-12)`. -/
theorem C9_bare_brackets_witness :
    parsePrefix "(x)".toList = .error .bareBrackets ∧
    parsePrefix "(-12)".toList = .error .bareBrackets :=
  ⟨C9_bare_brackets ['x'] (by decide), C9_bare_brackets ['-', '1', '2'] (by decide)⟩

/-- C10 fails at `(constructor)`: the first token starts with the letter `c`,
which is none of `x`, `y`, `z`, and it is no operator symbol of the registry,
but the test `res in opMap` finds the name through the prototype chain, and
the parse succeeds with a plain object instead of raising "Unacceptable
symbol"; `(toString)` fails, but with the error of a call of `new` on a value
that is no constructor. What does hold: a word with balanced brackets around
it that starts with a letter other than `x`, `y`, `z` and that is no property
name of `opMap`, own or inherited, raises an "Unacceptable symbol" error, as
`(foo x y)` does. -/
theorem C10_inherited_name_accepted :
    parsePrefix "(constructor)".toList = .ok .Object ∧
    isLetter (some 'c') = .ok true ∧ isAcceptableLetter (some 'c') = false ∧
    (∀ op : OpKind, op.sign ≠ "constructor".toList) ∧
    parsePrefix "(toString)".toList = .error .notAConstructor ∧
    Err.isUnacceptableSymbol .notAConstructor = false ∧
    (∀ (pre : List Char) (n : Nat) (c : Char) (rest : List Char),
      (pre = List.replicate n ' ' ∨ pre = '(' :: List.replicate n ' ') →
      isLetter (some c) = .ok true → isAcceptableLetter (some c) = false →
      opMapGet (c :: rest.takeWhile tokenChar) = none →
      Balanced (pre ++ c :: rest) →
      ∃ e, parsePrefix (pre ++ c :: rest) = .error e ∧ e.isUnacceptableSymbol = true) ∧
    (∃ e, parsePrefix "(foo x y)".toList = .error e ∧ e.isUnacceptableSymbol = true) ∧
    (∃ e, parsePrefix "(é x y)".toList = .error e ∧ e.isUnacceptableSymbol = true) := by
  refine ⟨rfl, rfl, rfl, ?_, rfl, rfl, ?_, ⟨_, rfl, rfl⟩, ⟨_, rfl, rfl⟩⟩
  · intro op
    cases op <;> decide
  · intro pre n c rest hpre hlet hacc hmap hb
    exact ⟨_, parsePrefix_unknown_word hpre hlet hacc hmap hb, rfl⟩

/-- C11: `parsePrefix` of the empty string fails with "EmptyInput", and no input
of positive length fails with that error. -/
theorem C11_empty_input :
    parsePrefix [] = .error .emptyInput ∧
    ∀ s : List Char, 0 < s.length → parsePrefix s ≠ .error .emptyInput := by
  refine ⟨rfl, ?_⟩
  intro s hs h
  have := parsePrefix_error_raised (List.length_pos.mp hs) h
  simp [Err.raisedByParser] at this

/-- C12 fails at `(+ - 1)`: the parse succeeds, the text of the returned tree is
`(+ NaN 1)`, and `parsePrefix` of that text does not succeed, so there is no
second text to compare with the first. -/
theorem C12_reparse_failure :
    ∃ t str, parsePrefix "(+ - 1)".toList = .ok t ∧ Expr.prefix t = .ok str ∧
      str = "(+ NaN 1)".toList ∧ ∀ t', parsePrefix str ≠ .ok t' := by
  refine ⟨.Operation .Add [.Const .nan, .Const (.int 1)], "(+ NaN 1)".toList, rfl, rfl, rfl, ?_⟩
  intro t' h
  have h0 : parsePrefix "(+ NaN 1)".toList = .error (.unacceptableToken [] 3) := rfl
  rw [h0] at h
  cases h

/-- C13, as stated, fails for large constants: `(+ 1000000000000000000000 x)` is
parsed to a tree with the constant 10^21, whose text is `1e+21`, and the text
of the constant 18014398509481992 is `18014398509481990`; neither is the
decimal text of the value. -/
theorem C13_counterexample :
    parsePrefix "(+ 1000000000000000000000 x)".toList
      = .ok (.Operation .Add [.Const (.int 1000000000000000000000), .Variable 'x']) ∧
    Expr.prefix (.Const (.int 1000000000000000000000)) = .ok "1e+21".toList ∧
    (toString (1000000000000000000000 : Int)).toList ≠ "1e+21".toList ∧
    parsePrefix "(+ 18014398509481992 x)".toList
      = .ok (.Operation .Add [.Const (.int 18014398509481992), .Variable 'x']) ∧
    Expr.prefix (.Const (.int 18014398509481992)) = .ok "18014398509481990".toList ∧
    (toString (18014398509481992 : Int)).toList ≠ "18014398509481990".toList :=
  ⟨rfl, rfl, by decide, rfl, rfl, by decide⟩

/-- C13, amended: `prefix` produces the canonical fully parenthesised form. For an
operation with at least one operand whose operands have the texts `strs`, it
returns the opening bracket, the operator symbol and the texts, joined by
single spaces, and the closing bracket; for a variable its name; for a
constant the text that `toString` gives for its value, which for an integer
below 2^53 in magnitude is the decimal text of that integer and which never
holds a bracket. On every tree of operations, variables `x`, `y`, `z` and
constants it returns a text, and that text has balanced brackets and exactly
one opening bracket for each operation node. -/
theorem C13_canonical_form :
    (∀ (op : OpKind) (operands : List Expr) (strs : List (List Char)), operands ≠ [] →
      List.Forall₂ (fun e str => Expr.prefix e = .ok str) operands strs →
      Expr.prefix (.Operation op operands)
        = .ok ('(' :: (joinSpace (op.sign :: strs) ++ [')']))) ∧
    (∀ v : Char, Expr.prefix (.Variable v) = .ok [v]) ∧
    (∀ val : Num, Expr.prefix (.Const val) = .ok (valToString val) ∧
      ∀ c ∈ valToString val, c ≠ '(' ∧ c ≠ ')') ∧
    (∀ n : Int, n.natAbs < 9007199254740992 →
      Expr.prefix (.Const (.int n)) = .ok (toString n).toList) ∧
    (∀ e : Expr, e.IsExpression = true → ∃ str, Expr.prefix e = .ok str) ∧
    (∀ (e : Expr) (str : List Char), e.IsExpression = true → Expr.prefix e = .ok str →
      Balanced str ∧ str.count '(' = e.operationCount) := by
  refine ⟨?_, fun _ => rfl, fun val => ⟨rfl, valToString_no_bracket val⟩, ?_,
    prefix_ok_of_isExpression, ?_⟩
  · intro op operands strs hne h
    have hall := (prefixAll_ok_iff operands strs).mpr h
    cases h with
    | nil => exact absurd rfl hne
    | cons h1 h2 =>
      simp only [ Expr.prefix, hall]
      rw [joinSpace_cons_cons]
      simp
  · intro n hn
    simp only [ Expr.prefix, valToString_eq_toString hn]
  · intro e str he hp
    obtain ⟨h0, hn, hc⟩ := prefix_shape e str he hp
    exact ⟨⟨fun n _ => hn n, h0⟩, hc⟩

/-- C14 fails at `(+ - 1)`: the run read for the first operand is the single
character `-`, `parseInt` of it is `NaN`, and the parse succeeds with a constant
that holds `NaN`; at `(+ 1-2 x)` the run `1-2` is read as the integer 1. -/
theorem C14_constant_not_a_number :
    parsePrefix "(+ - 1)".toList = .ok (.Operation .Add [.Const .nan, .Const (.int 1)]) ∧
    parseNumStr "(+ - 1)".toList 3 = .ok ['-'] ∧ parseInt ['-'] = .nan ∧
    (∀ (V : Type) (N : NumOps V) (args : List V),
      Expr.evaluate N (.Const .nan) args = .ok N.nan) ∧
    parsePrefix "(+ 1-2 x)".toList = .ok (.Operation .Add [.Const (.int 1), .Variable 'x']) ∧
    parseNumStr "(+ 1-2 x)".toList 3 = .ok ['1', '-', '2'] :=
  ⟨rfl, rfl, rfl, fun _ _ _ => rfl, rfl, rfl⟩

/-- C15: placeholder adjacency. For a leaf token at the positions `l..r` inside
the source, `checkPlaceholder` raises "Wrong Variable" (for a variable) or
"Wrong Number" (for a constant) exactly when the character right before `l`
exists and is none of space, `(`, `)` (a `-` there being allowed only for a
constant), or the character right after `r` exists and is none of space, `(`,
`)`. So `getArg` raises that error whenever it reads, at `l`, a variable or
an integer literal that is directly followed by any other character, and
`parsePrefix` raises it for such a first operand of a registered operator, as
for `(+ xy 1)` and `(+ 1x y)`. -/
theorem C15_placeholder_adjacency (s : List Char) (l r : Nat) (isVar : Bool)
    (hl : l ≤ s.length) :
    (checkPlaceholder s l r isVar = .error (.wrongPlaceholder isVar) ↔
      ((∃ c, 0 < l ∧ s[l - 1]? = some c ∧ c ≠ ' ' ∧ c ≠ ')' ∧ c ≠ '('
          ∧ (c ≠ '-' ∨ isVar = true))
        ∨ (∃ c, s[r + 1]? = some c ∧ c ≠ ' ' ∧ c ≠ ')' ∧ c ≠ '('))) ∧
    (∀ (g : Nat → Nat → Except Err Expr) (start r' : Nat) (v c : Char),
      skipClosing s (skipWhitespaces s start) = l → s[l]? = some v →
      isAcceptableLetter (some v) = true → s[l + 1]? = some c →
      (c ≠ ' ' ∧ c ≠ ')' ∧ c ≠ '(') →
      getArg s g start r' = .error (.wrongPlaceholder true)) ∧
    (∀ (g : Nat → Nat → Except Err Expr) (start r' : Nat) (w t : List Char) (c : Char),
      skipClosing s (skipWhitespaces s start) = l → s.drop l = w ++ c :: t → w ≠ [] →
      (∀ d ∈ w, numChar d = true) → numChar c = false → (c ≠ ' ' ∧ c ≠ ')' ∧ c ≠ '(') →
      getArg s g start r' = .error (.wrongPlaceholder false)) ∧
    (∀ (op : OpKind) (v c : Char) (t : List Char), opMapGet op.sign = some (.ctor op) →
      isAcceptableLetter (some v) = true → (c ≠ ' ' ∧ c ≠ ')' ∧ c ≠ '(') →
      Balanced ('(' :: (op.sign ++ ' ' :: v :: c :: t)) →
      parsePrefix ('(' :: (op.sign ++ ' ' :: v :: c :: t)) = .error (.wrongPlaceholder true)) ∧
    (∀ (op : OpKind) (d c : Char) (w t : List Char), opMapGet op.sign = some (.ctor op) →
      (∀ a ∈ d :: w, numChar a = true) → numChar c = false →
      (c ≠ ' ' ∧ c ≠ ')' ∧ c ≠ '(') →
      Balanced ('(' :: (op.sign ++ ' ' :: d :: (w ++ c :: t))) →
      parsePrefix ('(' :: (op.sign ++ ' ' :: d :: (w ++ c :: t)))
        = .error (.wrongPlaceholder false)) ∧
    parsePrefix "(+ xy 1)".toList = .error (.wrongPlaceholder true) ∧
    parsePrefix "(+ 1x y)".toList = .error (.wrongPlaceholder false) :=
  ⟨checkPlaceholder_wrong_iff hl,
    fun g _ _ _ _ hstart hget hv hnext hc => getArg_variable_followed g hstart hget hv hnext hc,
    fun g _ _ _ _ _ hstart hdrop hne hall hcn hc =>
      getArg_literal_followed g hstart hdrop hne hall hcn hc,
    fun _ _ _ _ hreg hv hc hb => parsePrefix_variable_followed hreg hv hc hb,
    fun _ _ _ _ _ hreg hall hcn hc hb => parsePrefix_literal_followed hreg hall hcn hc hb,
    rfl, rfl⟩

/-- C15 at the variable `x` of `(+ xy 1)`, the token at the positions 3..3. -/
theorem C15_placeholder_adjacency_witness :
    checkPlaceholder "(+ xy 1)".toList 3 3 true = .error (.wrongPlaceholder true) ↔
      ((∃ c, 0 < 3 ∧ "(+ xy 1)".toList[3 - 1]? = some c ∧ c ≠ ' ' ∧ c ≠ ')' ∧ c ≠ '('
          ∧ (c ≠ '-' ∨ true = true))
        ∨ (∃ c, "(+ xy 1)".toList[3 + 1]? = some c ∧ c ≠ ' ' ∧ c ≠ ')' ∧ c ≠ '(')) :=
  (C15_placeholder_adjacency "(+ xy 1)".toList 3 3 true (by decide)).1

/-- C16: parsing always terminates. For every input `parsePrefix` returns a tree
or raises one of the errors of the source; the recursion counter of the
embedding never runs out, and any counter above `length - l` gives the same
result of `parse(l, r)`, so the depth of the recursion is bounded by the input
length. The result of `getArg(start, r)` depends on the recursive call only at
positions from `start` on that hold an opening bracket, and the result of
`parse(l, r)` depends on the level below only at positions greater than `l`
and less than the input length. -/
theorem C16_parsing_terminates (s : List Char) :
    ((∃ t, parsePrefix s = .ok t) ∨
      (∃ e, parsePrefix s = .error e ∧ (e = .emptyInput ∨ e.raisedByParser = true))) ∧
    parsePrefix s ≠ .error .outOfFuel ∧
    (∀ fuel l r : Nat, s.length - l < fuel →
      parse s fuel l r = parse s (s.length - l + 1) l r ∧
      parse s fuel l r ≠ .error .outOfFuel) ∧
    (∀ (g h : Nat → Nat → Except Err Expr) (start r : Nat),
      (∀ l' r', start ≤ l' → s[l']? = some '(' → g l' r' = h l' r') →
      getArg s g start r = getArg s h start r) ∧
    (∀ fuel1 fuel2 l r : Nat,
      (∀ l' r', l < l' → l' < s.length → parse s fuel1 l' r' = parse s fuel2 l' r') →
      parse s (fuel1 + 1) l r = parse s (fuel2 + 1) l r) := by
  have hraised : ∀ e, parsePrefix s = .error e → e = .emptyInput ∨ e.raisedByParser = true := by
    intro e he
    by_cases hs : s = []
    · subst hs
      left
      have h0 : parsePrefix [] = .error .emptyInput := rfl
      rw [h0] at he
      injection he with he
      exact he.symm
    · exact Or.inr (parsePrefix_error_raised hs he)
  refine ⟨?_, ?_, ?_, getArg_congr, parse_step_congr s⟩
  · cases hp : parsePrefix s with
    | ok t => exact Or.inl ⟨t, rfl⟩
    | error e => exact Or.inr ⟨e, rfl, hraised e hp⟩
  · intro h
    rcases hraised _ h with h1 | h1
    · cases h1
    · simp [Err.raisedByParser] at h1
  · intro fuel l r hf
    refine ⟨parse_fuel_indep s fuel _ l r hf (by omega), ?_⟩
    intro h
    have := parse_error_raised s fuel l r _ hf h
    simp [Err.raisedByParser] at this

/-- C17 fails at `(+ (constructor) x)`: the word `constructor` is found in `opMap`
through the prototype chain, `new Object()` is returned for the inner
expression, and the parse succeeds with an operation whose first operand is a
plain object, neither operation, variable nor constant; `(constructor)` alone
is parsed to the plain object itself, which has no `prefix` method. What does
hold of every returned tree: each operation carries an operator of `opMap`
with `argNum` operands and each variable is `x`, `y` or `z`. -/
theorem C17_plain_object_operand :
    parsePrefix "(+ (constructor) x)".toList = .ok (.Operation .Add [.Object, .Variable 'x']) ∧
    Expr.WellFormed (.Operation .Add [.Object, .Variable 'x']) = false ∧
    Expr.IsExpression .Object = false ∧
    parsePrefix "(constructor)".toList = .ok .Object ∧
    Expr.prefix .Object = .error .notAFunction ∧
    (∀ (s : List Char) (t : Expr), parsePrefix s = .ok t → t.Shaped = true) :=
  ⟨rfl, rfl, rfl, rfl, rfl, fun _ _ h => parsePrefix_shaped h⟩

/-- C18 fails at `(foo x y)`: the error carries the position 1 of the token, but
an empty text instead of `foo`, because `checkUnacceptableSymbols(l, l)` makes
`parseComplexOp(l, l)` read the empty range; with the end of the source as
right border the same call reads `foo`. Every "Unacceptable symbol" error for
a token that `checkUnacceptableSymbols(l, l)` raises carries the empty text. -/
theorem C18_token_text_dropped :
    parsePrefix "(foo x y)".toList = .error (.unacceptableToken [] 1) ∧
    checkUnacceptableSymbols "(foo x y)".toList 1 1 = .error (.unacceptableToken [] 1) ∧
    parseComplexOp "(foo x y)".toList 1 9 = "foo".toList ∧
    (∀ (s : List Char) (l : Nat), parseComplexOp s l l = []) ∧
    (∀ (s : List Char) (l p : Nat) (res : List Char),
      checkUnacceptableSymbols s l l = .error (.unacceptableToken res p) → res = [] ∧ p = l) := by
  refine ⟨rfl, rfl, rfl, parseComplexOp_self, ?_⟩
  intro s l p res h
  unfold checkUnacceptableSymbols at h
  rw [parseComplexOp_self] at h
  split_ifs at h
  · cases hlet : isLetter s[l]? with
    | error e =>
      exfalso
      rw [hlet] at h
      injection h with h
      subst h
      cases hs : s[l]? with
      | none => rw [hs] at hlet; simp [isLetter] at hlet
      | some ch => rw [hs] at hlet; simp [isLetter] at hlet
    | ok letter =>
      rw [hlet] at h
      simp only at h
      split_ifs at h
      · injection h with h
        injection h with h1 h2
        exact ⟨h1.symm, h2.symm⟩
      · cases hget : s[l]? with
        | none => rw [hget] at h; cases h
        | some ch => rw [hget] at h; cases h

/-- C19, as stated, fails. In `((+ x) y)` the bracket at position 1 has its match
at position 5, but `skipBrackets(1, 9)` returns 8, because the bracket count
starts at one when the character before `l` is an opening bracket. In
`(+ (+ x y) z)` the bracket at position 3 has its match at position 9, and
`getArg` returns the end position 9, the position of the closing bracket, not
the position 11 behind it and the spaces that follow. -/
theorem C19_counterexample :
    Balanced "((+ x) y)".toList ∧ MatchAt "((+ x) y)".toList 1 5 ∧
    skipBrackets "((+ x) y)".toList 1 9 false = .ok 8 ∧
    Balanced "(+ (+ x y) z)".toList ∧ MatchAt "(+ (+ x y) z)".toList 3 9 ∧
    getArg "(+ (+ x y) z)".toList (parse "(+ (+ x y) z)".toList 14) 3 13
      = .ok (some (.Operation .Add [.Variable 'x', .Variable 'y'], 9)) ∧
    skipWhitespaces "(+ (+ x y) z)".toList (9 + 1) = 11 :=
  ⟨by decide, by decide, rfl, by decide, by decide, rfl, rfl⟩

/-- C19, amended: for an opening bracket at `l` that is not directly preceded by
another opening bracket and whose matching closing bracket is at `m ≤ r`,
`skipBrackets(l, r)` returns `m`, and `getArg`, when it reads that bracket,
calls `parse(l, m)` and returns its tree with the end position `m`, the
position of the closing bracket itself. -/
theorem C19_skipBrackets_match (s : List Char) (l m r : Nat) (hm : MatchAt s l m)
    (hr : m ≤ r) (hprev : l = 0 ∨ s[l - 1]? ≠ some '(') :
    skipBrackets s l r false = .ok m ∧
    ∀ (g : Nat → Nat → Except Err Expr) (start : Nat),
      skipClosing s (skipWhitespaces s start) = l →
      getArg s g start r = (g l m).map (fun res => some (res, m)) :=
  ⟨skipBrackets_matchAt hm hr hprev, fun g _ hstart => getArg_matchAt g hstart hm hr hprev⟩

/-- C19, amended, at the inner expression of `(+ (+ x y) z)`, the positions 3..9. -/
theorem C19_skipBrackets_match_witness :
    skipBrackets "(+ (+ x y) z)".toList 3 13 false = .ok 9 ∧
    ∀ (g : Nat → Nat → Except Err Expr) (start : Nat),
      skipClosing "(+ (+ x y) z)".toList (skipWhitespaces "(+ (+ x y) z)".toList start) = 3 →
      getArg "(+ (+ x y) z)".toList g start 13 = (g 3 9).map (fun res => some (res, 9)) :=
  C19_skipBrackets_match "(+ (+ x y) z)".toList 3 9 13 (by decide) (by decide)
    (Or.inr (by decide))

/-- C20: the number-format error is unreachable. For every input, `parsePrefix`
does not raise "NaN"; at a position that holds a digit or `-`, the only kind
of position at which `getArg` calls it, `parseNumStr` returns a run of at least
one character; and `getArg` raises "NaN" only if its recursive call does. -/
theorem C20_nan_error_unreachable :
    (∀ s : List Char, parsePrefix s ≠ .error .nan) ∧
    (∀ (s : List Char) (l : Nat), (isDigit s[l]? = true ∨ s[l]? = some '-') →
      ∃ res, parseNumStr s l = .ok res ∧ 1 ≤ res.length) ∧
    (∀ (s : List Char) (g : Nat → Nat → Except Err Expr) (start r : Nat),
      (∀ l' r', g l' r' ≠ .error .nan) → getArg s g start r ≠ .error .nan) := by
  refine ⟨?_, fun _ _ h => parseNumStr_ok_of_head h, ?_⟩
  · intro s h
    by_cases hs : s = []
    · subst hs
      have h0 : parsePrefix [] = .error .emptyInput := rfl
      rw [h0] at h
      cases h
    · have := parsePrefix_error_raised hs h
      simp [Err.raisedByParser] at this
  · intro s g start r hg h
    rcases getArg_error_prov g h with h1 | ⟨l', r', _, _, h1⟩
    · simp [Err.raisedByParser] at h1
    · exact hg l' r' h1

end ObjectExpression
